import Mathlib

/-!
Verification of the local foreground/background segmentation engine of the
image-compressor repository (class `BackgroundRemover`, heuristic pipeline).

Embedding conventions:

* A pixel buffer is modelled as `data : ℕ → ℕ`, the flat RGBA byte array
  (`data (p*4)`, `data (p*4+1)`, `data (p*4+2)`, `data (p*4+3)` are the
  R, G, B, A bytes of pixel `p`).  The pipeline stages other than
  `estimateBackgroundModel` index the `Uint8ClampedArray` in range on
  every input with `width ≥ 1`, `height ≥ 1` and are embedded with total
  reads.  The border sampling of `estimateBackgroundModel` reads out of
  range when `height < border` (border ≥ 6); it therefore gets a faithful
  embedding `estimateBackgroundModelJs` over `JsNum := Option ℚ`, where
  `none` is the JavaScript non-value (`undefined` from an out-of-range
  read, and the `NaN` it becomes under arithmetic), while
  `estimateBackgroundModel` is its in-range restriction, agreeing with
  the faithful embedding through `addSampleJs_image`,
  `collectSamplesJs_image` and `modelFromSamplesJs_map`.
* JavaScript floating-point numbers are modelled by exact rationals `ℚ`
  (idealized real arithmetic).
* `Math.sqrt` based colour distances are represented by their squares,
  which are exact rationals.  Every comparison the source performs on a
  distance is embedded as the equivalent comparison on squares: for
  `0 ≤ a`, `0 ≤ b` we have `√a ≤ √b ↔ a ≤ b`, and comparisons of the form
  `√a ≤ √b + c` are decided exactly by `leSqrtAdd` below, which is proved
  equivalent to the real-number comparison (`leSqrtAdd_iff`).
* Binary masks are `ℕ → ℕ` with values `0`/`1` (one byte per pixel),
  continuous mattes are `ℕ → ℚ`.
* The breadth-first searches of the source use an explicit array-backed
  queue of fixed capacity `width*height`; they are embedded as a fuelled
  worklist loop returning `Option`, where `none` models exhaustion of the
  fixed-capacity queue.  The theorems prove the `some` case is always
  reached, i.e. the queue capacity is never exceeded.
-/

/-- Embedding of the source helper `clamp(value, min, max)`:
`Math.max(min, Math.min(max, value))`. -/
def clamp (value lo hi : ℚ) : ℚ := max lo (min hi value)

/-- JavaScript `Math.round` on (nonnegative) numbers: round half up. -/
def jsRound (q : ℚ) : ℤ := ⌊q + 1/2⌋

/-- Squared Euclidean RGB distance.  The source `rgbDistance` returns
`Math.sqrt(dr*dr + dg*dg + db*db)`; we embed the radicand. -/
def rgbDistanceSq (r1 g1 b1 r2 g2 b2 : ℚ) : ℚ :=
  (r1 - r2) ^ 2 + (g1 - g2) ^ 2 + (b1 - b2) ^ 2

/-- Squared distance between the colour of pixel `pixelIndex` of the buffer
and an RGB triple (source `rgbDistanceAt`). -/
def rgbDistanceSqAt (data : ℕ → ℕ) (pixelIndex : ℕ) (r g b : ℚ) : ℚ :=
  rgbDistanceSq (data (pixelIndex * 4)) (data (pixelIndex * 4 + 1))
    (data (pixelIndex * 4 + 2)) r g b

/-- Squared distance between the colours of two pixels of the buffer
(source `rgbDistanceBetweenIndices`). -/
def rgbDistanceSqBetweenIndices (data : ℕ → ℕ) (i j : ℕ) : ℚ :=
  rgbDistanceSq (data (i * 4)) (data (i * 4 + 1)) (data (i * 4 + 2))
    (data (j * 4)) (data (j * 4 + 1)) (data (j * 4 + 2))

theorem rgbDistanceSq_nonneg (r1 g1 b1 r2 g2 b2 : ℚ) :
    0 ≤ rgbDistanceSq r1 g1 b1 r2 g2 b2 := by
  unfold rgbDistanceSq; positivity

/-- Exact decision procedure for `√d ≤ √e + c` over the reals, for
`0 ≤ d`, `0 ≤ e` (rational `d`, `e`, `c`).  Used to embed the comparisons
the source performs between a square-rooted distance and a threshold that
is itself the sum of a square-rooted quantity and a rational. -/
def leSqrtAdd (d e c : ℚ) : Bool :=
  if 0 ≤ c then
    decide (d - e - c ^ 2 ≤ 0) || decide ((d - e - c ^ 2) ^ 2 ≤ 4 * c ^ 2 * e)
  else
    decide (0 ≤ e - d - c ^ 2) && decide (4 * c ^ 2 * d ≤ (e - d - c ^ 2) ^ 2)

theorem leSqrtAdd_iff {d e c : ℚ} (hd : 0 ≤ d) (he : 0 ≤ e) :
    leSqrtAdd d e c = true ↔
      Real.sqrt (d : ℝ) ≤ Real.sqrt (e : ℝ) + (c : ℝ) := by
  have hd' : (0 : ℝ) ≤ (d : ℝ) := by exact_mod_cast hd
  have he' : (0 : ℝ) ≤ (e : ℝ) := by exact_mod_cast he
  have hse : Real.sqrt (e : ℝ) ^ 2 = (e : ℝ) := Real.sq_sqrt he'
  have hsd : Real.sqrt (d : ℝ) ^ 2 = (d : ℝ) := Real.sq_sqrt hd'
  have hsen : (0 : ℝ) ≤ Real.sqrt (e : ℝ) := Real.sqrt_nonneg _
  have hsdn : (0 : ℝ) ≤ Real.sqrt (d : ℝ) := Real.sqrt_nonneg _
  unfold leSqrtAdd
  by_cases hc : 0 ≤ c
  · have hc' : (0 : ℝ) ≤ (c : ℝ) := by exact_mod_cast hc
    simp only [hc, if_pos, Bool.or_eq_true, decide_eq_true_eq]
    constructor
    · rintro (h | h)
      · -- d ≤ e + c², hence √d ≤ √(e + c² + 2c√e) = √e + c
        have hmain : (d : ℝ) ≤ ((Real.sqrt (e : ℝ) + (c : ℝ))) ^ 2 := by
          have hd2 : (d : ℝ) - (e : ℝ) - (c : ℝ) ^ 2 ≤ 0 := by exact_mod_cast h
          nlinarith [mul_nonneg hc' hsen]
        calc Real.sqrt (d : ℝ) ≤ Real.sqrt (((Real.sqrt (e : ℝ) + (c : ℝ))) ^ 2) :=
              Real.sqrt_le_sqrt hmain
          _ = Real.sqrt (e : ℝ) + (c : ℝ) := Real.sqrt_sq (by positivity)
      · -- (d - e - c²)² ≤ 4c²e, so d - e - c² ≤ 2c√e
        have hm : ((d : ℝ) - (e : ℝ) - (c : ℝ) ^ 2) ^ 2 ≤ 4 * (c : ℝ) ^ 2 * (e : ℝ) := by
          exact_mod_cast h
        have h2 : (d : ℝ) - (e : ℝ) - (c : ℝ) ^ 2 ≤ 2 * (c : ℝ) * Real.sqrt (e : ℝ) := by
          nlinarith [sq_nonneg ((d : ℝ) - (e : ℝ) - (c : ℝ) ^ 2 - 2 * (c : ℝ) * Real.sqrt (e : ℝ)),
            mul_nonneg hc' hsen, hse]
        have hmain : (d : ℝ) ≤ ((Real.sqrt (e : ℝ) + (c : ℝ))) ^ 2 := by nlinarith
        calc Real.sqrt (d : ℝ) ≤ Real.sqrt (((Real.sqrt (e : ℝ) + (c : ℝ))) ^ 2) :=
              Real.sqrt_le_sqrt hmain
          _ = Real.sqrt (e : ℝ) + (c : ℝ) := Real.sqrt_sq (by positivity)
    · intro h
      have hsq : (d : ℝ) ≤ ((Real.sqrt (e : ℝ) + (c : ℝ))) ^ 2 := by
        have := Real.sqrt_le_left (x := (d : ℝ)) (y := Real.sqrt (e : ℝ) + (c : ℝ))
          (by positivity)
        exact (this.mp h)
      have hkey : (d : ℝ) - (e : ℝ) - (c : ℝ) ^ 2 ≤ 2 * (c : ℝ) * Real.sqrt (e : ℝ) := by
        nlinarith
      by_cases hm : d - e - c ^ 2 ≤ 0
      · exact Or.inl (by exact_mod_cast hm)
      · right
        have hm' : (0 : ℝ) < (d : ℝ) - (e : ℝ) - (c : ℝ) ^ 2 := by
          have h0 : (0 : ℚ) < d - e - c ^ 2 := not_le.mp hm
          exact_mod_cast h0
        have : ((d : ℝ) - (e : ℝ) - (c : ℝ) ^ 2) ^ 2 ≤ 4 * (c : ℝ) ^ 2 * (e : ℝ) := by
          nlinarith [mul_nonneg hc' hsen]
        exact_mod_cast this
  · have hc' : (c : ℝ) < 0 := by
      have : c < 0 := lt_of_not_ge hc
      exact_mod_cast this
    simp only [hc, if_neg, not_false_iff, Bool.and_eq_true, decide_eq_true_eq]
    constructor
    · rintro ⟨h1, h2⟩
      have h1' : (0 : ℝ) ≤ (e : ℝ) - (d : ℝ) - (c : ℝ) ^ 2 := by exact_mod_cast h1
      have h2' : 4 * (c : ℝ) ^ 2 * (d : ℝ) ≤ ((e : ℝ) - (d : ℝ) - (c : ℝ) ^ 2) ^ 2 := by
        exact_mod_cast h2
      -- show √d - c ≤ √e by squaring: d - 2c√d + c² ≤ e
      have hkey : -(2 * (c : ℝ)) * Real.sqrt (d : ℝ) ≤ (e : ℝ) - (d : ℝ) - (c : ℝ) ^ 2 := by
        nlinarith [sq_nonneg (((e : ℝ) - (d : ℝ) - (c : ℝ) ^ 2) + 2 * (c : ℝ) * Real.sqrt (d : ℝ)),
          hsd, mul_nonneg (mul_nonneg (by norm_num : (0:ℝ) ≤ 4) (sq_nonneg (c : ℝ))) hsdn]
      have hmain : Real.sqrt (d : ℝ) - (c : ℝ) ≤ Real.sqrt (e : ℝ) := by
        have hnn : (0 : ℝ) ≤ Real.sqrt (d : ℝ) - (c : ℝ) := by linarith
        have hsq2 : (Real.sqrt (d : ℝ) - (c : ℝ)) ^ 2 ≤ (e : ℝ) := by nlinarith
        calc Real.sqrt (d : ℝ) - (c : ℝ)
            = Real.sqrt ((Real.sqrt (d : ℝ) - (c : ℝ)) ^ 2) := (Real.sqrt_sq hnn).symm
          _ ≤ Real.sqrt (e : ℝ) := Real.sqrt_le_sqrt hsq2
      linarith
    · intro h
      have hnn : (0 : ℝ) ≤ Real.sqrt (d : ℝ) - (c : ℝ) := by linarith
      have hsq2 : (Real.sqrt (d : ℝ) - (c : ℝ)) ^ 2 ≤ (e : ℝ) := by
        have : Real.sqrt (d : ℝ) - (c : ℝ) ≤ Real.sqrt (e : ℝ) := by linarith
        nlinarith [hse, hsen]
      constructor
      · have : (0 : ℝ) ≤ (e : ℝ) - (d : ℝ) - (c : ℝ) ^ 2 := by
          nlinarith [mul_nonneg (neg_nonneg.mpr (le_of_lt hc')) hsdn]
        exact_mod_cast this
      · have : 4 * (c : ℝ) ^ 2 * (d : ℝ) ≤ ((e : ℝ) - (d : ℝ) - (c : ℝ) ^ 2) ^ 2 := by
          nlinarith [mul_nonneg (neg_nonneg.mpr (le_of_lt hc')) hsdn, hsd]
        exact_mod_cast this

/-- Simple comparison bridge: for `0 ≤ d` and `0 ≤ c`,
`√d ≤ c ↔ d ≤ c²`. -/
theorem sqrt_le_rat_iff {d c : ℚ} (hc : 0 ≤ c) :
    Real.sqrt (d : ℝ) ≤ (c : ℝ) ↔ d ≤ c ^ 2 := by
  have hc' : (0 : ℝ) ≤ (c : ℝ) := by exact_mod_cast hc
  rw [Real.sqrt_le_left hc']
  exact_mod_cast Iff.rfl

/-- Iteration list of the JavaScript loop `for (v = 0; v < bound; v += step)`
(for `step ≥ 1`). -/
def stepRange (bound step : ℕ) : List ℕ :=
  (List.range ((bound + step - 1) / step)).map (fun i => i * step)

/-- Iteration list of `for (v = start; v < bound; v += step)` (for `step ≥ 1`;
an empty list when `bound ≤ start`, matching the JavaScript guard). -/
def stepRangeFrom (start bound step : ℕ) : List ℕ :=
  (stepRange (bound - start) step).map (fun v => start + v)

/-- A border colour sample: the R, G, B bytes of a sampled pixel. -/
structure Sample where
  r : ℕ
  g : ℕ
  b : ℕ
deriving DecidableEq, Repr

/-- A coarse colour bin of the estimator: sample count and channel sums
(source: the values of the `bins` map). -/
structure Bin where
  count : ℕ
  r : ℕ
  g : ℕ
  b : ℕ
deriving DecidableEq, Repr

/-- Association list embedding of the `bins` JavaScript `Map`, keyed by the
4-bit-quantized colour triple.  JavaScript `Map` iteration order is insertion
order; the association list preserves exactly that order, an existing key is
updated in place and a new key is appended at the end. -/
def binsInsert (key : ℕ × ℕ × ℕ) (r g b : ℕ) :
    List ((ℕ × ℕ × ℕ) × Bin) → List ((ℕ × ℕ × ℕ) × Bin)
  | [] => [(key, ⟨1, r, g, b⟩)]
  | (k, v) :: rest =>
      if k = key then
        (k, ⟨v.count + 1, v.r + r, v.g + g, v.b + b⟩) :: rest
      else
        (k, v) :: binsInsert key r g b rest

/-- State of the sampling phase of `estimateBackgroundModel`: the `samples`
array and the `bins` map. -/
structure SampleState where
  samples : List Sample
  bins : List ((ℕ × ℕ × ℕ) × Bin)

/-- Embedding of the closure `addSample(x, y)` of `estimateBackgroundModel`:
skip near-transparent pixels (`alpha < 16`), push the sample and update the
colour bin keyed by `(r >> 4, g >> 4, b >> 4)`. -/
def addSample (data : ℕ → ℕ) (width : ℕ) (st : SampleState) (x y : ℕ) :
    SampleState :=
  let idx := (y * width + x) * 4
  let a := data (idx + 3)
  if a < 16 then st
  else
    let r := data idx
    let g := data (idx + 1)
    let b := data (idx + 2)
    { samples := st.samples ++ [⟨r, g, b⟩]
      bins := binsInsert (r / 16, g / 16, b / 16) r g b st.bins }

/-- Complete border-band sampling pass of `estimateBackgroundModel`:
the top/bottom band rows, then the left/right band columns between them,
exactly in source iteration order. -/
def collectSamples (data : ℕ → ℕ) (width height border step : ℕ) :
    SampleState :=
  let st0 : SampleState := ⟨[], []⟩
  let st1 := (stepRange border step).foldl
    (fun st y => (stepRange width step).foldl
      (fun st x => addSample data width (addSample data width st x y) x (height - 1 - y)) st) st0
  (stepRange border step).foldl
    (fun st x => (stepRangeFrom border (height - border) step).foldl
      (fun st y => addSample data width (addSample data width st x y) (width - 1 - x) y) st) st1

/-- Mean colour of a sample pool, rounded per channel (source `averageColor`);
returns black for an empty pool. -/
def averageColor (samples : List Sample) : ℚ × ℚ × ℚ :=
  if samples.length = 0 then (0, 0, 0)
  else
    let r := samples.foldl (fun acc s => acc + s.r) (0 : ℕ)
    let g := samples.foldl (fun acc s => acc + s.g) (0 : ℕ)
    let b := samples.foldl (fun acc s => acc + s.b) (0 : ℕ)
    ((jsRound ((r : ℚ) / samples.length) : ℚ),
     (jsRound ((g : ℚ) / samples.length) : ℚ),
     (jsRound ((b : ℚ) / samples.length) : ℚ))

/-- Source `percentileSorted(sortedValues, percentile)`; here `sortedValues`
holds the squared distances (sorted ascending, which coincides with the
source's ascending sort of the distances themselves). -/
def percentileSorted (sortedValues : List ℚ) (percentile : ℚ) : ℚ :=
  if sortedValues.length = 0 then 0
  else
    let index : ℕ :=
      min (sortedValues.length - 1)
        (max 0 ⌊((sortedValues.length - 1 : ℕ) : ℚ) * percentile⌋).toNat
    sortedValues.getD index 0

/-- The background colour model.  `toleranceSq` and `expansionToleranceSq`
are the squares of the source's `tolerance` and `expansionTolerance`. -/
structure BackgroundModel where
  r : ℚ
  g : ℚ
  b : ℚ
  toleranceSq : ℚ
  expansionToleranceSq : ℚ
deriving DecidableEq, Repr

/-- Pick the most populous bin, first strict maximum in map iteration
(insertion) order — source loop `for (const value of bins.values())` with
`value.count > dominant.count`. -/
def dominantBin (bins : List ((ℕ × ℕ × ℕ) × Bin)) : Option Bin :=
  bins.foldl
    (fun best kv =>
      match best with
      | none => some kv.2
      | some d => if kv.2.count > d.count then some kv.2 else some d)
    none

/-- The ascending rational sort used throughout (embedding of the source's
`array.sort((a, b) => a - b)` on nonnegative numbers). -/
def sortAscending (l : List ℚ) : List ℚ :=
  l.mergeSort (fun a b => decide (a ≤ b))

/-- The non-degenerate branch of `estimateBackgroundModel`: dominant-bin
centre, refinement, percentile tolerances. -/
def modelFromSamples (st : SampleState) : BackgroundModel :=
  let dom := (dominantBin st.bins).getD ⟨1, 0, 0, 0⟩
  let center0 : ℚ × ℚ × ℚ :=
    ((jsRound ((dom.r : ℚ) / dom.count) : ℚ),
     (jsRound ((dom.g : ℚ) / dom.count) : ℚ),
     (jsRound ((dom.b : ℚ) / dom.count) : ℚ))
  let nearSamples := st.samples.filter
    (fun s => rgbDistanceSq s.r s.g s.b center0.1 center0.2.1 center0.2.2 < 1764)
  let refinedPool := if 50 ≤ nearSamples.length then nearSamples else st.samples
  let center := averageColor refinedPool
  let sortedSq := sortAscending (refinedPool.map
    (fun s => rgbDistanceSq s.r s.g s.b center.1 center.2.1 center.2.2))
  let p80Sq := percentileSorted sortedSq (8/10)
  let p95Sq := percentileSorted sortedSq (95/100)
  ⟨center.1, center.2.1, center.2.2,
    clamp (max 576 (p80Sq * (25/16))) 576 12100,
    clamp (max 1024 (p95Sq * (729/400))) 1024 18225⟩

/-- Embedding of `estimateBackgroundModel(data, width, height)`.
Distances are carried as squares; the tolerance formulas
`tolerance = clamp(max(24, p80*1.25), 24, 110)` and
`expansionTolerance = clamp(max(32, p95*1.35), 32, 135)` are embedded via
their squares (`24² = 576`, `110² = 12100`, `1.25² = 25/16`, `32² = 1024`,
`135² = 18225`, `1.35² = 729/400`), which is exact because squaring is
monotone on nonnegative reals and commutes with `max`, `min` and `clamp`. -/
def estimateBackgroundModel (data : ℕ → ℕ) (width height : ℕ) :
    BackgroundModel :=
  let border := max 6 (min 18 (jsRound ((min width height : ℕ) * (25/1000 : ℚ))).toNat)
  let step := max 1 (jsRound (((min width height : ℕ) : ℚ) / 320)).toNat
  let st := collectSamples data width height border step
  if st.samples.length = 0 then
    ⟨245, 245, 245, 900, 1764⟩
  else
    modelFromSamples st

theorem sortAscending_sorted (l : List ℚ) :
    List.Sorted (· ≤ ·) (sortAscending l) := by
  have h := @List.sorted_mergeSort ℚ (fun a b : ℚ => decide (a ≤ b))
    (fun a b c h1 h2 => by
      simp only [decide_eq_true_eq] at h1 h2 ⊢
      exact le_trans h1 h2)
    (fun a b => by
      simp only [Bool.or_eq_true, decide_eq_true_eq]
      exact le_total a b)
    l
  exact h.imp (fun h => of_decide_eq_true h)

theorem sortAscending_mem {l : List ℚ} {q : ℚ} :
    q ∈ sortAscending l ↔ q ∈ l :=
  (List.mergeSort_perm l _).mem_iff

theorem sorted_getD_mono {l : List ℚ} (hl : List.Sorted (· ≤ ·) l) {i j : ℕ}
    (hij : i ≤ j) (hj : j < l.length) : l.getD i 0 ≤ l.getD j 0 := by
  have hi : i < l.length := lt_of_le_of_lt hij hj
  rw [List.getD_eq_getElem l 0 hi, List.getD_eq_getElem l 0 hj]
  rcases lt_or_eq_of_le hij with h | h
  · exact hl.rel_get_of_lt (a := ⟨i, hi⟩) (b := ⟨j, hj⟩) h
  · subst h; exact le_refl _

theorem percentileSorted_nonneg {l : List ℚ} (h0 : ∀ q ∈ l, 0 ≤ q)
    (p : ℚ) : 0 ≤ percentileSorted l p := by
  unfold percentileSorted
  split
  · exact le_refl 0
  · rename_i hne
    have hlen : 0 < l.length := Nat.pos_of_ne_zero hne
    have hidx : min (l.length - 1) (max 0 ⌊((l.length - 1 : ℕ) : ℚ) * p⌋).toNat < l.length :=
      lt_of_le_of_lt (min_le_left _ _) (Nat.sub_lt hlen (by norm_num))
    rw [List.getD_eq_getElem l 0 hidx]
    exact h0 _ (List.getElem_mem hidx)

theorem percentileSorted_mono {l : List ℚ} (hl : List.Sorted (· ≤ ·) l)
    {p1 p2 : ℚ} (h12 : p1 ≤ p2) :
    percentileSorted l p1 ≤ percentileSorted l p2 := by
  unfold percentileSorted
  split
  · exact le_refl 0
  · rename_i hne
    have hlen : 0 < l.length := Nat.pos_of_ne_zero hne
    have hfloor : ⌊((l.length - 1 : ℕ) : ℚ) * p1⌋ ≤ ⌊((l.length - 1 : ℕ) : ℚ) * p2⌋ :=
      Int.floor_le_floor (mul_le_mul_of_nonneg_left h12 (by positivity))
    have hidx : min (l.length - 1) (max 0 ⌊((l.length - 1 : ℕ) : ℚ) * p1⌋).toNat ≤
        min (l.length - 1) (max 0 ⌊((l.length - 1 : ℕ) : ℚ) * p2⌋).toNat :=
      min_le_min (le_refl _) (Int.toNat_le_toNat (max_le_max (le_refl _) hfloor))
    have hj : min (l.length - 1) (max 0 ⌊((l.length - 1 : ℕ) : ℚ) * p2⌋).toNat < l.length :=
      lt_of_le_of_lt (min_le_left _ _) (Nat.sub_lt hlen (by norm_num))
    exact sorted_getD_mono hl hidx hj

theorem clamp_tol_le_expTol {p80Sq p95Sq : ℚ}
    (h95 : 0 ≤ p95Sq) (h : p80Sq ≤ p95Sq) :
    clamp (max 576 (p80Sq * (25/16))) 576 12100 ≤
      clamp (max 1024 (p95Sq * (729/400))) 1024 18225 := by
  unfold clamp
  have h1 : p80Sq * (25/16) ≤ p95Sq * (729/400) := by
    calc p80Sq * (25/16) ≤ p95Sq * (25/16) :=
          mul_le_mul_of_nonneg_right h (by norm_num)
      _ ≤ p95Sq * (729/400) :=
          mul_le_mul_of_nonneg_left (by norm_num) h95
  exact max_le_max (by norm_num)
    (min_le_min (by norm_num) (max_le_max (by norm_num) h1))

theorem modelFromSamples_tolSq_le (st : SampleState) :
    (modelFromSamples st).toleranceSq ≤ (modelFromSamples st).expansionToleranceSq := by
  unfold modelFromSamples
  dsimp only
  refine clamp_tol_le_expTol ?_ ?_
  · refine percentileSorted_nonneg ?_ _
    intro q hq
    rcases List.mem_map.mp (sortAscending_mem.mp hq) with ⟨s, _, rfl⟩
    exact rgbDistanceSq_nonneg _ _ _ _ _ _
  · exact percentileSorted_mono (sortAscending_sorted _) (by norm_num)

theorem estimateBackgroundModel_tolSq_le (data : ℕ → ℕ) (width height : ℕ) :
    (estimateBackgroundModel data width height).toleranceSq ≤
      (estimateBackgroundModel data width height).expansionToleranceSq := by
  unfold estimateBackgroundModel
  dsimp only
  split
  · norm_num
  · exact modelFromSamples_tolSq_le _

/-! #### Faithful JavaScript-number embedding of `estimateBackgroundModel`

`estimateBackgroundModel` samples the border band with
`border = max(6, min(18, round(min(width, height)*0.025))) ≥ 6`; for
`height < border` the row loop evaluates `addSample(x, height - 1 - y)` at
negative rows and `addSample(x, y)` at rows `y ≥ height`, so the reads
`data[idx] … data[idx+3]` index the `Uint8ClampedArray` out of range.  An
out-of-range indexed read returns `undefined`: the guard
`if (data[idx + 3] < 16) return` does not fire (`undefined < 16` is
`false`), the sample `[undefined, undefined, undefined]` is pushed, and
the non-value then propagates as `NaN` through the bin sums, the
averages, the percentiles and the tolerance formulas — in every operation
this code performs, `undefined` and `NaN` behave identically (arithmetic
yields `NaN`, every `<` / `>=` comparison is `false`, `Math.round`,
`Math.max`, `Math.min` and division propagate `NaN`, and
`undefined >> 4 = 0`).

The definitions below embed this faithfully.  A JavaScript number in the
estimator's data path is a `JsNum := Option ℚ`: `some q` is an ordinary
(finite) number of rational value `q`, `none` is the non-value
(`undefined` / `NaN`).  A pixel read is all-or-nothing: for the flat
pixel index `p = y*width + x` — computed in `ℤ`, since the source
computes negative coordinates — all four byte indices `4p … 4p + 3` are
in range iff `0 ≤ p < width*height`.  The sort comparator
`(a, b) => a - b` is inconsistent in the presence of `NaN` (the
comparator returns `NaN`, which the sort treats as "equal"), for which
ECMAScript leaves the resulting order implementation-defined; the
embedding fixes the order by treating the non-value as smallest, which
coincides with the source's comparator wherever the comparator is
consistent.  `estimateBackgroundModel` above is the in-range restriction
of this embedding: `addSampleJs` agrees with `addSample` on every
in-range read (`addSampleJs_image`) and the model computation agrees
pointwise on rational-valued states (`modelFromSamplesJs_map`), while on
buffers with `height < 6` the two genuinely differ
(`estimateBackgroundModel_undefined_counterexample`). -/

/-- A JavaScript number in the data path of `estimateBackgroundModel`:
`some q` is a finite number of rational value `q`, `none` is the
non-value (`undefined` from an out-of-range array read, and the `NaN` it
becomes under arithmetic). -/
abbrev JsNum : Type := Option ℚ

/-- JavaScript `+` on the estimator's numbers: the non-value contaminates
the sum. -/
def jsAdd : JsNum → JsNum → JsNum
  | some x, some y => some (x + y)
  | _, _ => none

/-- Multiplication by a rational constant (`NaN` propagates). -/
def jsMul (a : JsNum) (c : ℚ) : JsNum := a.map (fun q => q * c)

/-- Division by a natural-number length (`NaN` propagates). -/
def jsDivN (a : JsNum) (n : ℕ) : JsNum := a.map (fun q => q / (n : ℚ))

/-- `Math.round` on a JavaScript number (`Math.round NaN = NaN`). -/
def jsRoundN (a : JsNum) : JsNum := a.map (fun q => (jsRound q : ℚ))

/-- `Math.max` (`NaN` if either argument is `NaN`). -/
def jsMaxN : JsNum → JsNum → JsNum
  | some x, some y => some (max x y)
  | _, _ => none

/-- `Math.min` (`NaN` if either argument is `NaN`). -/
def jsMinN : JsNum → JsNum → JsNum
  | some x, some y => some (min x y)
  | _, _ => none

/-- Source `clamp(value, lo, hi) = Math.max(lo, Math.min(hi, value))` on
JavaScript numbers (`clamp(NaN, lo, hi) = NaN`). -/
def jsClampN (v : JsNum) (lo hi : ℚ) : JsNum :=
  jsMaxN (some lo) (jsMinN (some hi) v)

/-- The JavaScript comparison `a < c` against a number literal: `false`
when `a` is the non-value. -/
def jsLtB (a : JsNum) (c : ℚ) : Bool :=
  match a with
  | some x => decide (x < c)
  | none => false

/-- The JavaScript comparison `a >= b`: `false` when either side is the
non-value. -/
def jsGe (a b : JsNum) : Bool :=
  match a, b with
  | some x, some y => decide (y ≤ x)
  | _, _ => false

/-- Comparator of the embedded `sort((a, b) => a - b)`, totalized by
putting the non-value first (see the section comment: with `NaN` present
the source comparator is inconsistent and ECMAScript leaves the order
implementation-defined; on non-value-free input this is exactly the
source's ascending order). -/
def jsLeB : JsNum → JsNum → Bool
  | some x, some y => decide (x ≤ y)
  | none, _ => true
  | some _, none => false

/-- A pushed border sample: the three colour bytes, or the non-value
triple `[undefined, undefined, undefined]` of an out-of-range read. -/
abbrev JsSample : Type := Option (ℕ × ℕ × ℕ)

/-- A colour bin with JavaScript-number channel sums (the `count` field
only ever receives the literal `1` and `+ 1`, so it stays a genuine
number even on non-value samples). -/
structure JsBin where
  count : ℕ
  r : JsNum
  g : JsNum
  b : JsNum

/-- The channel triple of a sample as JavaScript numbers. -/
def jsComps : JsSample → JsNum × JsNum × JsNum
  | some (r, g, b) => (some (r : ℚ), some (g : ℚ), some (b : ℚ))
  | none => (none, none, none)

/-- Insertion-ordered `bins` map update on JavaScript-number bins. -/
def binsInsertJs (key : ℕ × ℕ × ℕ) (r g b : JsNum) :
    List ((ℕ × ℕ × ℕ) × JsBin) → List ((ℕ × ℕ × ℕ) × JsBin)
  | [] => [(key, ⟨1, r, g, b⟩)]
  | (k, v) :: rest =>
      if k = key then
        (k, ⟨v.count + 1, jsAdd v.r r, jsAdd v.g g, jsAdd v.b b⟩) :: rest
      else
        (k, v) :: binsInsertJs key r g b rest

/-- State of the faithful sampling pass. -/
structure JsSampleState where
  samples : List JsSample
  bins : List ((ℕ × ℕ × ℕ) × JsBin)

/-- Faithful embedding of the closure `addSample(x, y)`: coordinates are
integers (the loops evaluate `height - 1 - y` and `width - 1 - x`, which
can be negative); the four byte reads at `idx = (y*width + x)*4` are in
range iff `0 ≤ y*width + x < width*height`, and an out-of-range read
yields the non-value, which passes the `alpha < 16` guard (the comparison
is `false`) and is pushed with bin key `(0, 0, 0)`
(`undefined >> 4 = 0`). -/
def addSampleJs (data : ℕ → ℕ) (width height : ℕ) (st : JsSampleState)
    (x y : ℤ) : JsSampleState :=
  let p : ℤ := y * width + x
  if 0 ≤ p ∧ p < ((width * height : ℕ) : ℤ) then
    let a := data (p.toNat * 4 + 3)
    if a < 16 then st
    else
      let r := data (p.toNat * 4)
      let g := data (p.toNat * 4 + 1)
      let b := data (p.toNat * 4 + 2)
      { samples := st.samples ++ [some (r, g, b)]
        bins := binsInsertJs (r / 16, g / 16, b / 16)
          (some (r : ℚ)) (some (g : ℚ)) (some (b : ℚ)) st.bins }
  else
    { samples := st.samples ++ [none]
      bins := binsInsertJs (0, 0, 0) none none none st.bins }

/-- Faithful border-band sampling pass: both loop nests of the source,
with the coordinate arithmetic performed in `ℤ`. -/
def collectSamplesJs (data : ℕ → ℕ) (width height border step : ℕ) :
    JsSampleState :=
  let st0 : JsSampleState := ⟨[], []⟩
  let st1 := (stepRange border step).foldl
    (fun st (y : ℕ) => (stepRange width step).foldl
      (fun st (x : ℕ) => addSampleJs data width height
        (addSampleJs data width height st (x : ℤ) (y : ℤ))
        (x : ℤ) ((height : ℤ) - 1 - (y : ℤ))) st) st0
  (stepRange border step).foldl
    (fun st (x : ℕ) => (stepRangeFrom border (height - border) step).foldl
      (fun st (y : ℕ) => addSampleJs data width height
        (addSampleJs data width height st (x : ℤ) (y : ℤ))
        ((width : ℤ) - 1 - (x : ℤ)) (y : ℤ)) st) st1

/-- Mean colour (source `averageColor`) on JavaScript numbers. -/
def averageColorJs (samples : List JsSample) : JsNum × JsNum × JsNum :=
  if samples.length = 0 then (some 0, some 0, some 0)
  else
    let r := samples.foldl (fun acc s => jsAdd acc (jsComps s).1) (some 0)
    let g := samples.foldl (fun acc s => jsAdd acc (jsComps s).2.1) (some 0)
    let b := samples.foldl (fun acc s => jsAdd acc (jsComps s).2.2) (some 0)
    (jsRoundN (jsDivN r samples.length),
     jsRoundN (jsDivN g samples.length),
     jsRoundN (jsDivN b samples.length))

/-- Source `percentileSorted` on JavaScript numbers; as in
`percentileSorted`, the list holds the squared distances. -/
def percentileSortedJs (sortedValues : List JsNum) (percentile : ℚ) : JsNum :=
  if sortedValues.length = 0 then some 0
  else
    let index : ℕ :=
      min (sortedValues.length - 1)
        (max 0 ⌊((sortedValues.length - 1 : ℕ) : ℚ) * percentile⌋).toNat
    sortedValues.getD index (some 0)

/-- Squared colour distance of a sample to a centre triple: a non-value
anywhere makes the distance `NaN`. -/
def rgbDistanceSqJs (s : JsSample) (c : JsNum × JsNum × JsNum) : JsNum :=
  match s, c with
  | some (r, g, b), (some cr, some cg, some cb) =>
      some (rgbDistanceSq (r : ℚ) (g : ℚ) (b : ℚ) cr cg cb)
  | _, _ => none

/-- Dominant bin (first strict maximum of `count` in insertion order). -/
def dominantBinJs (bins : List ((ℕ × ℕ × ℕ) × JsBin)) : Option JsBin :=
  bins.foldl
    (fun best kv =>
      match best with
      | none => some kv.2
      | some d => if kv.2.count > d.count then some kv.2 else some d)
    none

/-- The embedded `sort((a, b) => a - b)` on JavaScript numbers. -/
def jsSortAscending (l : List JsNum) : List JsNum := l.mergeSort jsLeB

/-- The background model with JavaScript-number fields. -/
structure JsModel where
  r : JsNum
  g : JsNum
  b : JsNum
  toleranceSq : JsNum
  expansionToleranceSq : JsNum

/-- Non-degenerate branch of `estimateBackgroundModel` on JavaScript
numbers (squared-distance convention as in `modelFromSamples`). -/
def modelFromSamplesJs (st : JsSampleState) : JsModel :=
  let dom := (dominantBinJs st.bins).getD ⟨1, some 0, some 0, some 0⟩
  let center0 : JsNum × JsNum × JsNum :=
    (jsRoundN (jsDivN dom.r dom.count),
     jsRoundN (jsDivN dom.g dom.count),
     jsRoundN (jsDivN dom.b dom.count))
  let nearSamples := st.samples.filter
    (fun s => jsLtB (rgbDistanceSqJs s center0) 1764)
  let refinedPool := if 50 ≤ nearSamples.length then nearSamples else st.samples
  let center := averageColorJs refinedPool
  let sortedSq := jsSortAscending (refinedPool.map
    (fun s => rgbDistanceSqJs s center))
  let p80Sq := percentileSortedJs sortedSq (8/10)
  let p95Sq := percentileSortedJs sortedSq (95/100)
  ⟨center.1, center.2.1, center.2.2,
    jsClampN (jsMaxN (some 576) (jsMul p80Sq (25/16))) 576 12100,
    jsClampN (jsMaxN (some 1024) (jsMul p95Sq (729/400))) 1024 18225⟩

/-- Faithful embedding of `estimateBackgroundModel(data, width, height)`
(same structure as `estimateBackgroundModel`, over `JsNum`). -/
def estimateBackgroundModelJs (data : ℕ → ℕ) (width height : ℕ) : JsModel :=
  let border := max 6 (min 18 (jsRound ((min width height : ℕ) * (25/1000 : ℚ))).toNat)
  let step := max 1 (jsRound (((min width height : ℕ) : ℚ) / 320)).toNat
  let st := collectSamplesJs data width height border step
  if st.samples.length = 0 then
    ⟨some 245, some 245, some 245, some 900, some 1764⟩
  else
    modelFromSamplesJs st

/-- A rational-valued sample viewed as a JavaScript value. -/
def jsOfSample (s : Sample) : JsSample := some (s.r, s.g, s.b)

/-- A rational-valued bin viewed as a JavaScript-number bin. -/
def jsOfBin (b : Bin) : JsBin :=
  ⟨b.count, some (b.r : ℚ), some (b.g : ℚ), some (b.b : ℚ)⟩

/-- A rational-valued sampling state viewed through JavaScript values. -/
def jsOfState (st : SampleState) : JsSampleState :=
  ⟨st.samples.map jsOfSample, st.bins.map (fun kv => (kv.1, jsOfBin kv.2))⟩

/-- A rational-valued background model viewed through JavaScript
values. -/
def jsOfModel (m : BackgroundModel) : JsModel :=
  ⟨some m.r, some m.g, some m.b, some m.toleranceSq, some m.expansionToleranceSq⟩

/-- The defined (fully opaque white) sample of the 1×1 counterexample
buffer. -/
def cexWhite : JsSample := some (255, 255, 255)

/-- Samples collected on the all-white 1×1 buffer: the two genuine reads
of pixel `(0, 0)` from the `y = 0` row iteration, then ten non-value
samples from the out-of-range rows `y = 1 … 5` and `-1 … -5`. -/
def cexSamples : List JsSample :=
  [cexWhite, cexWhite, none, none, none, none, none, none, none, none, none, none]

/-- Bins collected on the all-white 1×1 buffer: the white bin with two
samples, and the `(0, 0, 0)` bin holding the ten non-value samples with
`NaN` channel sums. -/
def cexBins : List ((ℕ × ℕ × ℕ) × JsBin) :=
  [((15, 15, 15), ⟨2, some 510, some 510, some 510⟩),
   ((0, 0, 0), ⟨10, none, none, none⟩)]

theorem mem_stepRange {v bound step : ℕ} (hs : 1 ≤ step)
    (hv : v ∈ stepRange bound step) : v < bound := by
  rcases List.mem_map.mp hv with ⟨i, hi, rfl⟩
  rw [List.mem_range] at hi
  have h1 : i + 1 ≤ (bound + step - 1) / step := hi
  have h2 : (i + 1) * step ≤ ((bound + step - 1) / step) * step :=
    Nat.mul_le_mul_right _ h1
  have h3 : ((bound + step - 1) / step) * step ≤ bound + step - 1 :=
    Nat.div_mul_le_self _ _
  have h4 : (i + 1) * step = i * step + step := by ring
  omega

theorem mem_stepRangeFrom {v start bound step : ℕ} (hs : 1 ≤ step)
    (hv : v ∈ stepRangeFrom start bound step) : start ≤ v ∧ v < bound := by
  rcases List.mem_map.mp hv with ⟨u, hu, rfl⟩
  have := mem_stepRange hs hu
  omega

/-- A predicate preserved by every step of a left fold holds of the
result. -/
theorem foldl_preserve {α β : Type} (P : α → Prop) (f : α → β → α)
    (l : List β) (hstep : ∀ a : α, ∀ b ∈ l, P a → P (f a b)) :
    ∀ a : α, P a → P (l.foldl f a) := by
  induction l with
  | nil => intro a ha; exact ha
  | cons b t ih =>
      intro a ha
      exact ih (fun a' b' hb' => hstep a' b' (List.mem_cons_of_mem _ hb'))
        (f a b) (hstep a b (List.mem_cons_self _ _) ha)

theorem binsInsertJs_map (key : ℕ × ℕ × ℕ) (r g b : ℕ)
    (bins : List ((ℕ × ℕ × ℕ) × Bin)) :
    binsInsertJs key (some (r : ℚ)) (some (g : ℚ)) (some (b : ℚ))
        (bins.map (fun kv => (kv.1, jsOfBin kv.2))) =
      (binsInsert key r g b bins).map (fun kv => (kv.1, jsOfBin kv.2)) := by
  induction bins with
  | nil => simp [binsInsertJs, binsInsert, jsOfBin]
  | cons kv rest ih =>
      obtain ⟨k, v⟩ := kv
      by_cases hk : k = key
      · subst hk
        simp [binsInsertJs, binsInsert, jsOfBin, jsAdd, Nat.cast_add]
      · simp [binsInsertJs, binsInsert, hk, ih]

theorem addSampleJs_image (data : ℕ → ℕ) (width height : ℕ)
    (st : SampleState) (x y : ℤ) (h0 : 0 ≤ y * width + x)
    (h1 : y * width + x < ((width * height : ℕ) : ℤ)) :
    addSampleJs data width height (jsOfState st) x y =
      jsOfState (addSample data width st (y * width + x).toNat 0) := by
  unfold addSampleJs addSample
  dsimp only [jsOfState]
  rw [if_pos ⟨h0, h1⟩]
  have hq : (0 * width + (y * width + x).toNat) * 4 = (y * width + x).toNat * 4 := by
    simp
  rw [hq]
  by_cases ha : data ((y * width + x).toNat * 4 + 3) < 16
  · rw [if_pos ha, if_pos ha]
  · rw [if_neg ha, if_neg ha]
    simp [jsOfState, jsOfSample, binsInsertJs_map, List.map_append]

theorem collectSamplesJs_image (data : ℕ → ℕ) (width height border step : ℕ)
    (hw : 1 ≤ width) (hs : 1 ≤ step) (hbh : border ≤ height) :
    ∃ st : SampleState,
      collectSamplesJs data width height border step = jsOfState st := by
  have hw0 : (0 : ℤ) ≤ (width : ℤ) := Int.ofNat_nonneg width
  have hw1 : (1 : ℤ) ≤ (width : ℤ) := by exact_mod_cast hw
  unfold collectSamplesJs
  dsimp only
  refine foldl_preserve (fun s => ∃ st, s = jsOfState st) _ _ ?_ _
    (foldl_preserve (fun s => ∃ st, s = jsOfState st) _ _ ?_ _ ⟨⟨[], []⟩, rfl⟩)
  · -- column-band loop: x < border, border ≤ y < height - border
    rintro s x hx ⟨st0, rfl⟩
    have hxb : x < border := mem_stepRange hs hx
    refine foldl_preserve (fun s => ∃ st, s = jsOfState st) _ _ ?_ _ ⟨st0, rfl⟩
    rintro s' y hy ⟨st1, rfl⟩
    obtain ⟨hyb, hyt⟩ := mem_stepRangeFrom hs hy
    have hyy : y + border < height := by omega
    have hx0 : (0 : ℤ) ≤ (x : ℤ) := Int.ofNat_nonneg x
    have hy0 : (0 : ℤ) ≤ (y : ℤ) := Int.ofNat_nonneg y
    have hxZ : (x : ℤ) + 1 ≤ (border : ℤ) := by exact_mod_cast hxb
    have hyZ : (y : ℤ) + (border : ℤ) + 1 ≤ (height : ℤ) := by exact_mod_cast hyy
    have hbZ : (0 : ℤ) ≤ (border : ℤ) := Int.ofNat_nonneg border
    have hybZ : (border : ℤ) ≤ (y : ℤ) := by exact_mod_cast hyb
    have h3 : (y : ℤ) * width ≤ ((height : ℤ) - border - 1) * width :=
      mul_le_mul_of_nonneg_right (by linarith) hw0
    have h4 : ((height : ℤ) - border - 1) * width =
        (height : ℤ) * width - ((border : ℤ) + 1) * width := by
      ring
    have h5 : ((border : ℤ) + 1) * 1 ≤ ((border : ℤ) + 1) * width :=
      mul_le_mul_of_nonneg_left hw1 (by linarith)
    have c10 : (0 : ℤ) ≤ (y : ℤ) * width + x := by
      have := mul_nonneg hy0 hw0
      linarith
    have c11 : (y : ℤ) * width + x < ((width * height : ℕ) : ℤ) := by
      push_cast
      linarith
    rw [addSampleJs_image data width height st1 (x : ℤ) (y : ℤ) c10 c11]
    have h6 : (border : ℤ) * width ≤ (y : ℤ) * width :=
      mul_le_mul_of_nonneg_right hybZ hw0
    have h7 : (border : ℤ) * 1 ≤ (border : ℤ) * width :=
      mul_le_mul_of_nonneg_left hw1 hbZ
    have c20 : (0 : ℤ) ≤ (y : ℤ) * width + ((width : ℤ) - 1 - x) := by
      linarith
    have h8 : ((height : ℤ) - border) * width ≤ (height : ℤ) * width :=
      mul_le_mul_of_nonneg_right (by linarith) hw0
    have h9 : ((height : ℤ) - border - 1) * width =
        ((height : ℤ) - border) * width - width := by
      ring
    have c21 : (y : ℤ) * width + ((width : ℤ) - 1 - x) <
        ((width * height : ℕ) : ℤ) := by
      push_cast
      linarith
    exact ⟨_, addSampleJs_image data width height _
      ((width : ℤ) - 1 - (x : ℤ)) (y : ℤ) c20 c21⟩
  · -- row-band loop: y < border, with the mirrored row height - 1 - y
    rintro s y hy ⟨st0, rfl⟩
    have hyb : y < border := mem_stepRange hs hy
    have hyh : y < height := lt_of_lt_of_le hyb hbh
    refine foldl_preserve (fun s => ∃ st, s = jsOfState st) _ _ ?_ _ ⟨st0, rfl⟩
    rintro s' x hx ⟨st1, rfl⟩
    have hxw : x < width := mem_stepRange hs hx
    have hx0 : (0 : ℤ) ≤ (x : ℤ) := Int.ofNat_nonneg x
    have hy0 : (0 : ℤ) ≤ (y : ℤ) := Int.ofNat_nonneg y
    have hxZ : (x : ℤ) + 1 ≤ (width : ℤ) := by exact_mod_cast hxw
    have hyZ : (y : ℤ) + 1 ≤ (height : ℤ) := by exact_mod_cast hyh
    have h3 : (y : ℤ) * width ≤ ((height : ℤ) - 1) * width :=
      mul_le_mul_of_nonneg_right (by linarith) hw0
    have h4 : ((height : ℤ) - 1) * width = (height : ℤ) * width - width := by ring
    have c10 : (0 : ℤ) ≤ (y : ℤ) * width + x := by
      have := mul_nonneg hy0 hw0
      linarith
    have c11 : (y : ℤ) * width + x < ((width * height : ℕ) : ℤ) := by
      push_cast
      linarith
    rw [addSampleJs_image data width height st1 (x : ℤ) (y : ℤ) c10 c11]
    have h5 : ((height : ℤ) - 1 - y) * width ≤ ((height : ℤ) - 1) * width :=
      mul_le_mul_of_nonneg_right (by linarith) hw0
    have h6 : (0 : ℤ) ≤ ((height : ℤ) - 1 - y) * width :=
      mul_nonneg (by linarith) hw0
    have c20 : (0 : ℤ) ≤ ((height : ℤ) - 1 - y) * width + x := by linarith
    have c21 : ((height : ℤ) - 1 - y) * width + x < ((width * height : ℕ) : ℤ) := by
      push_cast
      linarith
    exact ⟨_, addSampleJs_image data width height _
      (x : ℤ) ((height : ℤ) - 1 - (y : ℤ)) c20 c21⟩

/-- `border = max(6, min(18, round(min(w, h)*0.025)))` never exceeds the
height once `height ≥ 6`, so every border-band read is in range. -/
theorem estBorder_le_height {width height : ℕ} (hh : 6 ≤ height) :
    max 6 (min 18 (jsRound ((min width height : ℕ) * (25/1000 : ℚ))).toNat) ≤
      height := by
  rcases le_or_lt 18 height with h18 | h18
  · exact max_le hh (le_trans (min_le_left _ _) h18)
  · refine max_le hh (le_trans (min_le_right _ _) ?_)
    have hm6 : (6 : ℚ) ≤ (height : ℚ) := by exact_mod_cast hh
    have hfl : jsRound (((min width height : ℕ) : ℚ) * (25/1000)) <
        (height : ℤ) + 1 := by
      unfold jsRound
      apply Int.floor_lt.mpr
      push_cast
      have hm : ((width : ℚ) ⊓ (height : ℚ)) ≤ (height : ℚ) := min_le_right _ _
      linarith
    have hle : jsRound (((min width height : ℕ) : ℚ) * (25/1000)) ≤
        (height : ℤ) := by
      omega
    exact Int.toNat_le.mpr hle

theorem jsOfBin_count (b : Bin) : (jsOfBin b).count = b.count := rfl

theorem jsOfBin_r (b : Bin) : (jsOfBin b).r = some (b.r : ℚ) := rfl

theorem jsOfBin_g (b : Bin) : (jsOfBin b).g = some (b.g : ℚ) := rfl

theorem jsOfBin_b (b : Bin) : (jsOfBin b).b = some (b.b : ℚ) := rfl

theorem getD_map_jsOfBin (o : Option Bin) :
    (o.map jsOfBin).getD ⟨1, some 0, some 0, some 0⟩ =
      jsOfBin (o.getD ⟨1, 0, 0, 0⟩) := by
  cases o with
  | none => simp [jsOfBin]
  | some d => rfl

theorem dominantBinJs_map (bins : List ((ℕ × ℕ × ℕ) × Bin)) :
    dominantBinJs (bins.map (fun kv => (kv.1, jsOfBin kv.2))) =
      (dominantBin bins).map jsOfBin := by
  unfold dominantBinJs dominantBin
  have h : ∀ (l : List ((ℕ × ℕ × ℕ) × Bin)) (acc : Option Bin),
      (l.map (fun kv => (kv.1, jsOfBin kv.2))).foldl
          (fun best kv =>
            match best with
            | none => some kv.2
            | some d => if kv.2.count > d.count then some kv.2 else some d)
          (acc.map jsOfBin) =
        (l.foldl
          (fun best kv =>
            match best with
            | none => some kv.2
            | some d => if kv.2.count > d.count then some kv.2 else some d)
          acc).map jsOfBin := by
    intro l
    induction l with
    | nil => intro acc; rfl
    | cons kv rest ih =>
        intro acc
        simp only [List.map_cons, List.foldl_cons]
        cases acc with
        | none => exact ih (some kv.2)
        | some d =>
            show List.foldl _
                (if kv.2.count > d.count then some (jsOfBin kv.2)
                  else some (jsOfBin d)) _ =
              Option.map jsOfBin (List.foldl _
                (if kv.2.count > d.count then some kv.2 else some d) _)
            by_cases hc : kv.2.count > d.count
            · rw [if_pos hc, if_pos hc]
              exact ih (some kv.2)
            · rw [if_neg hc, if_neg hc]
              exact ih (some d)
  exact h bins none

theorem jsAdd_foldl_r (l : List Sample) :
    ∀ acc : ℕ,
      (l.map jsOfSample).foldl (fun a s => jsAdd a (jsComps s).1)
          (some ((acc : ℕ) : ℚ)) =
        some ((l.foldl (fun a s => a + s.r) acc : ℕ) : ℚ) := by
  induction l with
  | nil => intro acc; rfl
  | cons s t ih =>
      intro acc
      simp only [List.map_cons, List.foldl_cons]
      have h1 : jsAdd (some ((acc : ℕ) : ℚ)) (jsComps (jsOfSample s)).1 =
          some (((acc + s.r : ℕ) : ℕ) : ℚ) := by
        simp [jsAdd, jsComps, jsOfSample]
      rw [h1, ih]

theorem jsAdd_foldl_g (l : List Sample) :
    ∀ acc : ℕ,
      (l.map jsOfSample).foldl (fun a s => jsAdd a (jsComps s).2.1)
          (some ((acc : ℕ) : ℚ)) =
        some ((l.foldl (fun a s => a + s.g) acc : ℕ) : ℚ) := by
  induction l with
  | nil => intro acc; rfl
  | cons s t ih =>
      intro acc
      simp only [List.map_cons, List.foldl_cons]
      have h1 : jsAdd (some ((acc : ℕ) : ℚ)) (jsComps (jsOfSample s)).2.1 =
          some (((acc + s.g : ℕ) : ℕ) : ℚ) := by
        simp [jsAdd, jsComps, jsOfSample]
      rw [h1, ih]

theorem jsAdd_foldl_b (l : List Sample) :
    ∀ acc : ℕ,
      (l.map jsOfSample).foldl (fun a s => jsAdd a (jsComps s).2.2)
          (some ((acc : ℕ) : ℚ)) =
        some ((l.foldl (fun a s => a + s.b) acc : ℕ) : ℚ) := by
  induction l with
  | nil => intro acc; rfl
  | cons s t ih =>
      intro acc
      simp only [List.map_cons, List.foldl_cons]
      have h1 : jsAdd (some ((acc : ℕ) : ℚ)) (jsComps (jsOfSample s)).2.2 =
          some (((acc + s.b : ℕ) : ℕ) : ℚ) := by
        simp [jsAdd, jsComps, jsOfSample]
      rw [h1, ih]

theorem averageColorJs_map (l : List Sample) :
    averageColorJs (l.map jsOfSample) =
      (some (averageColor l).1, some (averageColor l).2.1,
        some (averageColor l).2.2) := by
  unfold averageColorJs averageColor
  rw [List.length_map]
  by_cases h0 : l.length = 0
  · rw [if_pos h0, if_pos h0]
  · rw [if_neg h0, if_neg h0]
    dsimp only
    have hr := jsAdd_foldl_r l 0
    have hg := jsAdd_foldl_g l 0
    have hb := jsAdd_foldl_b l 0
    rw [Nat.cast_zero] at hr hg hb
    rw [hr, hg, hb]
    rfl

theorem filter_map_comm {α β : Type} (f : α → β) (p : β → Bool) (l : List α) :
    (l.map f).filter p = (l.filter (fun a => p (f a))).map f := by
  induction l with
  | nil => rfl
  | cons a t ih =>
      simp only [List.map_cons, List.filter_cons]
      by_cases hq : p (f a)
      · simp [hq, ih]
      · simp [hq, ih]

theorem rgbDistanceSqJs_comp (s : Sample) (c1 c2 c3 : ℚ) :
    rgbDistanceSqJs (jsOfSample s) (some c1, some c2, some c3) =
      some (rgbDistanceSq (s.r : ℚ) (s.g : ℚ) (s.b : ℚ) c1 c2 c3) := rfl

theorem jsLtB_some (q t : ℚ) : jsLtB (some q) t = decide (q < t) := rfl

theorem map_some_comp {α : Type} (h : α → ℚ) (l : List α) :
    l.map (fun a => (some (h a) : JsNum)) = (l.map h).map some := by
  rw [List.map_map]
  rfl

theorem jsLeB_trans : ∀ a b c : JsNum, jsLeB a b = true → jsLeB b c = true →
    jsLeB a c = true := by
  intro a b c hab hbc
  cases a with
  | none => rfl
  | some x =>
      cases c with
      | none =>
          cases b with
          | none => exact absurd hab (by simp [jsLeB])
          | some y => exact absurd hbc (by simp [jsLeB])
      | some z =>
          cases b with
          | none => exact absurd hab (by simp [jsLeB])
          | some y =>
              simp only [jsLeB, decide_eq_true_eq] at hab hbc ⊢
              exact le_trans hab hbc

theorem jsLeB_total : ∀ a b : JsNum, jsLeB a b || jsLeB b a := by
  intro a b
  cases a with
  | none => simp [jsLeB]
  | some x =>
      cases b with
      | none => simp [jsLeB]
      | some y =>
          simp only [jsLeB, Bool.or_eq_true, decide_eq_true_eq]
          exact le_total x y

theorem jsSortAscending_map (l : List ℚ) :
    jsSortAscending (l.map some) = (sortAscending l).map some := by
  have hperm : (jsSortAscending (l.map some)).Perm
      ((sortAscending l).map some) := by
    refine (List.mergeSort_perm (l.map some) jsLeB).trans ?_
    exact ((List.mergeSort_perm l (fun a b => decide (a ≤ b))).map some).symm
  have hs1 : List.Sorted (fun a b : JsNum => jsLeB a b = true)
      (jsSortAscending (l.map some)) :=
    @List.sorted_mergeSort JsNum jsLeB jsLeB_trans jsLeB_total (l.map some)
  have hs2 : List.Sorted (fun a b : JsNum => jsLeB a b = true)
      ((sortAscending l).map some) := by
    have h := sortAscending_sorted l
    exact List.Pairwise.map some
      (fun a b hab => by simpa [jsLeB] using hab) h
  haveI : IsAntisymm JsNum (fun a b => jsLeB a b = true) := ⟨by
    intro a b hab hba
    cases a with
    | none =>
        cases b with
        | none => rfl
        | some y => exact absurd hba (by simp [jsLeB])
    | some x =>
        cases b with
        | none => exact absurd hab (by simp [jsLeB])
        | some y =>
            simp only [jsLeB, decide_eq_true_eq] at hab hba
            exact congrArg some (le_antisymm hab hba)⟩
  exact List.eq_of_perm_of_sorted hperm hs1 hs2

theorem percentileSortedJs_map (l : List ℚ) (p : ℚ) :
    percentileSortedJs (l.map some) p = some (percentileSorted l p) := by
  unfold percentileSortedJs percentileSorted
  rw [List.length_map]
  by_cases h0 : l.length = 0
  · rw [if_pos h0, if_pos h0]
  · rw [if_neg h0, if_neg h0]
    dsimp only
    have hlen : 0 < l.length := Nat.pos_of_ne_zero h0
    have hidx : min (l.length - 1)
        (max 0 ⌊((l.length - 1 : ℕ) : ℚ) * p⌋).toNat < l.length :=
      lt_of_le_of_lt (min_le_left _ _) (Nat.sub_lt hlen one_pos)
    rw [List.getD_eq_getElem (l.map some) (some 0)
        (by rw [List.length_map]; exact hidx),
      List.getD_eq_getElem l 0 hidx, List.getElem_map]

set_option maxRecDepth 8192 in
theorem modelFromSamplesJs_map (st : SampleState) :
    modelFromSamplesJs (jsOfState st) = jsOfModel (modelFromSamples st) := by
  unfold modelFromSamplesJs modelFromSamples jsOfState
  dsimp only
  rw [dominantBinJs_map, getD_map_jsOfBin]
  generalize (dominantBin st.bins).getD ⟨1, 0, 0, 0⟩ = D
  simp only [jsOfBin_count, jsOfBin_r, jsOfBin_g, jsOfBin_b, jsRoundN, jsDivN,
    Option.map_some']
  generalize ((jsRound ((D.r : ℚ) / (D.count : ℚ)) : ℤ) : ℚ) = c1
  generalize ((jsRound ((D.g : ℚ) / (D.count : ℚ)) : ℤ) : ℚ) = c2
  generalize ((jsRound ((D.b : ℚ) / (D.count : ℚ)) : ℤ) : ℚ) = c3
  simp only [filter_map_comm, rgbDistanceSqJs_comp, jsLtB_some,
    List.length_map, ← apply_ite (List.map jsOfSample)]
  generalize (if 50 ≤ (List.filter
        (fun a => decide (rgbDistanceSq (a.r : ℚ) (a.g : ℚ) (a.b : ℚ)
          c1 c2 c3 < 1764)) st.samples).length
      then List.filter
        (fun a => decide (rgbDistanceSq (a.r : ℚ) (a.g : ℚ) (a.b : ℚ)
          c1 c2 c3 < 1764)) st.samples
      else st.samples) = pool
  rw [averageColorJs_map]
  generalize (averageColor pool).1 = a1
  generalize (averageColor pool).2.1 = a2
  generalize (averageColor pool).2.2 = a3
  simp only [List.map_map, Function.comp_def, rgbDistanceSqJs_comp]
  rw [map_some_comp, jsSortAscending_map, percentileSortedJs_map,
    percentileSortedJs_map]
  generalize percentileSorted (sortAscending (List.map
    (fun a => rgbDistanceSq (a.r : ℚ) (a.g : ℚ) (a.b : ℚ) a1 a2 a3) pool))
    (8/10) = p80
  generalize percentileSorted (sortAscending (List.map
    (fun a => rgbDistanceSq (a.r : ℚ) (a.g : ℚ) (a.b : ℚ) a1 a2 a3) pool))
    (95/100) = p95
  simp only [jsClampN, jsMaxN, jsMinN, jsMul, Option.map_some', jsOfModel, clamp]

theorem percentileSortedJs_all_none {l : List JsNum}
    (h : ∀ q ∈ l, q = none) (hne : l.length ≠ 0) (p : ℚ) :
    percentileSortedJs l p = none := by
  unfold percentileSortedJs
  rw [if_neg hne]
  dsimp only
  have hlen : 0 < l.length := Nat.pos_of_ne_zero hne
  have hidx : min (l.length - 1)
      (max 0 ⌊((l.length - 1 : ℕ) : ℚ) * p⌋).toNat < l.length :=
    lt_of_le_of_lt (min_le_left _ _) (Nat.sub_lt hlen one_pos)
  rw [List.getD_eq_getElem l (some 0) hidx]
  exact h _ (List.getElem_mem hidx)

theorem collectSamplesJs_cex :
    collectSamplesJs (fun _ => 255) 1 1 6 1 = ⟨cexSamples, cexBins⟩ := by
  norm_num [collectSamplesJs, addSampleJs, binsInsertJs, jsAdd, stepRange,
    stepRangeFrom, cexSamples, cexBins, cexWhite, List.range_succ]

theorem modelFromSamplesJs_cex :
    modelFromSamplesJs ⟨cexSamples, cexBins⟩ = ⟨none, none, none, none, none⟩ := by
  have hdomc : dominantBinJs cexBins = some ⟨10, none, none, none⟩ := by
    norm_num [dominantBinJs, cexBins, List.foldl_cons, List.foldl_nil]
  unfold modelFromSamplesJs
  dsimp only
  rw [hdomc]
  simp only [Option.getD_some]
  simp only [jsDivN, jsRoundN, Option.map_none']
  rw [show cexSamples.filter
      (fun s => jsLtB (rgbDistanceSqJs s (none, none, none)) 1764) = [] from by
    norm_num [cexSamples, cexWhite, rgbDistanceSqJs, jsLtB, List.filter_cons]]
  simp only [List.length_nil]
  rw [if_neg (by norm_num)]
  have havg : averageColorJs cexSamples = (none, none, none) := by
    norm_num [averageColorJs, cexSamples, cexWhite, jsComps, jsAdd,
      List.foldl_cons, List.foldl_nil, jsDivN, jsRoundN]
  rw [havg]
  have hall : ∀ q ∈ jsSortAscending (cexSamples.map
      (fun s => rgbDistanceSqJs s (none, none, none))), q = none := by
    intro q hq
    unfold jsSortAscending at hq
    have hq' : q ∈ cexSamples.map
        (fun s => rgbDistanceSqJs s (none, none, none)) :=
      (List.mergeSort_perm _ jsLeB).mem_iff.mp hq
    simpa [cexSamples, cexWhite, rgbDistanceSqJs] using hq'
  have hlen12 : (jsSortAscending (cexSamples.map
      (fun s => rgbDistanceSqJs s (none, none, none)))).length ≠ 0 := by
    unfold jsSortAscending
    rw [(List.mergeSort_perm _ jsLeB).length_eq]
    norm_num [cexSamples]
  rw [percentileSortedJs_all_none hall hlen12,
    percentileSortedJs_all_none hall hlen12]
  rfl

/-- C1 counterexample.  On the fully opaque all-white 1×1 buffer (width =
height = 1), `border = 6` and the row loop reads rows `1 … 5` and
`-1 … -5` out of range; the ten non-value samples dominate the colour
bins, the centre, the percentiles and both tolerances become `NaN`, and
the claimed invariant comparison `expansionTolerance >= tolerance`
evaluates to `false` (`NaN >= NaN`). -/
theorem estimateBackgroundModel_undefined_counterexample :
    (estimateBackgroundModelJs (fun _ => 255) 1 1).toleranceSq = none ∧
    (estimateBackgroundModelJs (fun _ => 255) 1 1).expansionToleranceSq = none ∧
    jsGe (estimateBackgroundModelJs (fun _ => 255) 1 1).expansionToleranceSq
      (estimateBackgroundModelJs (fun _ => 255) 1 1).toleranceSq = false := by
  have hb : (max 6 (min 18 (jsRound ((min 1 1 : ℕ) * (25/1000 : ℚ))).toNat)) = 6 := by
    have h1 : jsRound ((min 1 1 : ℕ) * (25/1000 : ℚ)) = 0 := by
      unfold jsRound
      rw [Int.floor_eq_iff]
      norm_num
    rw [h1]
    norm_num
  have hs : (max 1 (jsRound (((min 1 1 : ℕ) : ℚ) / 320)).toNat) = 1 := by
    have h1 : jsRound (((min 1 1 : ℕ) : ℚ) / 320) = 0 := by
      unfold jsRound
      rw [Int.floor_eq_iff]
      norm_num
    rw [h1]
    norm_num
  have hmodel : estimateBackgroundModelJs (fun _ => 255) 1 1 =
      modelFromSamplesJs ⟨cexSamples, cexBins⟩ := by
    unfold estimateBackgroundModelJs
    dsimp only
    rw [hb, hs, collectSamplesJs_cex]
    rw [if_neg (by norm_num [cexSamples] :
      ¬((⟨cexSamples, cexBins⟩ : JsSampleState).samples.length = 0))]
  rw [hmodel, modelFromSamplesJs_cex]
  exact ⟨rfl, rfl, rfl⟩

/-- C1 (amended).  For every RGBA pixel buffer with `width ≥ 1` and
`height ≥ 6`, every read of the border sampling is in range, the model
computed by the faithful embedding `estimateBackgroundModelJs` has
genuine (non-`NaN`) tolerances, and they satisfy
`expansionTolerance ≥ tolerance` (stated over the square roots of the
embedded squared tolerances): this covers both the percentile-derived
tolerances (`tolerance = clamp(max(24, p80*1.25), 24, 110)`,
`expansionTolerance = clamp(max(32, p95*1.35), 32, 135)`, with
`p80 ≤ p95` on the sorted distance list) and the degenerate
zero-valid-samples case returning the fixed model
`{245, 245, 245, tol = 30 (= √900), expTol = 42 (= √1764)}`.  The
restriction `height ≥ 6` is necessary: for `height < 6 ≤ border` the
out-of-range reads make both tolerances `NaN` and the invariant
comparison false (`estimateBackgroundModel_undefined_counterexample`). -/
theorem estimateBackgroundModelJs_expansion_ge_tolerance
    (data : ℕ → ℕ) (width height : ℕ) (hw : 1 ≤ width) (hh : 6 ≤ height) :
    ∃ t e : ℚ,
      (estimateBackgroundModelJs data width height).toleranceSq = some t ∧
      (estimateBackgroundModelJs data width height).expansionToleranceSq = some e ∧
      Real.sqrt (t : ℝ) ≤ Real.sqrt (e : ℝ) := by
  unfold estimateBackgroundModelJs
  dsimp only
  obtain ⟨st, hst⟩ := collectSamplesJs_image data width height _ _ hw
    (le_max_left _ _) (estBorder_le_height hh)
  rw [hst]
  by_cases h0 : st.samples.length = 0
  · rw [if_pos (by simp [jsOfState, h0])]
    exact ⟨900, 1764, rfl, rfl, Real.sqrt_le_sqrt (by norm_num)⟩
  · rw [if_neg (by simp [jsOfState, h0])]
    rw [modelFromSamplesJs_map st]
    refine ⟨(modelFromSamples st).toleranceSq,
      (modelFromSamples st).expansionToleranceSq, rfl, rfl, ?_⟩
    have h := modelFromSamples_tolSq_le st
    exact Real.sqrt_le_sqrt (by exact_mod_cast h)

/-- Closed instance of the amended C1 theorem at a fully transparent 8×6
buffer. -/
theorem estimateBackgroundModelJs_expansion_ge_tolerance_witness :
    (1 ≤ 8 ∧ 6 ≤ 6) ∧
      ∃ t e : ℚ,
        (estimateBackgroundModelJs (fun _ => 0) 8 6).toleranceSq = some t ∧
        (estimateBackgroundModelJs (fun _ => 0) 8 6).expansionToleranceSq = some e ∧
        Real.sqrt (t : ℝ) ≤ Real.sqrt (e : ℝ) :=
  ⟨⟨by norm_num, by norm_num⟩,
    estimateBackgroundModelJs_expansion_ge_tolerance (fun _ => 0) 8 6
      (by norm_num) (by norm_num)⟩

/-- Luma of pixel `i` (source: `0.299*R + 0.587*G + 0.114*B`). -/
def lumaAt (data : ℕ → ℕ) (i : ℕ) : ℚ :=
  (299/1000) * data (i * 4) + (587/1000) * data (i * 4 + 1) + (114/1000) * data (i * 4 + 2)

/-- Horizontal gradient term of `computeGradientMap`: absolute luma
difference of the right and left neighbours, each clamped to the pixel
itself at the buffer edge. -/
def gradXAt (data : ℕ → ℕ) (width : ℕ) (idx : ℕ) : ℚ :=
  let x := idx % width
  let left := if 0 < x then idx - 1 else idx
  let right := if x < width - 1 then idx + 1 else idx
  |lumaAt data right - lumaAt data left|

/-- Vertical gradient term of `computeGradientMap`. -/
def gradYAt (data : ℕ → ℕ) (width height : ℕ) (idx : ℕ) : ℚ :=
  let y := idx / width
  let up := if 0 < y then idx - width else idx
  let down := if y < height - 1 then idx + width else idx
  |lumaAt data down - lumaAt data up|

/-- Per-pixel gradient value `gx + gy` of `computeGradientMap`. -/
def gradientAt (data : ℕ → ℕ) (width height : ℕ) (idx : ℕ) : ℚ :=
  gradXAt data width idx + gradYAt data width height idx

/-- Embedding of `computeGradientMap(data, width, height)`: one value per
pixel, in the source's row-major fill order. -/
def computeGradientMap (data : ℕ → ℕ) (width height : ℕ) : List ℚ :=
  (List.range (width * height)).map (gradientAt data width height)

/-- C6 counterexample buffer: a 2×1 image, pixel 0 black, pixel 1 white. -/
def gradCexData : ℕ → ℕ := fun i => if i < 4 then 0 else 255

/-- C6 counterexample.  The claim states that every pixel on the first or
last row or column has gradient zero; in the 2×1 buffer `gradCexData` the
pixel at index 0 lies on the first row and the first column, yet its
gradient is `|luma(white) - luma(black)| = 255 ≠ 0` — edge clamping only
suppresses the difference term on a side that actually clamps, and the
horizontal term here uses the genuine right neighbour. -/
theorem computeGradientMap_edge_counterexample :
    0 % 2 = 0 ∧ 0 / 2 = 0 ∧
      (computeGradientMap gradCexData 2 1).getD 0 0 = 255 ∧
      (255 : ℚ) ≠ 0 := by
  refine ⟨rfl, rfl, ?_, by norm_num⟩
  norm_num [computeGradientMap, gradientAt, gradXAt, gradYAt, lumaAt,
    gradCexData, List.range_succ]

/-- C6 (amended).  `computeGradientMap` returns one value per pixel (same
dimensions as the input), every value is nonnegative, and the gradient term
of an axis vanishes exactly where both neighbour lookups of that axis are
clamped to the pixel itself: the horizontal term is zero whenever
`width = 1` and the vertical term is zero whenever `height = 1` (hence a
1×1 buffer has gradient 0). -/
theorem computeGradientMap_spec (data : ℕ → ℕ) (width height : ℕ) :
    (computeGradientMap data width height).length = width * height ∧
    (∀ q ∈ computeGradientMap data width height, 0 ≤ q) ∧
    (∀ idx, width = 1 → gradXAt data width idx = 0) ∧
    (∀ idx, idx < width * height → height = 1 →
      gradYAt data width height idx = 0) := by
  refine ⟨by simp [computeGradientMap], ?_, ?_, ?_⟩
  · intro q hq
    rcases List.mem_map.mp hq with ⟨i, _, rfl⟩
    unfold gradientAt gradXAt gradYAt
    positivity
  · intro idx hw
    subst hw
    simp [gradXAt, Nat.mod_one]
  · intro idx hidx hh
    subst hh
    have hy : idx / width = 0 := Nat.div_eq_of_lt (by omega)
    simp [gradYAt, hy]

/-- Options record for the `BackgroundRemover` constructor (the field
relevant to feathering; `none` models an absent property). -/
structure RemoverOptions where
  featherAmount : Option ℕ

/-- Embedding of `this.featherAmount = options.featherAmount || 2` in the
`BackgroundRemover` constructor: JavaScript `||` substitutes the default
`2` both when the option is absent (`undefined`) and when it is the falsy
number `0`. -/
def constructorFeatherAmount (options : RemoverOptions) : ℕ :=
  match options.featherAmount with
  | none => 2
  | some v => if v = 0 then 2 else v

/-- The softening blur radius `Math.max(1, this.featherAmount + 1)` used by
`buildLocalForegroundMask`. -/
def blurRadiusOf (featherAmount : ℕ) : ℕ := max 1 (featherAmount + 1)

/-- C10.  Constructing `BackgroundRemover` with `options.featherAmount = 0`
stores `featherAmount = 2` (the `||` default replaces the falsy zero), so
the softening blur radius is `max(1, 2+1) = 3` rather than the radius
`max(1, 0+1) = 1` that a stored featherAmount of 0 would give; every
strictly positive featherAmount is stored unchanged. -/
theorem constructorFeatherAmount_spec :
    constructorFeatherAmount ⟨some 0⟩ = 2 ∧
    blurRadiusOf (constructorFeatherAmount ⟨some 0⟩) = 3 ∧
    blurRadiusOf 0 = 1 ∧
    ∀ v : ℕ, 0 < v → constructorFeatherAmount ⟨some v⟩ = v := by
  refine ⟨rfl, rfl, rfl, ?_⟩
  intro v hv
  simp [constructorFeatherAmount, Nat.pos_iff_ne_zero.mp hv]

theorem constructorFeatherAmount_spec_witness :
    0 < 5 ∧ constructorFeatherAmount ⟨some 5⟩ = 5 :=
  ⟨by decide, constructorFeatherAmount_spec.2.2.2 5 (by decide)⟩

/-- Crop bounds record `{top, bottom, left, right}` of
`computeCropBoundsFromMask`; fields are integers because the source
initializes `bottom` and `right` to `-1`. -/
structure CropBounds where
  top : ℤ
  bottom : ℤ
  left : ℤ
  right : ℤ
deriving DecidableEq, Repr

/-- One step of the `computeCropBoundsFromMask` scan at pixel `p = (x, y)`:
skip when `value ≤ 0.08` (the source's `continue`), otherwise widen each of
the four running bounds. -/
def cropScanUpdate (mask : ℕ → ℚ) (width : ℕ) (b : CropBounds) (p : ℕ × ℕ) :
    CropBounds :=
  let value := mask (p.2 * width + p.1)
  if value ≤ 8/100 then b
  else
    { top := if (p.2 : ℤ) < b.top then (p.2 : ℤ) else b.top
      bottom := if (p.2 : ℤ) > b.bottom then (p.2 : ℤ) else b.bottom
      left := if (p.1 : ℤ) < b.left then (p.1 : ℤ) else b.left
      right := if (p.1 : ℤ) > b.right then (p.1 : ℤ) else b.right }

/-- Row-major pixel scan order of the double loop of
`computeCropBoundsFromMask` (and of the other per-pixel loops). -/
def scanPixels (width height : ℕ) : List (ℕ × ℕ) :=
  (List.range height).flatMap (fun y => (List.range width).map (fun x => (x, y)))

/-- Embedding of `computeCropBoundsFromMask(mask, width, height)` with its
threshold `alphaThreshold = 0.08`; the source's `null` becomes `none`. -/
def computeCropBoundsFromMask (mask : ℕ → ℚ) (width height : ℕ) :
    Option CropBounds :=
  let final := (scanPixels width height).foldl (cropScanUpdate mask width)
    ⟨(height : ℤ), -1, (width : ℤ), -1⟩
  if final.bottom < final.top ∨ final.right < final.left then none else some final

/-- A pixel qualifies for the crop bounds iff its matte value is strictly
above the 0.08 threshold. -/
def cropQualifies (mask : ℕ → ℚ) (width : ℕ) (p : ℕ × ℕ) : Prop :=
  8/100 < mask (p.2 * width + p.1)

theorem cropQualifies_decidable (mask : ℕ → ℚ) (width : ℕ) (p : ℕ × ℕ) :
    cropQualifies mask width p ∨ ¬ cropQualifies mask width p := by
  unfold cropQualifies
  exact lt_or_ge _ _ |>.imp id (fun h => not_lt.mpr h)

theorem mem_scanPixels {width height : ℕ} {p : ℕ × ℕ} :
    p ∈ scanPixels width height ↔ p.1 < width ∧ p.2 < height := by
  unfold scanPixels
  simp only [List.mem_flatMap, List.mem_map, List.mem_range]
  constructor
  · rintro ⟨y, hy, x, hx, rfl⟩
    exact ⟨hx, hy⟩
  · rintro ⟨h1, h2⟩
    exact ⟨p.2, h2, p.1, h1, rfl⟩

theorem cropScanUpdate_of_not_qual {mask : ℕ → ℚ} {width : ℕ}
    {b : CropBounds} {p : ℕ × ℕ} (h : ¬ cropQualifies mask width p) :
    cropScanUpdate mask width b p = b := by
  unfold cropScanUpdate
  rw [if_pos (not_lt.mp h)]

theorem cropScanUpdate_top (mask : ℕ → ℚ) (width : ℕ)
    (b : CropBounds) (p : ℕ × ℕ) :
    (cropScanUpdate mask width b p).top =
      if mask (p.2 * width + p.1) ≤ 8/100 then b.top
      else if (p.2 : ℤ) < b.top then (p.2 : ℤ) else b.top := by
  unfold cropScanUpdate
  by_cases h : mask (p.2 * width + p.1) ≤ 8/100
  · rw [if_pos h, if_pos h]
  · rw [if_neg h, if_neg h]

theorem cropScanUpdate_bottom (mask : ℕ → ℚ) (width : ℕ)
    (b : CropBounds) (p : ℕ × ℕ) :
    (cropScanUpdate mask width b p).bottom =
      if mask (p.2 * width + p.1) ≤ 8/100 then b.bottom
      else if (p.2 : ℤ) > b.bottom then (p.2 : ℤ) else b.bottom := by
  unfold cropScanUpdate
  by_cases h : mask (p.2 * width + p.1) ≤ 8/100
  · rw [if_pos h, if_pos h]
  · rw [if_neg h, if_neg h]

theorem cropScanUpdate_left (mask : ℕ → ℚ) (width : ℕ)
    (b : CropBounds) (p : ℕ × ℕ) :
    (cropScanUpdate mask width b p).left =
      if mask (p.2 * width + p.1) ≤ 8/100 then b.left
      else if (p.1 : ℤ) < b.left then (p.1 : ℤ) else b.left := by
  unfold cropScanUpdate
  by_cases h : mask (p.2 * width + p.1) ≤ 8/100
  · rw [if_pos h, if_pos h]
  · rw [if_neg h, if_neg h]

theorem cropScanUpdate_right (mask : ℕ → ℚ) (width : ℕ)
    (b : CropBounds) (p : ℕ × ℕ) :
    (cropScanUpdate mask width b p).right =
      if mask (p.2 * width + p.1) ≤ 8/100 then b.right
      else if (p.1 : ℤ) > b.right then (p.1 : ℤ) else b.right := by
  unfold cropScanUpdate
  by_cases h : mask (p.2 * width + p.1) ≤ 8/100
  · rw [if_pos h, if_pos h]
  · rw [if_neg h, if_neg h]

theorem cropScanUpdate_top_le (mask : ℕ → ℚ) (width : ℕ)
    (b : CropBounds) (p : ℕ × ℕ) :
    (cropScanUpdate mask width b p).top ≤ b.top := by
  rw [cropScanUpdate_top]
  split
  · exact le_refl _
  · split <;> omega

theorem cropScanUpdate_bottom_ge (mask : ℕ → ℚ) (width : ℕ)
    (b : CropBounds) (p : ℕ × ℕ) :
    b.bottom ≤ (cropScanUpdate mask width b p).bottom := by
  rw [cropScanUpdate_bottom]
  split
  · exact le_refl _
  · split <;> omega

theorem cropScanUpdate_left_le (mask : ℕ → ℚ) (width : ℕ)
    (b : CropBounds) (p : ℕ × ℕ) :
    (cropScanUpdate mask width b p).left ≤ b.left := by
  rw [cropScanUpdate_left]
  split
  · exact le_refl _
  · split <;> omega

theorem cropScanUpdate_right_ge (mask : ℕ → ℚ) (width : ℕ)
    (b : CropBounds) (p : ℕ × ℕ) :
    b.right ≤ (cropScanUpdate mask width b p).right := by
  rw [cropScanUpdate_right]
  split
  · exact le_refl _
  · split <;> omega

theorem cropScanUpdate_qual_bounds {mask : ℕ → ℚ} {width : ℕ}
    {b : CropBounds} {p : ℕ × ℕ} (h : cropQualifies mask width p) :
    (cropScanUpdate mask width b p).top ≤ (p.2 : ℤ) ∧
    (p.2 : ℤ) ≤ (cropScanUpdate mask width b p).bottom ∧
    (cropScanUpdate mask width b p).left ≤ (p.1 : ℤ) ∧
    (p.1 : ℤ) ≤ (cropScanUpdate mask width b p).right := by
  have hn : ¬ mask (p.2 * width + p.1) ≤ 8/100 := not_le.mpr h
  refine ⟨?_, ?_, ?_, ?_⟩
  · rw [cropScanUpdate_top, if_neg hn]; split <;> omega
  · rw [cropScanUpdate_bottom, if_neg hn]; split <;> omega
  · rw [cropScanUpdate_left, if_neg hn]; split <;> omega
  · rw [cropScanUpdate_right, if_neg hn]; split <;> omega

theorem cropFold_top_le (mask : ℕ → ℚ) (width : ℕ) (L : List (ℕ × ℕ)) :
    ∀ b : CropBounds,
      (L.foldl (cropScanUpdate mask width) b).top ≤ b.top := by
  induction L with
  | nil => intro b; exact le_refl _
  | cons p L ih =>
      intro b
      exact le_trans (ih _) (cropScanUpdate_top_le mask width b p)

theorem cropFold_bottom_ge (mask : ℕ → ℚ) (width : ℕ) (L : List (ℕ × ℕ)) :
    ∀ b : CropBounds,
      b.bottom ≤ (L.foldl (cropScanUpdate mask width) b).bottom := by
  induction L with
  | nil => intro b; exact le_refl _
  | cons p L ih =>
      intro b
      exact le_trans (cropScanUpdate_bottom_ge mask width b p) (ih _)

theorem cropFold_left_le (mask : ℕ → ℚ) (width : ℕ) (L : List (ℕ × ℕ)) :
    ∀ b : CropBounds,
      (L.foldl (cropScanUpdate mask width) b).left ≤ b.left := by
  induction L with
  | nil => intro b; exact le_refl _
  | cons p L ih =>
      intro b
      exact le_trans (ih _) (cropScanUpdate_left_le mask width b p)

theorem cropFold_right_ge (mask : ℕ → ℚ) (width : ℕ) (L : List (ℕ × ℕ)) :
    ∀ b : CropBounds,
      b.right ≤ (L.foldl (cropScanUpdate mask width) b).right := by
  induction L with
  | nil => intro b; exact le_refl _
  | cons p L ih =>
      intro b
      exact le_trans (cropScanUpdate_right_ge mask width b p) (ih _)

theorem cropFold_contains (mask : ℕ → ℚ) (width : ℕ) (L : List (ℕ × ℕ)) :
    ∀ b : CropBounds, ∀ p ∈ L, cropQualifies mask width p →
      (L.foldl (cropScanUpdate mask width) b).top ≤ (p.2 : ℤ) ∧
      (p.2 : ℤ) ≤ (L.foldl (cropScanUpdate mask width) b).bottom ∧
      (L.foldl (cropScanUpdate mask width) b).left ≤ (p.1 : ℤ) ∧
      (p.1 : ℤ) ≤ (L.foldl (cropScanUpdate mask width) b).right := by
  induction L with
  | nil => intro b p hp; cases hp
  | cons q L ih =>
      intro b p hp hq
      rw [List.foldl_cons]
      rcases List.mem_cons.mp hp with rfl | hp'
      · have h1 := cropScanUpdate_qual_bounds (b := b) hq
        refine ⟨?_, ?_, ?_, ?_⟩
        · exact le_trans (cropFold_top_le mask width L _) h1.1
        · exact le_trans h1.2.1 (cropFold_bottom_ge mask width L _)
        · exact le_trans (cropFold_left_le mask width L _) h1.2.2.1
        · exact le_trans h1.2.2.2 (cropFold_right_ge mask width L _)
      · exact ih _ p hp' hq

theorem cropFold_attain_top (mask : ℕ → ℚ) (width : ℕ) (L : List (ℕ × ℕ)) :
    ∀ b : CropBounds,
      (L.foldl (cropScanUpdate mask width) b).top = b.top ∨
      ∃ p ∈ L, cropQualifies mask width p ∧
        (L.foldl (cropScanUpdate mask width) b).top = (p.2 : ℤ) := by
  induction L with
  | nil => intro b; exact Or.inl rfl
  | cons q L ih =>
      intro b
      rw [List.foldl_cons]
      rcases ih (cropScanUpdate mask width b q) with h | ⟨p, hp, hq, he⟩
      · rw [cropScanUpdate_top] at h
        by_cases hqual : mask (q.2 * width + q.1) ≤ 8/100
        · rw [if_pos hqual] at h
          exact Or.inl h
        · rw [if_neg hqual] at h
          by_cases hlt : (q.2 : ℤ) < b.top
          · rw [if_pos hlt] at h
            exact Or.inr ⟨q, List.mem_cons_self _ _, not_le.mp hqual, h⟩
          · rw [if_neg hlt] at h
            exact Or.inl h
      · exact Or.inr ⟨p, List.mem_cons_of_mem _ hp, hq, he⟩

theorem cropFold_attain_bottom (mask : ℕ → ℚ) (width : ℕ) (L : List (ℕ × ℕ)) :
    ∀ b : CropBounds,
      (L.foldl (cropScanUpdate mask width) b).bottom = b.bottom ∨
      ∃ p ∈ L, cropQualifies mask width p ∧
        (L.foldl (cropScanUpdate mask width) b).bottom = (p.2 : ℤ) := by
  induction L with
  | nil => intro b; exact Or.inl rfl
  | cons q L ih =>
      intro b
      rw [List.foldl_cons]
      rcases ih (cropScanUpdate mask width b q) with h | ⟨p, hp, hq, he⟩
      · rw [cropScanUpdate_bottom] at h
        by_cases hqual : mask (q.2 * width + q.1) ≤ 8/100
        · rw [if_pos hqual] at h
          exact Or.inl h
        · rw [if_neg hqual] at h
          by_cases hlt : (q.2 : ℤ) > b.bottom
          · rw [if_pos hlt] at h
            exact Or.inr ⟨q, List.mem_cons_self _ _, not_le.mp hqual, h⟩
          · rw [if_neg hlt] at h
            exact Or.inl h
      · exact Or.inr ⟨p, List.mem_cons_of_mem _ hp, hq, he⟩

theorem cropFold_attain_left (mask : ℕ → ℚ) (width : ℕ) (L : List (ℕ × ℕ)) :
    ∀ b : CropBounds,
      (L.foldl (cropScanUpdate mask width) b).left = b.left ∨
      ∃ p ∈ L, cropQualifies mask width p ∧
        (L.foldl (cropScanUpdate mask width) b).left = (p.1 : ℤ) := by
  induction L with
  | nil => intro b; exact Or.inl rfl
  | cons q L ih =>
      intro b
      rw [List.foldl_cons]
      rcases ih (cropScanUpdate mask width b q) with h | ⟨p, hp, hq, he⟩
      · rw [cropScanUpdate_left] at h
        by_cases hqual : mask (q.2 * width + q.1) ≤ 8/100
        · rw [if_pos hqual] at h
          exact Or.inl h
        · rw [if_neg hqual] at h
          by_cases hlt : (q.1 : ℤ) < b.left
          · rw [if_pos hlt] at h
            exact Or.inr ⟨q, List.mem_cons_self _ _, not_le.mp hqual, h⟩
          · rw [if_neg hlt] at h
            exact Or.inl h
      · exact Or.inr ⟨p, List.mem_cons_of_mem _ hp, hq, he⟩

theorem cropFold_attain_right (mask : ℕ → ℚ) (width : ℕ) (L : List (ℕ × ℕ)) :
    ∀ b : CropBounds,
      (L.foldl (cropScanUpdate mask width) b).right = b.right ∨
      ∃ p ∈ L, cropQualifies mask width p ∧
        (L.foldl (cropScanUpdate mask width) b).right = (p.1 : ℤ) := by
  induction L with
  | nil => intro b; exact Or.inl rfl
  | cons q L ih =>
      intro b
      rw [List.foldl_cons]
      rcases ih (cropScanUpdate mask width b q) with h | ⟨p, hp, hq, he⟩
      · rw [cropScanUpdate_right] at h
        by_cases hqual : mask (q.2 * width + q.1) ≤ 8/100
        · rw [if_pos hqual] at h
          exact Or.inl h
        · rw [if_neg hqual] at h
          by_cases hlt : (q.1 : ℤ) > b.right
          · rw [if_pos hlt] at h
            exact Or.inr ⟨q, List.mem_cons_self _ _, not_le.mp hqual, h⟩
          · rw [if_neg hlt] at h
            exact Or.inl h
      · exact Or.inr ⟨p, List.mem_cons_of_mem _ hp, hq, he⟩

theorem cropFold_of_no_qual (mask : ℕ → ℚ) (width : ℕ) (L : List (ℕ × ℕ)) :
    ∀ b : CropBounds, (∀ p ∈ L, ¬ cropQualifies mask width p) →
      L.foldl (cropScanUpdate mask width) b = b := by
  induction L with
  | nil => intro b _; rfl
  | cons q L ih =>
      intro b hall
      rw [List.foldl_cons,
        cropScanUpdate_of_not_qual (hall q (List.mem_cons_self _ _)),
        ih b (fun p hp => hall p (List.mem_cons_of_mem _ hp))]

theorem cropBounds_characterization (mask : ℕ → ℚ) (width height : ℕ) :
    (computeCropBoundsFromMask mask width height = none ↔
      ∀ x, x < width → ∀ y, y < height → mask (y * width + x) ≤ 8/100) ∧
    (∀ b, computeCropBoundsFromMask mask width height = some b →
      (b.top ≤ b.bottom ∧ b.left ≤ b.right) ∧
      (∀ x, x < width → ∀ y, y < height → 8/100 < mask (y * width + x) →
        b.top ≤ (y : ℤ) ∧ (y : ℤ) ≤ b.bottom ∧ b.left ≤ (x : ℤ) ∧ (x : ℤ) ≤ b.right) ∧
      (∃ x, x < width ∧ ∃ y, y < height ∧ 8/100 < mask (y * width + x) ∧ b.top = (y : ℤ)) ∧
      (∃ x, x < width ∧ ∃ y, y < height ∧ 8/100 < mask (y * width + x) ∧ b.bottom = (y : ℤ)) ∧
      (∃ x, x < width ∧ ∃ y, y < height ∧ 8/100 < mask (y * width + x) ∧ b.left = (x : ℤ)) ∧
      (∃ x, x < width ∧ ∃ y, y < height ∧ 8/100 < mask (y * width + x) ∧ b.right = (x : ℤ))) := by
  obtain ⟨F, hF⟩ : ∃ F, (scanPixels width height).foldl (cropScanUpdate mask width)
      ⟨(height : ℤ), -1, (width : ℤ), -1⟩ = F := ⟨_, rfl⟩
  have hd : computeCropBoundsFromMask mask width height =
      if F.bottom < F.top ∨ F.right < F.left then none else some F := by
    rw [← hF]; rfl
  have hcontains : ∀ x, x < width → ∀ y, y < height → 8/100 < mask (y * width + x) →
      F.top ≤ (y : ℤ) ∧ (y : ℤ) ≤ F.bottom ∧ F.left ≤ (x : ℤ) ∧ (x : ℤ) ≤ F.right := by
    intro x hx y hy hq
    have h := cropFold_contains mask width (scanPixels width height)
      ⟨(height : ℤ), -1, (width : ℤ), -1⟩ (x, y) (mem_scanPixels.mpr ⟨hx, hy⟩) hq
    rw [hF] at h
    exact h
  constructor
  · constructor
    · intro hnone x hx y hy
      by_contra hq
      push_neg at hq
      have hb := hcontains x hx y hy hq
      have hcond : F.bottom < F.top ∨ F.right < F.left := by
        by_contra hc
        rw [hd, if_neg hc] at hnone
        cases hnone
      rcases hcond with hc | hc <;> omega
    · intro hall
      have hnoq : ∀ p ∈ scanPixels width height, ¬ cropQualifies mask width p := by
        intro p hp
        rcases mem_scanPixels.mp hp with ⟨h1, h2⟩
        exact not_lt.mpr (hall p.1 h1 p.2 h2)
      have hFi : F = ⟨(height : ℤ), -1, (width : ℤ), -1⟩ := by
        rw [← hF]
        exact cropFold_of_no_qual mask width _ _ hnoq
      rw [hd, hFi, if_pos]
      left
      show (-1 : ℤ) < (height : ℤ)
      omega
  · intro b hb
    have hcond : ¬ (F.bottom < F.top ∨ F.right < F.left) := by
      intro hc
      rw [hd, if_pos hc] at hb
      cases hb
    have hbF : b = F := by
      rw [hd, if_neg hcond] at hb
      exact (Option.some_inj.mp hb).symm
    rw [hbF]
    push_neg at hcond
    have hex : ∃ x, x < width ∧ ∃ y, y < height ∧ 8/100 < mask (y * width + x) := by
      by_contra hno
      push_neg at hno
      have hnoq : ∀ p ∈ scanPixels width height, ¬ cropQualifies mask width p := by
        intro p hp
        rcases mem_scanPixels.mp hp with ⟨h1, h2⟩
        exact not_lt.mpr (hno p.1 h1 p.2 h2)
      have hFi : F = ⟨(height : ℤ), -1, (width : ℤ), -1⟩ := by
        rw [← hF]
        exact cropFold_of_no_qual mask width _ _ hnoq
      rw [hFi] at hcond
      have hbad : (height : ℤ) ≤ -1 := hcond.1
      omega
    obtain ⟨x0, hx0, y0, hy0, hq0⟩ := hex
    have hb0 := hcontains x0 hx0 y0 hy0 hq0
    refine ⟨⟨hcond.1, hcond.2⟩, hcontains, ?_, ?_, ?_, ?_⟩
    · rcases cropFold_attain_top mask width (scanPixels width height)
        ⟨(height : ℤ), -1, (width : ℤ), -1⟩ with h | ⟨p, hp, hq, he⟩
      · rw [hF] at h
        have h2 : F.top = (height : ℤ) := h
        exfalso
        omega
      · rw [hF] at he
        rcases mem_scanPixels.mp hp with ⟨h1, h2⟩
        exact ⟨p.1, h1, p.2, h2, hq, he⟩
    · rcases cropFold_attain_bottom mask width (scanPixels width height)
        ⟨(height : ℤ), -1, (width : ℤ), -1⟩ with h | ⟨p, hp, hq, he⟩
      · rw [hF] at h
        have h2 : F.bottom = (-1 : ℤ) := h
        exfalso
        omega
      · rw [hF] at he
        rcases mem_scanPixels.mp hp with ⟨h1, h2⟩
        exact ⟨p.1, h1, p.2, h2, hq, he⟩
    · rcases cropFold_attain_left mask width (scanPixels width height)
        ⟨(height : ℤ), -1, (width : ℤ), -1⟩ with h | ⟨p, hp, hq, he⟩
      · rw [hF] at h
        have h2 : F.left = (width : ℤ) := h
        exfalso
        omega
      · rw [hF] at he
        rcases mem_scanPixels.mp hp with ⟨h1, h2⟩
        exact ⟨p.1, h1, p.2, h2, hq, he⟩
    · rcases cropFold_attain_right mask width (scanPixels width height)
        ⟨(height : ℤ), -1, (width : ℤ), -1⟩ with h | ⟨p, hp, hq, he⟩
      · rw [hF] at h
        have h2 : F.right = (-1 : ℤ) := h
        exfalso
        omega
      · rw [hF] at he
        rcases mem_scanPixels.mp hp with ⟨h1, h2⟩
        exact ⟨p.1, h1, p.2, h2, hq, he⟩

/-- A 64×48 matte that is exactly 1 inside the rectangle `[10,10]-[50,40]`
(inclusive, `x` in `[10,50]`, `y` in `[10,40]`) and 0 elsewhere. -/
def rectMask : ℕ → ℚ := fun i =>
  if 10 ≤ i % 64 ∧ i % 64 ≤ 50 ∧ 10 ≤ i / 64 ∧ i / 64 ≤ 40 then 1 else 0

theorem rectMask_qual_iff (x y : ℕ) (hx : x < 64) :
    (8/100 < rectMask (y * 64 + x)) ↔ (10 ≤ x ∧ x ≤ 50 ∧ 10 ≤ y ∧ y ≤ 40) := by
  have hx' : (y * 64 + x) % 64 = x := by omega
  have hy' : (y * 64 + x) / 64 = y := by omega
  unfold rectMask
  rw [hx', hy']
  split
  · rename_i hcond
    constructor
    · intro _
      exact hcond
    · intro _
      norm_num
  · rename_i hcond
    constructor
    · intro h
      exfalso
      norm_num at h
    · intro h
      exact absurd h hcond

/-- C3.  `computeCropBoundsFromMask` counts a pixel as qualifying iff its
matte value is strictly greater than 0.08, returns the tight bounding box
`{top, bottom, left, right}` of the qualifying pixels (`top ≤ bottom`,
`left ≤ right`, every qualifying pixel lies inside the box and each of the
four sides is attained by a qualifying pixel), and returns `none` exactly
when no pixel qualifies; in particular, for a matte that is exactly 1
inside the rectangle `[10,10]-[50,40]` of a 64×48 buffer and 0 elsewhere
it returns exactly `{top := 10, bottom := 40, left := 10, right := 50}`. -/
theorem computeCropBoundsFromMask_spec :
    (∀ (mask : ℕ → ℚ) (width height : ℕ),
      (computeCropBoundsFromMask mask width height = none ↔
        ∀ x, x < width → ∀ y, y < height → mask (y * width + x) ≤ 8/100) ∧
      (∀ b, computeCropBoundsFromMask mask width height = some b →
        (b.top ≤ b.bottom ∧ b.left ≤ b.right) ∧
        (∀ x, x < width → ∀ y, y < height → 8/100 < mask (y * width + x) →
          b.top ≤ (y : ℤ) ∧ (y : ℤ) ≤ b.bottom ∧ b.left ≤ (x : ℤ) ∧ (x : ℤ) ≤ b.right) ∧
        (∃ x, x < width ∧ ∃ y, y < height ∧ 8/100 < mask (y * width + x) ∧ b.top = (y : ℤ)) ∧
        (∃ x, x < width ∧ ∃ y, y < height ∧ 8/100 < mask (y * width + x) ∧ b.bottom = (y : ℤ)) ∧
        (∃ x, x < width ∧ ∃ y, y < height ∧ 8/100 < mask (y * width + x) ∧ b.left = (x : ℤ)) ∧
        (∃ x, x < width ∧ ∃ y, y < height ∧ 8/100 < mask (y * width + x) ∧ b.right = (x : ℤ)))) ∧
    computeCropBoundsFromMask rectMask 64 48 = some ⟨10, 40, 10, 50⟩ := by
  refine ⟨cropBounds_characterization, ?_⟩
  have hchar := cropBounds_characterization rectMask 64 48
  have hq1010 : 8/100 < rectMask (10 * 64 + 10) :=
    (rectMask_qual_iff 10 10 (by norm_num)).mpr (by norm_num)
  have hq5040 : 8/100 < rectMask (40 * 64 + 50) :=
    (rectMask_qual_iff 50 40 (by norm_num)).mpr (by norm_num)
  cases hres : computeCropBoundsFromMask rectMask 64 48 with
  | none =>
      exact absurd (hchar.1.mp hres 10 (by norm_num) 10 (by norm_num))
        (not_le.mpr hq1010)
  | some b =>
      obtain ⟨⟨htb, hlr⟩, hcont, ⟨xt, hxt, yt, hyt, hqt, het⟩,
        ⟨xb, hxb, yb, hyb, hqb, heb⟩, ⟨xl, hxl, yl, hyl, hql, hel⟩,
        ⟨xr, hxr, yr, hyr, hqr, her⟩⟩ := hchar.2 b hres
      have h1 := hcont 10 (by norm_num) 10 (by norm_num) hq1010
      have h2 := hcont 50 (by norm_num) 40 (by norm_num) hq5040
      have hrt := (rectMask_qual_iff xt yt hxt).mp hqt
      have hrb := (rectMask_qual_iff xb yb hxb).mp hqb
      have hrl := (rectMask_qual_iff xl yl hxl).mp hql
      have hrr := (rectMask_qual_iff xr yr hxr).mp hqr
      have e1 : b.top = 10 := by omega
      have e2 : b.bottom = 40 := by omega
      have e3 : b.left = 10 := by omega
      have e4 : b.right = 50 := by omega
      cases b
      simp only [Option.some.injEq, CropBounds.mk.injEq]
      exact ⟨e1, e2, e3, e4⟩

theorem computeCropBoundsFromMask_spec_witness :
    computeCropBoundsFromMask (fun _ => 0) 3 3 = none := by
  have h := (computeCropBoundsFromMask_spec.1 (fun _ => 0) 3 3).1
  exact h.mpr (fun x hx y hy => by norm_num)

/-- In-range window positions of one box-blur pass: the source loops
`for (d = -radius; d <= radius; d++)` and skips out-of-range positions
(`n < 0 || n >= bound → continue`), counting only the kept ones. -/
def blurWindow (bound radius center : ℕ) : List ℤ :=
  ((List.range (2 * radius + 1)).map (fun t : ℕ => (center : ℤ) + t - radius)).filter
    (fun v => decide (0 ≤ v) && decide (v < (bound : ℤ)))

theorem mem_blurWindow {bound radius center : ℕ} {v : ℤ} :
    v ∈ blurWindow bound radius center ↔
      0 ≤ v ∧ v < (bound : ℤ) ∧
        (center : ℤ) - radius ≤ v ∧ v ≤ (center : ℤ) + radius := by
  simp only [blurWindow, List.mem_filter, List.mem_map, List.mem_range,
    Bool.and_eq_true, decide_eq_true_eq]
  constructor
  · rintro ⟨⟨t, ht, rfl⟩, h1, h2⟩
    refine ⟨h1, h2, by omega, by omega⟩
  · rintro ⟨h1, h2, h3, h4⟩
    exact ⟨⟨(v - (center : ℤ) + radius).toNat, by omega, by omega⟩, h1, h2⟩

/-- Horizontal pass of `boxBlur` at pixel `(x, y)`: the windowed row mean
(`sum / count` over in-range columns). -/
def boxBlurH (mask : ℕ → ℚ) (width radius : ℕ) (x y : ℕ) : ℚ :=
  ((blurWindow width radius x).map (fun nx => mask (y * width + nx.toNat))).sum /
    ((blurWindow width radius x).length : ℚ)

/-- Vertical pass of `boxBlur` at pixel `(x, y)`: the windowed column mean
of the horizontal pass. -/
def boxBlurV (mask : ℕ → ℚ) (width height radius : ℕ) (x y : ℕ) : ℚ :=
  ((blurWindow height radius y).map (fun ny => boxBlurH mask width radius x ny.toNat)).sum /
    ((blurWindow height radius y).length : ℚ)

/-- Embedding of `boxBlur(mask, width, height, radius)`: separable
horizontal-then-vertical windowed means, clamped at the bounds. -/
def boxBlur (mask : ℕ → ℚ) (width height radius : ℕ) : ℕ → ℚ :=
  fun idx => boxBlurV mask width height radius (idx % width) (idx / width)

/-- Embedding of `softenBinaryMask(mask, width, height, radius)`: convert
to floats, box-blur, then remap through
`t = clamp((v - 0.16)/0.72, 0, 1); alpha = t²(3 - 2t)` (smoothstep). -/
def softenBinaryMask (mask : ℕ → ℕ) (width height radius : ℕ) : ℕ → ℚ :=
  let floatMask : ℕ → ℚ := fun i => (mask i : ℚ)
  if radius = 0 then floatMask
  else fun i =>
    let normalized := clamp ((boxBlur floatMask width height radius i - 16/100) / (72/100)) 0 1
    normalized * normalized * (3 - 2 * normalized)

theorem list_sum_nonneg {l : List ℚ} (h0 : ∀ q ∈ l, 0 ≤ q) : 0 ≤ l.sum := by
  induction l with
  | nil => simp
  | cons a l ih =>
      rw [List.sum_cons]
      have ha := h0 a (List.mem_cons_self _ _)
      have hl := ih (fun q hq => h0 q (List.mem_cons_of_mem _ hq))
      linarith

theorem list_sum_pos_iff {l : List ℚ} (h0 : ∀ q ∈ l, 0 ≤ q) :
    0 < l.sum ↔ ∃ q ∈ l, 0 < q := by
  induction l with
  | nil => simp
  | cons a l ih =>
      have ha := h0 a (List.mem_cons_self _ _)
      have hl0 : ∀ q ∈ l, 0 ≤ q := fun q hq => h0 q (List.mem_cons_of_mem _ hq)
      have hls := list_sum_nonneg hl0
      rw [List.sum_cons]
      constructor
      · intro hpos
        by_cases hap : 0 < a
        · exact ⟨a, List.mem_cons_self _ _, hap⟩
        · have : 0 < l.sum := by
            have : a = 0 := le_antisymm (not_lt.mp hap) ha
            linarith
          rcases (ih hl0).mp this with ⟨q, hq, hqp⟩
          exact ⟨q, List.mem_cons_of_mem _ hq, hqp⟩
      · rintro ⟨q, hq, hqp⟩
        rcases List.mem_cons.mp hq with rfl | hq'
        · linarith
        · have : 0 < l.sum := (ih hl0).mpr ⟨q, hq', hqp⟩
          linarith

theorem boxBlurH_nonneg {mask : ℕ → ℚ} (h0 : ∀ i, 0 ≤ mask i)
    (width radius x y : ℕ) : 0 ≤ boxBlurH mask width radius x y := by
  unfold boxBlurH
  refine div_nonneg ?_ (by positivity)
  refine list_sum_nonneg ?_
  intro q hq
  rcases List.mem_map.mp hq with ⟨nx, _, rfl⟩
  exact h0 _

theorem boxBlurH_pos_iff {mask : ℕ → ℚ} (h0 : ∀ i, 0 ≤ mask i)
    (width radius x y : ℕ) :
    0 < boxBlurH mask width radius x y ↔
      ∃ nx ∈ blurWindow width radius x, 0 < mask (y * width + nx.toNat) := by
  unfold boxBlurH
  have hmem : ∀ q ∈ (blurWindow width radius x).map
      (fun nx => mask (y * width + nx.toNat)), 0 ≤ q := by
    intro q hq
    rcases List.mem_map.mp hq with ⟨nx, _, rfl⟩
    exact h0 _
  constructor
  · intro hpos
    rcases div_pos_iff.mp hpos with ⟨hs, _⟩ | ⟨hs, hl⟩
    · rcases (list_sum_pos_iff hmem).mp hs with ⟨q, hq, hqp⟩
      rcases List.mem_map.mp hq with ⟨nx, hnx, rfl⟩
      exact ⟨nx, hnx, hqp⟩
    · exact absurd hl (not_lt.mpr (by positivity))
  · rintro ⟨nx, hnx, hp⟩
    refine div_pos ?_ ?_
    · exact (list_sum_pos_iff hmem).mpr ⟨_, List.mem_map_of_mem _ hnx, hp⟩
    · have hlp : 0 < (blurWindow width radius x).length :=
        List.length_pos.mpr (List.ne_nil_of_mem hnx)
      exact_mod_cast hlp

theorem boxBlurV_pos_iff {mask : ℕ → ℚ} (h0 : ∀ i, 0 ≤ mask i)
    (width height radius x y : ℕ) :
    0 < boxBlurV mask width height radius x y ↔
      ∃ ny ∈ blurWindow height radius y,
        ∃ nx ∈ blurWindow width radius x,
          0 < mask (ny.toNat * width + nx.toNat) := by
  unfold boxBlurV
  have hmem : ∀ q ∈ (blurWindow height radius y).map
      (fun ny => boxBlurH mask width radius x ny.toNat), 0 ≤ q := by
    intro q hq
    rcases List.mem_map.mp hq with ⟨ny, _, rfl⟩
    exact boxBlurH_nonneg h0 _ _ _ _
  constructor
  · intro hpos
    rcases div_pos_iff.mp hpos with ⟨hs, _⟩ | ⟨hs, hl⟩
    · rcases (list_sum_pos_iff hmem).mp hs with ⟨q, hq, hqp⟩
      rcases List.mem_map.mp hq with ⟨ny, hny, rfl⟩
      rcases (boxBlurH_pos_iff h0 width radius x ny.toNat).mp hqp with ⟨nx, hnx, hp⟩
      exact ⟨ny, hny, nx, hnx, hp⟩
    · exact absurd hl (not_lt.mpr (by positivity))
  · rintro ⟨ny, hny, nx, hnx, hp⟩
    refine div_pos ?_ ?_
    · refine (list_sum_pos_iff hmem).mpr
        ⟨_, List.mem_map_of_mem _ hny, ?_⟩
      exact (boxBlurH_pos_iff h0 width radius x ny.toNat).mpr ⟨nx, hnx, hp⟩
    · have hlp : 0 < (blurWindow height radius y).length :=
        List.length_pos.mpr (List.ne_nil_of_mem hny)
      exact_mod_cast hlp

theorem blurWindow_subset {bound center r1 r2 : ℕ} (h : r1 ≤ r2) {v : ℤ}
    (hv : v ∈ blurWindow bound r1 center) : v ∈ blurWindow bound r2 center := by
  rcases mem_blurWindow.mp hv with ⟨h1, h2, h3, h4⟩
  exact mem_blurWindow.mpr ⟨h1, h2, by omega, by omega⟩

theorem boxBlurV_nonneg {mask : ℕ → ℚ} (h0 : ∀ i, 0 ≤ mask i)
    (width height radius x y : ℕ) : 0 ≤ boxBlurV mask width height radius x y := by
  unfold boxBlurV
  refine div_nonneg ?_ (by positivity)
  refine list_sum_nonneg ?_
  intro q hq
  rcases List.mem_map.mp hq with ⟨ny, _, rfl⟩
  exact boxBlurH_nonneg h0 _ _ _ _

/-- C7 (amended).  For a binary mask viewed as floats, increasing
`featherAmount` never decreases the support of non-zero *blurred* values:
if the separable box blur at radius `max(1, f1+1)` is non-zero at a pixel,
it is still non-zero at radius `max(1, f2+1)` for every `f2 ≥ f1`.  (The
subsequent smoothstep remap of `softenBinaryMask`, which sends every
blurred value ≤ 0.16 to 0, does not preserve this monotonicity — see the
counterexample theorem.) -/
theorem boxBlur_support_monotone (mask : ℕ → ℕ) (width height f1 f2 idx : ℕ)
    (h12 : f1 ≤ f2)
    (h1 : boxBlur (fun i => (mask i : ℚ)) width height (max 1 (f1 + 1)) idx ≠ 0) :
    boxBlur (fun i => (mask i : ℚ)) width height (max 1 (f2 + 1)) idx ≠ 0 := by
  have h0 : ∀ i, 0 ≤ ((mask i : ℚ)) := fun i => by positivity
  have hr : max 1 (f1 + 1) ≤ max 1 (f2 + 1) := by omega
  have hpos : 0 < boxBlur (fun i => (mask i : ℚ)) width height (max 1 (f1 + 1)) idx := by
    refine lt_of_le_of_ne ?_ (Ne.symm h1)
    exact boxBlurV_nonneg h0 _ _ _ _ _
  unfold boxBlur at hpos ⊢
  rcases (boxBlurV_pos_iff h0 width height (max 1 (f1 + 1)) (idx % width)
    (idx / width)).mp hpos with ⟨ny, hny, nx, hnx, hp⟩
  have hpos2 : 0 < boxBlurV (fun i => (mask i : ℚ)) width height (max 1 (f2 + 1))
      (idx % width) (idx / width) :=
    (boxBlurV_pos_iff h0 width height (max 1 (f2 + 1)) (idx % width)
      (idx / width)).mpr
      ⟨ny, blurWindow_subset hr hny, nx, blurWindow_subset hr hnx, hp⟩
  exact hpos2.ne'

theorem boxBlur_support_monotone_witness :
    (0 : ℕ) ≤ 1 ∧
      boxBlur (fun i => (((fun j : ℕ => if j = 0 then 1 else 0) i : ℕ) : ℚ)) 1 1
        (max 1 (0 + 1)) 0 ≠ 0 ∧
      boxBlur (fun i => (((fun j : ℕ => if j = 0 then 1 else 0) i : ℕ) : ℚ)) 1 1
        (max 1 (1 + 1)) 0 ≠ 0 := by
  have e1 : blurWindow 1 1 0 = [0] := by decide
  have h1 : boxBlur (fun i => (((fun j : ℕ => if j = 0 then 1 else 0) i : ℕ) : ℚ)) 1 1
      (max 1 (0 + 1)) 0 ≠ 0 := by
    simp [boxBlur, boxBlurV, boxBlurH, e1]
  exact ⟨by norm_num, h1,
    boxBlur_support_monotone (fun j : ℕ => if j = 0 then 1 else 0) 1 1 0 1 0
      (by norm_num) h1⟩

/-- The 5×7 mask of the C7 counterexample: a 2×2 foreground block with
upper-left corner at `(2, 2)`. -/
def featherCexMask : ℕ → ℕ := fun i =>
  if (i % 5 = 2 ∨ i % 5 = 3) ∧ (i / 5 = 2 ∨ i / 5 = 3) then 1 else 0

/-- C7 counterexample.  On the 5×7 mask `featherCexMask`, the pixel at
index 12 (coordinates `(2, 2)`) has a non-zero softened matte value for
`featherAmount = 0` (blur radius `max(1, 0+1) = 1`, blurred value `4/9`)
but a softened matte value of exactly 0 for `featherAmount = 6` (blur
radius `max(1, 6+1) = 7`, blurred value `4/35 < 0.16`, which the
smoothstep remap sends to 0): increasing `featherAmount` shrank the
support of the non-zero matte values. -/
theorem softenBinaryMask_support_counterexample :
    (0 : ℕ) ≤ 6 ∧
      softenBinaryMask featherCexMask 5 7 (max 1 (0 + 1)) 12 ≠ 0 ∧
      softenBinaryMask featherCexMask 5 7 (max 1 (6 + 1)) 12 = 0 := by
  have e1 : blurWindow 5 1 2 = [1, 2, 3] := by decide
  have e2 : blurWindow 7 1 2 = [1, 2, 3] := by decide
  have e3 : blurWindow 5 7 2 = [0, 1, 2, 3, 4] := by decide
  have e4 : blurWindow 7 7 2 = [0, 1, 2, 3, 4, 5, 6] := by decide
  have hv1 : boxBlur (fun i => (featherCexMask i : ℚ)) 5 7 1 12 = 4/9 := by
    simp [boxBlur, boxBlurV, boxBlurH, e1, e2, featherCexMask]
    norm_num
  have hv7 : boxBlur (fun i => (featherCexMask i : ℚ)) 5 7 7 12 = 4/35 := by
    simp [boxBlur, boxBlurV, boxBlurH, e3, e4, featherCexMask]
    norm_num
  refine ⟨by norm_num, ?_, ?_⟩
  · simp only [softenBinaryMask]
    norm_num [hv1, clamp, min_def, max_def]
  · simp only [softenBinaryMask]
    norm_num [hv7, clamp, min_def, max_def]

theorem computeGradientMap_spec_witness :
    (computeGradientMap (fun _ => 7) 1 1).length = 1 * 1 ∧
      gradXAt (fun _ => 7) 1 0 = 0 ∧ gradYAt (fun _ => 7) 1 1 0 = 0 :=
  ⟨(computeGradientMap_spec (fun _ => 7) 1 1).1,
    (computeGradientMap_spec (fun _ => 7) 1 1).2.2.1 0 rfl,
    (computeGradientMap_spec (fun _ => 7) 1 1).2.2.2 0 (by decide) rfl⟩

/-- The 4-neighbourhood push order of every BFS of the source: left, right,
up, down, each guarded exactly as in the source
(`x > 0`, `x < width-1`, `y > 0`, `y < height-1`). -/
def neighborsOf (width height idx : ℕ) : List ℕ :=
  let x := idx % width
  let y := idx / width
  (if 0 < x then [idx - 1] else []) ++
  (if x < width - 1 then [idx + 1] else []) ++
  (if 0 < y then [idx - width] else []) ++
  (if y < height - 1 then [idx + width] else [])

theorem neighborsOf_lt_total {width height idx : ℕ}
    (hidx : idx < width * height) :
    ∀ j ∈ neighborsOf width height idx, j < width * height := by
  intro j hj
  have hw : 0 < width := by
    rcases Nat.eq_zero_or_pos width with h | h
    · subst h; simp at hidx
    · exact h
  obtain ⟨x, y, hx, hxy⟩ : ∃ x y, x < width ∧ width * y + x = idx :=
    ⟨idx % width, idx / width, Nat.mod_lt _ hw, Nat.div_add_mod idx width⟩
  have hmod : idx % width = x := by
    rw [← hxy, Nat.mul_add_mod, Nat.mod_eq_of_lt hx]
  have hdiv : idx / width = y := by
    rw [← hxy, Nat.mul_add_div hw, Nat.div_eq_of_lt hx, Nat.add_zero]
  have hy : y < height := by
    by_contra h'
    push_neg at h'
    have hbig : width * height ≤ width * y := Nat.mul_le_mul_left _ h'
    omega
  unfold neighborsOf at hj
  rw [hmod, hdiv] at hj
  simp only [List.mem_append] at hj
  rcases hj with ((h | h) | h) | h
  · rcases List.mem_ite_nil_right.mp h with ⟨_, hm⟩
    rw [List.mem_singleton] at hm
    subst hm
    omega
  · rcases List.mem_ite_nil_right.mp h with ⟨hxg, hm⟩
    rw [List.mem_singleton] at hm
    subst hm
    have e1 : width * (y + 1) = width * y + width := by ring
    have e2 : width * (y + 1) ≤ width * height := Nat.mul_le_mul_left _ (by omega)
    omega
  · rcases List.mem_ite_nil_right.mp h with ⟨_, hm⟩
    rw [List.mem_singleton] at hm
    subst hm
    omega
  · rcases List.mem_ite_nil_right.mp h with ⟨hyg, hm⟩
    rw [List.mem_singleton] at hm
    subst hm
    have e1 : width * (y + 2) = width * y + width + width := by ring
    have e2 : width * (y + 2) ≤ width * height := Nat.mul_le_mul_left _ (by omega)
    omega

/-- Sequential conditional mark-and-enqueue over a list of candidate
indices: the shared shape of the seed loops and of the per-neighbour
`tryPush` / `tryLabel` / `enqueueIfBackground` calls of the source's
breadth-first searches.  `adm` is the enqueue test (it always includes
"not yet visited"), `mark` records the visit at enqueue time. -/
def pushAll {σ : Type} ( adm : σ → ℕ → Bool) (mark : σ → ℕ → σ) :
    σ → List ℕ → σ × List ℕ
  | s, [] => (s, [])
  | s, j :: js =>
      if adm s j then
        let r := pushAll adm mark (mark s j) js
        (r.1, j :: r.2)
      else pushAll adm mark s js

/-- Fuelled worklist loop: the source's `while (head < tail)` over an
array-backed queue.  `none` models overflowing the fixed-capacity queue
(fuel counts dequeues, which the capacity bounds). -/
def bfsLoop {σ : Type} (step : σ → ℕ → σ × List ℕ) :
    ℕ → σ → List ℕ → Option σ
  | _, s, [] => some s
  | 0, _, _ :: _ => none
  | fuel + 1, s, idx :: rest =>
      bfsLoop step fuel (step s idx).1 (rest ++ (step s idx).2)

theorem pushAll_snd_subset {σ : Type} ( adm : σ → ℕ → Bool)
    (mark : σ → ℕ → σ) :
    ∀ (js : List ℕ) (s : σ), ∀ j ∈ (pushAll adm mark s js).2, j ∈ js := by
  intro js
  induction js with
  | nil => intro s j hj; cases hj
  | cons k js ih =>
      intro s j hj
      rw [pushAll] at hj
      by_cases hadm : adm s k = true
      · rw [if_pos hadm] at hj
        rcases List.mem_cons.mp hj with rfl | hj'
        · exact List.mem_cons_self _ _
        · exact List.mem_cons_of_mem _ (ih _ j hj')
      · rw [if_neg hadm] at hj
        exact List.mem_cons_of_mem _ (ih _ j hj)

theorem pushAll_snd_prop {σ : Type} ( adm : σ → ℕ → Bool)
    (mark : σ → ℕ → σ) (Q : ℕ → Prop)
    (hq : ∀ (s : σ) (j : ℕ), adm s j = true → Q j) :
    ∀ (js : List ℕ) (s : σ), ∀ j ∈ (pushAll adm mark s js).2, Q j := by
  intro js
  induction js with
  | nil => intro s j hj; cases hj
  | cons k js ih =>
      intro s j hj
      rw [pushAll] at hj
      by_cases hadm : adm s k = true
      · rw [if_pos hadm] at hj
        rcases List.mem_cons.mp hj with rfl | hj'
        · exact hq s j hadm
        · exact ih _ j hj'
      · rw [if_neg hadm] at hj
        exact ih _ j hj

theorem pushAll_marks {σ : Type} ( adm : σ → ℕ → Bool)
    (mark : σ → ℕ → σ) (marked : σ → ℕ → Bool)
    (HM : ∀ (s : σ) (j i : ℕ),
      marked (mark s j) i = true ↔ (marked s i = true ∨ i = j)) :
    ∀ (js : List ℕ) (s : σ) (i : ℕ),
      marked (pushAll adm mark s js).1 i = true ↔
        (marked s i = true ∨ i ∈ (pushAll adm mark s js).2) := by
  intro js
  induction js with
  | nil =>
      intro s i
      rw [pushAll]
      simp
  | cons k js ih =>
      intro s i
      rw [pushAll]
      by_cases hadm : adm s k = true
      · rw [if_pos hadm]
        dsimp only
        rw [ih (mark s k) i, HM s k i, List.mem_cons]
        tauto
      · rw [if_neg hadm]
        exact ih s i

theorem pushAll_snd_fresh {σ : Type} ( adm : σ → ℕ → Bool)
    (mark : σ → ℕ → σ) (marked : σ → ℕ → Bool)
    (HM : ∀ (s : σ) (j i : ℕ),
      marked (mark s j) i = true ↔ (marked s i = true ∨ i = j))
    (HA : ∀ (s : σ) (j : ℕ), adm s j = true → marked s j = false) :
    ∀ (js : List ℕ) (s : σ), ∀ j ∈ (pushAll adm mark s js).2,
      marked s j = false := by
  intro js
  induction js with
  | nil => intro s j hj; cases hj
  | cons k js ih =>
      intro s j hj
      rw [pushAll] at hj
      by_cases hadm : adm s k = true
      · rw [if_pos hadm] at hj
        rcases List.mem_cons.mp hj with rfl | hj'
        · exact HA s j hadm
        · have hfresh := ih (mark s k) j hj'
          by_cases hsj : marked s j = true
          · exact absurd ((HM s k j).mpr (Or.inl hsj)) (by rw [hfresh]; simp)
          · exact Bool.eq_false_iff.mpr hsj
      · rw [if_neg hadm] at hj
        exact ih s j hj

theorem pushAll_snd_nodup {σ : Type} ( adm : σ → ℕ → Bool)
    (mark : σ → ℕ → σ) (marked : σ → ℕ → Bool)
    (HM : ∀ (s : σ) (j i : ℕ),
      marked (mark s j) i = true ↔ (marked s i = true ∨ i = j))
    (HA : ∀ (s : σ) (j : ℕ), adm s j = true → marked s j = false) :
    ∀ (js : List ℕ) (s : σ), (pushAll adm mark s js).2.Nodup := by
  intro js
  induction js with
  | nil => intro s; rw [pushAll]; exact List.nodup_nil
  | cons k js ih =>
      intro s
      rw [pushAll]
      by_cases hadm : adm s k = true
      · rw [if_pos hadm]
        dsimp only
        refine List.nodup_cons.mpr ⟨?_, ih (mark s k)⟩
        intro hmem
        have hfresh := pushAll_snd_fresh adm mark marked HM HA js (mark s k) k hmem
        have : marked (mark s k) k = true := (HM s k k).mpr (Or.inr rfl)
        rw [hfresh] at this
        cases this
      · rw [if_neg hadm]
        exact ih s

theorem pushAll_admit_stable {σ : Type} ( adm : σ → ℕ → Bool)
    (mark : σ → ℕ → σ)
    (HL : ∀ (s : σ) (k j : ℕ), j ≠ k → adm (mark s k) j = adm s j) :
    ∀ (js : List ℕ) (s : σ) (j : ℕ), j ∉ (pushAll adm mark s js).2 →
      adm (pushAll adm mark s js).1 j = adm s j := by
  intro js
  induction js with
  | nil => intro s j _; rw [pushAll]
  | cons k js ih =>
      intro s j hj
      rw [pushAll] at hj ⊢
      by_cases hadm : adm s k = true
      · rw [if_pos hadm] at hj ⊢
        dsimp only at hj ⊢
        have hjk : j ≠ k := by
          intro hk
          exact hj (hk ▸ List.mem_cons_self _ _)
        have hjr : j ∉ (pushAll adm mark (mark s k) js).2 := by
          intro hmem
          exact hj (List.mem_cons_of_mem _ hmem)
        rw [ih (mark s k) j hjr, HL s k j hjk]
      · rw [if_neg hadm] at hj ⊢
        exact ih s j hj

theorem pushAll_processed {σ : Type} ( adm : σ → ℕ → Bool)
    (mark : σ → ℕ → σ) (marked : σ → ℕ → Bool)
    (HM : ∀ (s : σ) (j i : ℕ),
      marked (mark s j) i = true ↔ (marked s i = true ∨ i = j))
    (HA : ∀ (s : σ) (j : ℕ), adm s j = true → marked s j = false)
    (HL : ∀ (s : σ) (k j : ℕ), j ≠ k → adm (mark s k) j = adm s j) :
    ∀ (js : List ℕ) (s : σ), ∀ j ∈ js,
      adm (pushAll adm mark s js).1 j = false := by
  intro js
  induction js with
  | nil => intro s j hj; cases hj
  | cons k js ih =>
      intro s j hj
      rw [pushAll]
      by_cases hadm : adm s k = true
      · rw [if_pos hadm]
        dsimp only
        rcases List.mem_cons.mp hj with rfl | hj'
        · have hmark : marked (pushAll adm mark (mark s j) js).1 j = true :=
            (pushAll_marks adm mark marked HM js (mark s j) j).mpr
              (Or.inl ((HM s j j).mpr (Or.inr rfl)))
          by_cases hres : adm (pushAll adm mark (mark s j) js).1 j = true
          · rw [HA _ _ hres] at hmark
            cases hmark
          · exact Bool.eq_false_iff.mpr hres
        · exact ih (mark s k) j hj'
      · rw [if_neg hadm]
        rcases List.mem_cons.mp hj with rfl | hj'
        · by_cases hmem : j ∈ (pushAll adm mark s js).2
          · have hmark : marked (pushAll adm mark s js).1 j = true :=
              (pushAll_marks adm mark marked HM js s j).mpr (Or.inr hmem)
            by_cases hres : adm (pushAll adm mark s js).1 j = true
            · rw [HA _ _ hres] at hmark
              cases hmark
            · exact Bool.eq_false_iff.mpr hres
          · rw [pushAll_admit_stable adm mark HL js s j hmem]
            exact Bool.eq_false_iff.mpr hadm
        · exact ih s j hj'

theorem pushAll_mem_iff {σ : Type} ( adm : σ → ℕ → Bool)
    (mark : σ → ℕ → σ)
    (HL : ∀ (s : σ) (k j : ℕ), j ≠ k → adm (mark s k) j = adm s j) :
    ∀ (js : List ℕ) (s : σ) (j : ℕ),
      j ∈ (pushAll adm mark s js).2 ↔ (j ∈ js ∧ adm s j = true) := by
  intro js
  induction js with
  | nil =>
      intro s j
      rw [pushAll]
      simp
  | cons k js ih =>
      intro s j
      rw [pushAll]
      by_cases hadm : adm s k = true
      · rw [if_pos hadm]
        dsimp only
        by_cases hjk : j = k
        · subst hjk
          constructor
          · intro _
            exact ⟨List.mem_cons_self _ _, hadm⟩
          · intro _
            exact List.mem_cons_self _ _
        · constructor
          · intro hmem
            rcases List.mem_cons.mp hmem with h | h
            · exact absurd h hjk
            · rcases (ih (mark s k) j).mp h with ⟨hjs, hadm'⟩
              refine ⟨List.mem_cons_of_mem _ hjs, ?_⟩
              rw [← HL s k j hjk]
              exact hadm'
          · rintro ⟨hjs, hadm'⟩
            rcases List.mem_cons.mp hjs with h | h
            · exact absurd h hjk
            · refine List.mem_cons_of_mem _ ((ih (mark s k) j).mpr ⟨h, ?_⟩)
              rw [HL s k j hjk]
              exact hadm'
      · rw [if_neg hadm]
        by_cases hjk : j = k
        · subst hjk
          constructor
          · intro hmem
            exact absurd ((ih s j).mp hmem).2 hadm
          · rintro ⟨_, hadm'⟩
            exact absurd hadm' hadm
        · rw [ih s j]
          constructor
          · rintro ⟨hjs, hadm'⟩
            exact ⟨List.mem_cons_of_mem _ hjs, hadm'⟩
          · rintro ⟨hjs, hadm'⟩
            rcases List.mem_cons.mp hjs with h | h
            · exact absurd h hjk
            · exact ⟨h, hadm'⟩

theorem bfsLoop_invariant {σ : Type} (step : σ → ℕ → σ × List ℕ)
    (P : σ → List ℕ → Prop)
    (hstep : ∀ (s : σ) (idx : ℕ) (rest : List ℕ), P s (idx :: rest) →
      P (step s idx).1 (rest ++ (step s idx).2)) :
    ∀ (fuel : ℕ) (s : σ) (pending : List ℕ) (s' : σ), P s pending →
      bfsLoop step fuel s pending = some s' → P s' [] := by
  intro fuel
  induction fuel with
  | zero =>
      intro s pending s' hp hrun
      cases pending with
      | nil =>
          rw [bfsLoop] at hrun
          cases hrun
          exact hp
      | cons idx rest =>
          rw [bfsLoop] at hrun
          cases hrun
  | succ fuel ih =>
      intro s pending s' hp hrun
      cases pending with
      | nil =>
          rw [bfsLoop] at hrun
          cases hrun
          exact hp
      | cons idx rest =>
          rw [bfsLoop] at hrun
          exact ih _ _ _ (hstep s idx rest hp) hrun

theorem bfsLoop_isSome {σ : Type} (step : σ → ℕ → σ × List ℕ)
    (marked : σ → ℕ → Bool) (total : ℕ)
    (hstep : ∀ (s : σ) (idx : ℕ), idx < total → marked s idx = true →
      (step s idx).2.Nodup ∧
      (∀ j ∈ (step s idx).2, j < total ∧ marked s j = false) ∧
      (∀ j, marked s j = true ∨ j ∈ (step s idx).2 →
        marked (step s idx).1 j = true)) :
    ∀ (fuel : ℕ) (s : σ) (pending : List ℕ),
      (∀ j ∈ pending, j < total ∧ marked s j = true) →
      total + pending.length ≤
        fuel + ((Finset.range total).filter (fun j => marked s j = true)).card →
      (bfsLoop step fuel s pending).isSome := by
  intro fuel
  induction fuel with
  | zero =>
      intro s pending hp hcard
      cases pending with
      | nil => rw [bfsLoop]; rfl
      | cons idx rest =>
          exfalso
          have hle : ((Finset.range total).filter
              (fun j => marked s j = true)).card ≤ total := by
            calc ((Finset.range total).filter (fun j => marked s j = true)).card
                ≤ (Finset.range total).card := Finset.card_filter_le _ _
              _ = total := Finset.card_range total
          simp only [List.length_cons] at hcard
          omega
  | succ fuel ih =>
      intro s pending hp hcard
      cases pending with
      | nil => rw [bfsLoop]; rfl
      | cons idx rest =>
          rw [bfsLoop]
          have hidx := hp idx (List.mem_cons_self _ _)
          obtain ⟨hnd, hnew, hmono⟩ := hstep s idx hidx.1 hidx.2
          apply ih
          · intro j hj
            rcases List.mem_append.mp hj with hj' | hj'
            · exact ⟨(hp j (List.mem_cons_of_mem _ hj')).1,
                hmono j (Or.inl (hp j (List.mem_cons_of_mem _ hj')).2)⟩
            · exact ⟨(hnew j hj').1, hmono j (Or.inr hj')⟩
          · -- the marked set grows by exactly the freshly pushed indices
            have hsub : (Finset.range total).filter (fun j => marked s j = true) ∪
                (step s idx).2.toFinset ⊆
                (Finset.range total).filter
                  (fun j => marked (step s idx).1 j = true) := by
              intro j hj
              rcases Finset.mem_union.mp hj with hj' | hj'
              · rcases Finset.mem_filter.mp hj' with ⟨hr, hm⟩
                exact Finset.mem_filter.mpr ⟨hr, hmono j (Or.inl hm)⟩
              · have hjm := List.mem_toFinset.mp hj'
                exact Finset.mem_filter.mpr
                  ⟨Finset.mem_range.mpr (hnew j hjm).1, hmono j (Or.inr hjm)⟩
            have hdisj : Disjoint
                ((Finset.range total).filter (fun j => marked s j = true))
                (step s idx).2.toFinset := by
              rw [Finset.disjoint_left]
              intro j hj hj'
              rcases Finset.mem_filter.mp hj with ⟨_, hm⟩
              have := (hnew j (List.mem_toFinset.mp hj')).2
              rw [this] at hm
              cases hm
            have hcard2 : ((Finset.range total).filter
                  (fun j => marked s j = true)).card + (step s idx).2.length ≤
                ((Finset.range total).filter
                  (fun j => marked (step s idx).1 j = true)).card := by
              have h1 := Finset.card_le_card hsub
              rw [Finset.card_union_of_disjoint hdisj,
                List.toFinset_card_of_nodup hnd] at h1
              exact h1
            simp only [List.length_cons] at hcard
            simp only [List.length_append]
            omega

/-- Generic characterization of the visited set of the source's
breadth-first searches: an index is marked in the final state exactly when
it is connected to some initially-enqueued index by a chain of admissible
4-neighbour steps.  `A` is the state-independent part of the admission test
(the state-dependent part is always "not yet visited"), `bump` is the
bookkeeping performed on each dequeued index (area counting etc.), which
does not change visit marks. -/
theorem bfs_marks_iff_reach {σ : Type}
    (marked : σ → ℕ → Bool) (mark : σ → ℕ → σ) (bump : σ → ℕ → σ)
    ( adm : σ → ℕ → Bool) (A : ℕ → Bool) (width height : ℕ)
    (HM : ∀ (s : σ) (j i : ℕ),
      marked (mark s j) i = true ↔ (marked s i = true ∨ i = j))
    (HB : ∀ (s : σ) (idx i : ℕ), marked (bump s idx) i = marked s i)
    (HAdm : ∀ (s : σ) (j : ℕ),
      adm s j = true ↔ (marked s j = false ∧ A j = true))
    (HL : ∀ (s : σ) (k j : ℕ), j ≠ k → adm (mark s k) j = adm s j) :
    ∀ (fuel : ℕ) (s0 : σ) (pending0 : List ℕ) (s' : σ),
      (∀ j, marked s0 j = true ↔ j ∈ pending0) →
      bfsLoop (fun s idx =>
          pushAll adm mark (bump s idx) (neighborsOf width height idx))
        fuel s0 pending0 = some s' →
      ∀ j, marked s' j = true ↔
        ∃ src ∈ pending0, Relation.ReflTransGen
          (fun a b => b ∈ neighborsOf width height a ∧ A b = true) src j := by
  intro fuel s0 pending0 s' hmarks0 hrun
  have HA : ∀ (s : σ) (j : ℕ), adm s j = true → marked s j = false :=
    fun s j h => ((HAdm s j).mp h).1
  have HQ : ∀ (s : σ) (j : ℕ), adm s j = true → A j = true :=
    fun s j h => ((HAdm s j).mp h).2
  have hfinal : ((∀ j ∈ ([] : List ℕ), marked s' j = true) ∧
      (∀ j, marked s' j = true →
        ∃ src ∈ pending0, Relation.ReflTransGen
          (fun a b => b ∈ neighborsOf width height a ∧ A b = true) src j) ∧
      (∀ j, marked s' j = true → j ∉ ([] : List ℕ) →
        ∀ n ∈ neighborsOf width height j, A n = true → marked s' n = true) ∧
      (∀ src ∈ pending0, marked s' src = true)) := by
    refine bfsLoop_invariant _
      (fun s pending =>
        (∀ j ∈ pending, marked s j = true) ∧
        (∀ j, marked s j = true →
          ∃ src ∈ pending0, Relation.ReflTransGen
            (fun a b => b ∈ neighborsOf width height a ∧ A b = true) src j) ∧
        (∀ j, marked s j = true → j ∉ pending →
          ∀ n ∈ neighborsOf width height j, A n = true → marked s n = true) ∧
        (∀ src ∈ pending0, marked s src = true))
      ?_ fuel s0 pending0 s' ?_ hrun
    · rintro s idx rest ⟨hp1, hp2, hp3, hp4⟩
      have hF1 : ∀ i, marked (pushAll adm mark (bump s idx)
          (neighborsOf width height idx)).1 i = true ↔
          (marked s i = true ∨ i ∈ (pushAll adm mark (bump s idx)
            (neighborsOf width height idx)).2) := by
        intro i
        rw [pushAll_marks adm mark marked HM _ _ i, HB]
      have hF2 := pushAll_snd_subset adm mark
        (neighborsOf width height idx) (bump s idx)
      have hF4 := pushAll_snd_prop adm mark (fun j => A j = true) HQ
        (neighborsOf width height idx) (bump s idx)
      have hF5 : ∀ n ∈ neighborsOf width height idx,
          A n = true → marked (pushAll adm mark (bump s idx)
            (neighborsOf width height idx)).1 n = true := by
        intro n hn hA
        have hproc := pushAll_processed adm mark marked HM HA HL
          (neighborsOf width height idx) (bump s idx) n hn
        by_cases hm : marked (pushAll adm mark (bump s idx)
            (neighborsOf width height idx)).1 n = true
        · exact hm
        · exfalso
          have : adm (pushAll adm mark (bump s idx)
              (neighborsOf width height idx)).1 n = true :=
            (HAdm _ n).mpr ⟨Bool.eq_false_iff.mpr hm, hA⟩
          rw [hproc] at this
          cases this
      refine ⟨?_, ?_, ?_, ?_⟩
      · intro j hj
        rcases List.mem_append.mp hj with hj' | hj'
        · exact (hF1 j).mpr (Or.inl (hp1 j (List.mem_cons_of_mem _ hj')))
        · exact (hF1 j).mpr (Or.inr hj')
      · intro j hj
        rcases (hF1 j).mp hj with hm | hpush
        · exact hp2 j hm
        · rcases hp2 idx (hp1 idx (List.mem_cons_self _ _)) with ⟨src, hsrc, hpath⟩
          exact ⟨src, hsrc, hpath.tail ⟨hF2 j hpush, hF4 j hpush⟩⟩
      · intro j hj hnot n hn hA
        by_cases hji : j = idx
        · subst hji
          exact hF5 n hn hA
        · have hmj : marked s j = true := by
            rcases (hF1 j).mp hj with hm | hpush
            · exact hm
            · exact absurd (List.mem_append.mpr (Or.inr hpush)) hnot
          have hjnot : j ∉ idx :: rest := by
            intro hc
            rcases List.mem_cons.mp hc with h | h
            · exact hji h
            · exact hnot (List.mem_append.mpr (Or.inl h))
          exact (hF1 n).mpr (Or.inl (hp3 j hmj hjnot n hn hA))
      · intro src hsrc
        exact (hF1 src).mpr (Or.inl (hp4 src hsrc))
    · refine ⟨?_, ?_, ?_, ?_⟩
      · intro j hj
        exact (hmarks0 j).mpr hj
      · intro j hj
        exact ⟨j, (hmarks0 j).mp hj, Relation.ReflTransGen.refl⟩
      · intro j hj hnot
        exact absurd ((hmarks0 j).mp hj) hnot
      · intro src hsrc
        exact (hmarks0 src).mpr hsrc
  intro j
  constructor
  · exact hfinal.2.1 j
  · rintro ⟨src, hsrc, hpath⟩
    induction hpath with
    | refl => exact hfinal.2.2.2 src hsrc
    | tail hab hedge ih =>
        exact hfinal.2.2.1 _ ih (by simp) _ hedge.1 hedge.2

/-- The admission test of `growBackgroundRegion.tryPush` (the
`shouldExpand` boolean of the source), embedded over squared distances:
`distBg ≤ expansionTolerance + min(28, grad*0.12)` becomes the exact
`leSqrtAdd` comparison, `distParent ≤ 74` becomes `distParentSq ≤ 5476`,
and `distBg ≤ tolerance*0.95` becomes `distBgSq ≤ toleranceSq*(361/400)`. -/
def shouldExpand (data : ℕ → ℕ) (model : BackgroundModel) (gradient : ℕ → ℚ)
    (nIdx pIdx : ℕ) : Bool :=
  let distBgSq := rgbDistanceSqAt data nIdx model.r model.g model.b
  let grad := gradient nIdx
  let distParentSq := rgbDistanceSqBetweenIndices data nIdx pIdx
  leSqrtAdd distBgSq model.expansionToleranceSq (min 28 (grad * (12/100))) &&
    decide (distParentSq ≤ 5476) &&
    (decide (grad ≤ 125) || decide (distBgSq ≤ model.toleranceSq * (361/400)))

/-- Marking a pixel visited (`visited[nIdx] = 1`). -/
def markVisited (v : ℕ → ℕ) (j : ℕ) : ℕ → ℕ :=
  fun i => if i = j then 1 else v i

/-- Processing one dequeued pixel of `growBackgroundRegion`: the four
guarded `tryPush` calls, each enqueueing an unvisited neighbour exactly
when `shouldExpand` holds, marking it visited on enqueue. -/
def growStep (data : ℕ → ℕ) (model : BackgroundModel) (gradient : ℕ → ℚ)
    (width height : ℕ) (v : ℕ → ℕ) (idx : ℕ) : (ℕ → ℕ) × List ℕ :=
  pushAll (fun v j => (v j == 0) && shouldExpand data model gradient j idx)
    markVisited v (neighborsOf width height idx)

/-- Embedding of `growBackgroundRegion(data, width, height, model,
gradient, seeds)`.  The seed loop enqueues each unvisited seed
(mark-on-enqueue); the while loop is the fuelled worklist with fuel
`width*height`, the capacity of the source's fixed queue; `none` models
queue overflow. -/
def growBackgroundRegion (data : ℕ → ℕ) (width height : ℕ)
    (model : BackgroundModel) (gradient : ℕ → ℚ) (seeds : List ℕ) :
    Option (ℕ → ℕ) :=
  let init := pushAll (fun v j => v j == 0) markVisited (fun _ => 0) seeds
  bfsLoop (fun s idx => growStep data model gradient width height s idx)
    (width * height) init.1 init.2

theorem markVisited_spec (v : ℕ → ℕ) (j i : ℕ) :
    ((markVisited v j i == 0) = false) ↔ ((v i == 0) = false ∨ i = j) := by
  unfold markVisited
  by_cases h : i = j
  · subst h
    simp
  · rw [if_neg h]
    simp [h]

theorem sqrt_le_sqrt_mul_iff {d t : ℚ} (ht : 0 ≤ t) :
    (Real.sqrt (d : ℝ) ≤ Real.sqrt (t : ℝ) * (19/20)) ↔ d ≤ t * (361/400) := by
  have ht' : (0 : ℝ) ≤ (t : ℝ) := by exact_mod_cast ht
  have h1 : Real.sqrt (t : ℝ) * (19/20) =
      Real.sqrt ((t : ℝ) * (361/400)) := by
    rw [show ((t : ℝ) * (361/400)) = (t : ℝ) * ((19/20) ^ 2) by norm_num,
      Real.sqrt_mul ht', Real.sqrt_sq (by norm_num)]
  rw [h1, Real.sqrt_le_sqrt_iff (by positivity),
    show ((t : ℝ) * (361/400)) = (((t * (361/400) : ℚ)) : ℝ) by push_cast; ring]
  exact Rat.cast_le

theorem shouldExpand_iff (data : ℕ → ℕ) (model : BackgroundModel)
    (gradient : ℕ → ℚ) (htol : 0 ≤ model.toleranceSq)
    (hexp : 0 ≤ model.expansionToleranceSq) (n p : ℕ) :
    shouldExpand data model gradient n p = true ↔
      (Real.sqrt ((rgbDistanceSqAt data n model.r model.g model.b : ℚ) : ℝ) ≤
        Real.sqrt ((model.expansionToleranceSq : ℚ) : ℝ) +
          ((min 28 (gradient n * (12/100)) : ℚ) : ℝ) ∧
      Real.sqrt ((rgbDistanceSqBetweenIndices data n p : ℚ) : ℝ) ≤ 74 ∧
      (gradient n ≤ 125 ∨
        Real.sqrt ((rgbDistanceSqAt data n model.r model.g model.b : ℚ) : ℝ) ≤
          Real.sqrt ((model.toleranceSq : ℚ) : ℝ) * (19/20))) := by
  unfold shouldExpand
  dsimp only
  rw [Bool.and_eq_true, Bool.and_eq_true, Bool.or_eq_true,
    decide_eq_true_eq, decide_eq_true_eq, decide_eq_true_eq]
  have h1 := leSqrtAdd_iff (c := min 28 (gradient n * (12/100)))
    (rgbDistanceSq_nonneg (data (n * 4)) (data (n * 4 + 1)) (data (n * 4 + 2))
      model.r model.g model.b) hexp
  have h2 : (rgbDistanceSqBetweenIndices data n p ≤ 5476) ↔
      Real.sqrt ((rgbDistanceSqBetweenIndices data n p : ℚ) : ℝ) ≤ 74 := by
    rw [show ((74 : ℝ)) = (((74 : ℚ) : ℝ)) by norm_num]
    exact (sqrt_le_rat_iff (d := rgbDistanceSqBetweenIndices data n p)
      (c := 74) (by norm_num)).symm
  have h3 : (rgbDistanceSqAt data n model.r model.g model.b ≤
      model.toleranceSq * (361/400)) ↔
      Real.sqrt ((rgbDistanceSqAt data n model.r model.g model.b : ℚ) : ℝ) ≤
        Real.sqrt ((model.toleranceSq : ℚ) : ℝ) * (19/20) :=
    (sqrt_le_sqrt_mul_iff htol).symm
  rw [and_assoc]
  exact and_congr (by exact h1) (and_congr h2 (or_congr Iff.rfl h3))

theorem growBackgroundRegion_isSome (data : ℕ → ℕ) (width height : ℕ)
    (model : BackgroundModel) (gradient : ℕ → ℚ) (seeds : List ℕ)
    (hseeds : ∀ s ∈ seeds, s < width * height) :
    (growBackgroundRegion data width height model gradient seeds).isSome := by
  unfold growBackgroundRegion
  dsimp only
  have HM : ∀ (v : ℕ → ℕ) (j i : ℕ),
      (!(markVisited v j i == 0)) = true ↔
        ((!(v i == 0)) = true ∨ i = j) := by
    intro v j i
    unfold markVisited
    by_cases h : i = j
    · subst h; simp
    · rw [if_neg h]; simp [h]
  have hsub := pushAll_snd_subset (fun v j => v j == 0) markVisited seeds
    (fun _ => 0)
  have hinitmark : ∀ i,
      (!((pushAll (fun v j => v j == 0) markVisited (fun _ => 0) seeds).1 i == 0))
        = true ↔
      i ∈ (pushAll (fun v j => v j == 0) markVisited (fun _ => 0) seeds).2 := by
    intro i
    rw [pushAll_marks (fun v j => v j == 0) markVisited
      (fun v i => !(v i == 0)) HM seeds (fun _ => 0) i]
    simp
  have hinitnodup := pushAll_snd_nodup (fun v j => v j == 0) markVisited
    (fun v i => !(v i == 0)) HM (fun v j h => by simpa using h) seeds (fun _ => 0)
  refine bfsLoop_isSome _ (fun v i => !(v i == 0)) (width * height) ?_ _ _ _ ?_ ?_
  · intro s idx hidx _
    refine ⟨?_, ?_, ?_⟩
    · exact pushAll_snd_nodup _ markVisited (fun v i => !(v i == 0)) HM
        (fun v j h => by
          simp only [Bool.and_eq_true] at h
          simpa using h.1) _ _
    · intro j hj
      constructor
      · exact neighborsOf_lt_total hidx j
          (pushAll_snd_subset _ markVisited _ _ j hj)
      · exact pushAll_snd_fresh _ markVisited (fun v i => !(v i == 0)) HM
          (fun v j h => by
            simp only [Bool.and_eq_true] at h
            simpa using h.1) _ _ j hj
    · intro j hj
      exact (pushAll_marks _ markVisited (fun v i => !(v i == 0)) HM _ _ j).mpr
        (by
          rcases hj with h | h
          · exact Or.inl h
          · exact Or.inr h)
  · intro j hj
    exact ⟨hseeds j (hsub j hj), (hinitmark j).mpr hj⟩
  · have hfeq : (Finset.range (width * height)).filter
        (fun j => (!((pushAll (fun v j => v j == 0) markVisited (fun _ => 0)
          seeds).1 j == 0)) = true) =
        (pushAll (fun v j => v j == 0) markVisited (fun _ => 0) seeds).2.toFinset := by
      ext j
      rw [Finset.mem_filter, List.mem_toFinset, Finset.mem_range, hinitmark j]
      constructor
      · rintro ⟨_, h⟩
        exact h
      · intro h
        exact ⟨hseeds j (hsub j h), h⟩
    rw [hfeq, List.toFinset_card_of_nodup hinitnodup]

/-- C2.  In `growBackgroundRegion`, an in-bounds, not-yet-visited
4-neighbour `n` of a dequeued background pixel `p` is admitted into the
background region if and only if all three conditions hold:
`colorDistance(n, model) ≤ model.expansionTolerance + min(28, gradient(n)*0.12)`,
`colorDistance(n, p) ≤ 74`, and
`gradient(n) ≤ 125 ∨ colorDistance(n, model) ≤ model.tolerance*0.95`
(distances are square roots of the embedded squared quantities); moreover
each pixel is marked visited on enqueue, so every pixel is enqueued at most
once and the fixed queue of capacity `width*height` never overflows: the
fuelled loop with fuel `width*height` always returns `some`. -/
theorem growBackgroundRegion_spec (data : ℕ → ℕ) (width height : ℕ)
    (model : BackgroundModel) (gradient : ℕ → ℚ) (seeds : List ℕ)
    (htol : 0 ≤ model.toleranceSq) (hexp : 0 ≤ model.expansionToleranceSq)
    (hseeds : ∀ s ∈ seeds, s < width * height) :
    (∀ (visited : ℕ → ℕ) (n p : ℕ),
      ((visited n == 0) && shouldExpand data model gradient n p) = true ↔
        (visited n = 0 ∧
          Real.sqrt ((rgbDistanceSqAt data n model.r model.g model.b : ℚ) : ℝ) ≤
            Real.sqrt ((model.expansionToleranceSq : ℚ) : ℝ) +
              ((min 28 (gradient n * (12/100)) : ℚ) : ℝ) ∧
          Real.sqrt ((rgbDistanceSqBetweenIndices data n p : ℚ) : ℝ) ≤ 74 ∧
          (gradient n ≤ 125 ∨
            Real.sqrt ((rgbDistanceSqAt data n model.r model.g model.b : ℚ) : ℝ) ≤
              Real.sqrt ((model.toleranceSq : ℚ) : ℝ) * (19/20)))) ∧
    (growBackgroundRegion data width height model gradient seeds).isSome := by
  constructor
  · intro visited n p
    rw [Bool.and_eq_true, beq_iff_eq,
      shouldExpand_iff data model gradient htol hexp n p]
  · exact growBackgroundRegion_isSome data width height model gradient seeds hseeds

theorem growBackgroundRegion_spec_witness :
    (0 : ℚ) ≤ 900 ∧ (0 : ℚ) ≤ 1764 ∧ (∀ s ∈ [0], s < 2 * 2) ∧
      (growBackgroundRegion (fun _ => 200) 2 2 ⟨200, 200, 200, 900, 1764⟩
        (fun _ => 0) [0]).isSome := by
  refine ⟨by norm_num, by norm_num, by decide, ?_⟩
  exact (growBackgroundRegion_spec (fun _ => 200) 2 2 ⟨200, 200, 200, 900, 1764⟩
    (fun _ => 0) [0] (by norm_num) (by norm_num) (by decide)).2

theorem bfs_pushAll_isSome {σ : Type}
    (marked : σ → ℕ → Bool) (mark : σ → ℕ → σ) (bump : σ → ℕ → σ)
    ( adm : σ → ℕ → Bool) (width height : ℕ)
    (HM : ∀ (s : σ) (j i : ℕ),
      marked (mark s j) i = true ↔ (marked s i = true ∨ i = j))
    (HB : ∀ (s : σ) (idx i : ℕ), marked (bump s idx) i = marked s i)
    (HA : ∀ (s : σ) (j : ℕ), adm s j = true → marked s j = false) :
    ∀ (s0 : σ) (pending0 : List ℕ),
      pending0.Nodup →
      (∀ j ∈ pending0, j < width * height) →
      (∀ j, marked s0 j = true ↔ j ∈ pending0) →
      (bfsLoop (fun s idx =>
          pushAll adm mark (bump s idx) (neighborsOf width height idx))
        (width * height) s0 pending0).isSome := by
  intro s0 pending0 hnd hlt hmk
  refine bfsLoop_isSome _ marked (width * height) ?_ _ _ _ ?_ ?_
  · intro s idx hidx _
    refine ⟨?_, ?_, ?_⟩
    · exact pushAll_snd_nodup adm mark marked HM HA _ _
    · intro j hj
      refine ⟨neighborsOf_lt_total hidx j
        (pushAll_snd_subset adm mark _ _ j hj), ?_⟩
      have := pushAll_snd_fresh adm mark marked HM HA _ (bump s idx) j hj
      rw [HB] at this
      exact this
    · intro j hj
      rw [pushAll_marks adm mark marked HM _ _ j, HB]
      rcases hj with h | h
      · exact Or.inl h
      · exact Or.inr h
  · intro j hj
    exact ⟨hlt j hj, (hmk j).mpr hj⟩
  · have hfeq : (Finset.range (width * height)).filter
        (fun j => marked s0 j = true) = pending0.toFinset := by
      ext j
      rw [Finset.mem_filter, List.mem_toFinset, Finset.mem_range, hmk j]
      constructor
      · rintro ⟨_, h⟩
        exact h
      · intro h
        exact ⟨hlt j h, h⟩
    rw [hfeq, List.toFinset_card_of_nodup hnd]

/-- Border enqueue order of `fillMaskHoles`: top and bottom rows, then
left and right columns, exactly as in the source. -/
def borderScan (width height : ℕ) : List ℕ :=
  (List.range width).flatMap (fun x => [x, (height - 1) * width + x]) ++
  (List.range height).flatMap (fun y => [y * width, y * width + (width - 1)])

theorem div_lt_of_lt_total {w h j : ℕ} (hj : j < w * h) :
    j / w < h := by
  by_contra h'
  push_neg at h'
  have hmul : w * h ≤ w * (j / w) := Nat.mul_le_mul_left _ h'
  have hdm := Nat.div_add_mod j w
  omega

theorem mem_borderScan {width height : ℕ} (hw : 1 ≤ width) (hh : 1 ≤ height)
    {j : ℕ} :
    j ∈ borderScan width height ↔
      j < width * height ∧
        (j % width = 0 ∨ j % width = width - 1 ∨
          j / width = 0 ∨ j / width = height - 1) := by
  have hcomm : width * height = height * width := Nat.mul_comm _ _
  constructor
  · intro hmem
    rcases List.mem_append.mp hmem with hm | hm
    · rcases List.mem_flatMap.mp hm with ⟨x, hxr, hin⟩
      rw [List.mem_range] at hxr
      rcases List.mem_cons.mp hin with hj | hin2
      · have hxlt : j < width := by omega
        refine ⟨?_, Or.inr (Or.inr (Or.inl (Nat.div_eq_of_lt hxlt)))⟩
        calc j < width := hxlt
          _ = width * 1 := (Nat.mul_one _).symm
          _ ≤ width * height := Nat.mul_le_mul_left _ hh
      · rw [List.mem_singleton] at hin2
        subst hin2
        have e1 : (height - 1) * width + width = height * width := by
          calc (height - 1) * width + width = (height - 1 + 1) * width := by ring
            _ = height * width := by rw [Nat.sub_add_cancel hh]
        refine ⟨by omega, Or.inr (Or.inr (Or.inr ?_))⟩
        rw [Nat.mul_comm (height - 1) width, Nat.mul_add_div (by omega),
          Nat.div_eq_of_lt hxr, Nat.add_zero]
    · rcases List.mem_flatMap.mp hm with ⟨y, hyr, hin⟩
      rw [List.mem_range] at hyr
      have e1 : y * width + width = (y + 1) * width := by ring
      have e2 : (y + 1) * width ≤ height * width :=
        Nat.mul_le_mul_right _ (by omega)
      rcases List.mem_cons.mp hin with hj | hin2
      · subst hj
        exact ⟨by omega, Or.inl (Nat.mul_mod_left y width)⟩
      · rw [List.mem_singleton] at hin2
        subst hin2
        refine ⟨by omega, Or.inr (Or.inl ?_)⟩
        rw [Nat.mul_comm y width, Nat.mul_add_mod, Nat.mod_eq_of_lt (by omega)]
  · rintro ⟨hlt, hb | hb | hb | hb⟩
    · refine List.mem_append.mpr (Or.inr (List.mem_flatMap.mpr
        ⟨j / width, List.mem_range.mpr (div_lt_of_lt_total hlt), ?_⟩))
      refine List.mem_cons.mpr (Or.inl ?_)
      have hdm := Nat.div_add_mod j width
      have hc : j / width * width = width * (j / width) := Nat.mul_comm _ _
      omega
    · refine List.mem_append.mpr (Or.inr (List.mem_flatMap.mpr
        ⟨j / width, List.mem_range.mpr (div_lt_of_lt_total hlt), ?_⟩))
      refine List.mem_cons.mpr (Or.inr (List.mem_singleton.mpr ?_))
      have hdm := Nat.div_add_mod j width
      have hc : j / width * width = width * (j / width) := Nat.mul_comm _ _
      omega
    · refine List.mem_append.mpr (Or.inl (List.mem_flatMap.mpr
        ⟨j, List.mem_range.mpr ?_, List.mem_cons.mpr (Or.inl rfl)⟩))
      have hdm := Nat.div_add_mod j width
      rw [hb, Nat.mul_zero] at hdm
      have hmod : j % width < width := Nat.mod_lt _ (by omega)
      omega
    · refine List.mem_append.mpr (Or.inl (List.mem_flatMap.mpr
        ⟨j % width, List.mem_range.mpr (Nat.mod_lt _ (by omega)),
          List.mem_cons.mpr (Or.inr (List.mem_singleton.mpr ?_))⟩))
      have hdm := Nat.div_add_mod j width
      have hc : (height - 1) * width = width * (height - 1) := Nat.mul_comm _ _
      rw [hb] at hdm
      omega

theorem markVisited_HM : ∀ (v : ℕ → ℕ) (j i : ℕ),
    (!(markVisited v j i == 0)) = true ↔ ((!(v i == 0)) = true ∨ i = j) := by
  intro v j i
  unfold markVisited
  by_cases h : i = j
  · subst h
    simp
  · rw [if_neg h]
    simp [h]

theorem rtg_closed {α : Type} (r : α → α → Prop) (S : α → Prop)
    (hclosed : ∀ a b, S a → r a b → S b) {a b : α}
    (h : Relation.ReflTransGen r a b) (ha : S a) : S b := by
  induction h with
  | refl => exact ha
  | tail _ hr ih => exact hclosed _ _ ih hr

/-- Embedding of `fillMaskHoles(mask, width, height)`: enqueue every border
pixel currently marked background, flood through background pixels
(mark-on-enqueue, fixed queue of capacity `width*height`), then flip every
unreached background pixel to foreground in a copy of the input mask. -/
def fillMaskHoles (mask : ℕ → ℕ) (width height : ℕ) : Option (ℕ → ℕ) :=
  let init := pushAll (fun v j => (v j == 0) && !(mask j == 1)) markVisited
    (fun _ => 0) (borderScan width height)
  (bfsLoop (fun s idx => pushAll (fun v j => (v j == 0) && !(mask j == 1))
      markVisited s (neighborsOf width height idx))
    (width * height) init.1 init.2).map
    (fun visited => fun i => if mask i = 0 ∧ visited i = 0 then 1 else mask i)

/-- A pixel is connected to the buffer border through background pixels:
there is a border pixel with mask value 0 and a 4-connected path of
mask-0 pixels from it to `i`. -/
def borderZeroReachable (mask : ℕ → ℕ) (width height : ℕ) (i : ℕ) : Prop :=
  ∃ src, src < width * height ∧
    (src % width = 0 ∨ src % width = width - 1 ∨
      src / width = 0 ∨ src / width = height - 1) ∧
    mask src = 0 ∧
    Relation.ReflTransGen
      (fun a b => b ∈ neighborsOf width height a ∧ mask b = 0) src i

theorem fillMaskHoles_characterization (mask : ℕ → ℕ) (width height : ℕ)
    (hw : 1 ≤ width) (hh : 1 ≤ height) (hbin : ∀ i, mask i = 0 ∨ mask i = 1) :
    ∃ f, fillMaskHoles mask width height = some f ∧
      ∀ i, i < width * height →
        ((f i = 1 ↔ (mask i = 1 ∨ ¬ borderZeroReachable mask width height i)) ∧
         (f i = 0 → borderZeroReachable mask width height i)) := by
  have HM := markVisited_HM
  have HA : ∀ (v : ℕ → ℕ) (j : ℕ),
      ((fun v j => (v j == 0) && !(mask j == 1)) v j) = true →
        ((fun (v : ℕ → ℕ) i => !(v i == 0)) v j) = false := by
    intro v j h
    simp only [Bool.and_eq_true] at h
    simpa using h.1
  have HL : ∀ (v : ℕ → ℕ) (k j : ℕ), j ≠ k →
      ((fun v j => (v j == 0) && !(mask j == 1)) (markVisited v k) j) =
        ((fun v j => (v j == 0) && !(mask j == 1)) v j) := by
    intro v k j hjk
    unfold markVisited
    dsimp only
    rw [if_neg hjk]
  have hinitmark : ∀ i,
      ((fun (v : ℕ → ℕ) i => !(v i == 0))
        (pushAll (fun v j => (v j == 0) && !(mask j == 1)) markVisited
          (fun _ => 0) (borderScan width height)).1 i) = true ↔
      i ∈ (pushAll (fun v j => (v j == 0) && !(mask j == 1)) markVisited
          (fun _ => 0) (borderScan width height)).2 := by
    intro i
    rw [pushAll_marks _ markVisited (fun v i => !(v i == 0)) HM _ _ i]
    simp
  have hinitnodup := pushAll_snd_nodup
    (fun v j => (v j == 0) && !(mask j == 1)) markVisited
    (fun v i => !(v i == 0)) HM HA (borderScan width height) (fun _ => 0)
  have hpendmem : ∀ j,
      j ∈ (pushAll (fun v j => (v j == 0) && !(mask j == 1)) markVisited
          (fun _ => 0) (borderScan width height)).2 ↔
        (j ∈ borderScan width height ∧ mask j ≠ 1) := by
    intro j
    rw [pushAll_mem_iff _ markVisited HL (borderScan width height) (fun _ => 0) j]
    simp
  have hS : (bfsLoop (fun s idx =>
      pushAll (fun v j => (v j == 0) && !(mask j == 1)) markVisited s
        (neighborsOf width height idx)) (width * height)
      (pushAll (fun v j => (v j == 0) && !(mask j == 1)) markVisited
        (fun _ => 0) (borderScan width height)).1
      (pushAll (fun v j => (v j == 0) && !(mask j == 1)) markVisited
        (fun _ => 0) (borderScan width height)).2).isSome := by
    exact bfs_pushAll_isSome (fun v i => !(v i == 0)) markVisited
      (fun s _ => s) (fun v j => (v j == 0) && !(mask j == 1)) width height
      HM (fun _ _ _ => rfl) HA _ _ hinitnodup
      (fun j hj => ((mem_borderScan hw hh).mp ((hpendmem j).mp hj).1).1)
      hinitmark
  rcases Option.isSome_iff_exists.mp hS with ⟨visited, hrunEq⟩
  refine ⟨fun i => if mask i = 0 ∧ visited i = 0 then 1 else mask i, ?_, ?_⟩
  · unfold fillMaskHoles
    dsimp only
    rw [hrunEq]
    rfl
  · have hreach := bfs_marks_iff_reach (fun (v : ℕ → ℕ) i => !(v i == 0))
      markVisited (fun s _ => s)
      (fun v j => (v j == 0) && !(mask j == 1)) (fun j => !(mask j == 1))
      width height HM (fun _ _ _ => rfl)
      (by
        intro s j
        simp only [Bool.and_eq_true]
        constructor
        · rintro ⟨h1, h2⟩
          exact ⟨by simpa using h1, h2⟩
        · rintro ⟨h1, h2⟩
          exact ⟨by simpa using h1, h2⟩)
      HL (width * height) _ _ visited hinitmark hrunEq
    have hrel : ∀ j, (∃ src ∈ (pushAll
        (fun v j => (v j == 0) && !(mask j == 1)) markVisited
        (fun _ => 0) (borderScan width height)).2,
        Relation.ReflTransGen (fun a b => b ∈ neighborsOf width height a ∧
          (!(mask b == 1)) = true) src j) ↔
        borderZeroReachable mask width height j := by
      intro j
      constructor
      · rintro ⟨src, hsrc, hpath⟩
        rcases (hpendmem src).mp hsrc with ⟨hbs, hm1⟩
        rcases (mem_borderScan hw hh).mp hbs with ⟨hlt, hbord⟩
        have hz : mask src = 0 := by
          rcases hbin src with h | h
          · exact h
          · exact absurd h hm1
        refine ⟨src, hlt, hbord, hz, ?_⟩
        refine Relation.ReflTransGen.mono ?_ hpath
        rintro a b ⟨hnb, hb⟩
        refine ⟨hnb, ?_⟩
        rcases hbin b with h | h
        · exact h
        · exfalso
          rw [h] at hb
          simp at hb
      · rintro ⟨src, hlt, hbord, hz, hpath⟩
        refine ⟨src, (hpendmem src).mpr
          ⟨(mem_borderScan hw hh).mpr ⟨hlt, hbord⟩, by rw [hz]; norm_num⟩, ?_⟩
        refine Relation.ReflTransGen.mono ?_ hpath
        rintro a b ⟨hnb, hb⟩
        refine ⟨hnb, ?_⟩
        rw [hb]
        norm_num
    intro i _
    have hvis : (!(visited i == 0)) = true ↔
        borderZeroReachable mask width height i := by
      rw [hreach i, hrel i]
    dsimp only
    constructor
    · rcases hbin i with h0 | h1
      · by_cases hv : visited i = 0
        · rw [if_pos ⟨h0, hv⟩]
          simp only [h0]
          constructor
          · intro _
            right
            intro hr
            have := hvis.mpr hr
            rw [hv] at this
            simp at this
          · intro _
            trivial
        · rw [if_neg (by
            intro hc
            exact hv hc.2)]
          rw [h0]
          constructor
          · intro h
            cases h
          · intro h
            rcases h with h | h
            · exact h
            · exfalso
              exact h (hvis.mp (by simpa using hv))
      · rw [if_neg (by
          intro hc
          rw [h1] at hc
          cases hc.1), h1]
        constructor
        · intro _
          exact Or.inl rfl
        · intro _
          rfl
    · rcases hbin i with h0 | h1
      · by_cases hv : visited i = 0
        · rw [if_pos ⟨h0, hv⟩]
          intro h
          cases h
        · rw [if_neg (by
            intro hc
            exact hv hc.2)]
          intro _
          exact hvis.mp (by simpa using hv)
      · rw [if_neg (by
          intro hc
          rw [h1] at hc
          cases hc.1), h1]
        intro h
        cases h

/-- Membership in the solid disk of radius 3 around the centre of a 9×9
grid (squared Euclidean distance at most 9). -/
def inDisk (i : ℕ) : Bool :=
  decide (((i % 9 : ℤ) - 4) ^ 2 + ((i / 9 : ℤ) - 4) ^ 2 ≤ 9)

/-- Membership in the 3×3 hole punched at the centre of the 9×9 grid. -/
def inHole (i : ℕ) : Bool :=
  decide (3 ≤ i % 9 ∧ i % 9 ≤ 5 ∧ 3 ≤ i / 9 ∧ i / 9 ≤ 5)

/-- A solid foreground disk with a 3×3 background hole at its centre. -/
def diskMask (i : ℕ) : ℕ :=
  if inDisk i ∧ ¬ inHole i then 1 else 0

theorem diskMask_binary : ∀ i, diskMask i = 0 ∨ diskMask i = 1 := by
  intro i
  unfold diskMask
  split
  · exact Or.inr rfl
  · exact Or.inl rfl

theorem disk_border_not_hole : ∀ s, s < 81 →
    (s % 9 = 0 ∨ s % 9 = 9 - 1 ∨ s / 9 = 0 ∨ s / 9 = 9 - 1) →
    inHole s = false := by
  decide

theorem disk_step_not_hole : ∀ a, a < 81 → inHole a = false → diskMask a = 0 →
    ∀ b ∈ neighborsOf 9 9 a, diskMask b = 0 → inHole b = false := by
  decide

theorem diskMask_hole_not_reachable :
    ∀ i, inHole i = true → ¬ borderZeroReachable diskMask 9 9 i := by
  intro i hhole
  rintro ⟨src, hlt, hbord, hz, hpath⟩
  have hlt81 : src < 81 := by
    norm_num at hlt
    exact hlt
  have hsrcS : src < 81 ∧ inHole src = false ∧ diskMask src = 0 :=
    ⟨hlt81, disk_border_not_hole src hlt81 hbord, hz⟩
  have hSi := rtg_closed
    (fun a b => b ∈ neighborsOf 9 9 a ∧ diskMask b = 0)
    (fun a => a < 81 ∧ inHole a = false ∧ diskMask a = 0)
    (by
      rintro a b ⟨ha, hah, ham⟩ ⟨hnb, hbm⟩
      refine ⟨neighborsOf_lt_total (by norm_num; exact ha) b hnb, ?_, hbm⟩
      exact disk_step_not_hole a ha hah ham b hnb hbm)
    hpath hsrcS
  have : inHole i = false := hSi.2.1
  rw [hhole] at this
  cases this

/-- C5: for every binary mask, `fillMaskHoles` succeeds and returns a mask in
which a pixel is 1 iff it was 1 in the input or it is a background pixel not
connected to the border by a 4-connected path of background pixels; every
output-0 pixel is border-reachable through input-background pixels; and the
solid disk with a 3×3 central hole comes out with no background pixel inside
the disk. -/
theorem fillMaskHoles_spec :
    (∀ (mask : ℕ → ℕ) (width height : ℕ), 1 ≤ width → 1 ≤ height →
      (∀ i, mask i = 0 ∨ mask i = 1) →
      ∃ f, fillMaskHoles mask width height = some f ∧
        ∀ i, i < width * height →
          ((f i = 1 ↔ (mask i = 1 ∨ ¬ borderZeroReachable mask width height i)) ∧
           (f i = 0 → borderZeroReachable mask width height i))) ∧
    (∃ f, fillMaskHoles diskMask 9 9 = some f ∧
      ∀ i, i < 81 → inDisk i = true → f i = 1) := by
  constructor
  · exact fillMaskHoles_characterization
  · obtain ⟨f, hf, hchar⟩ := fillMaskHoles_characterization diskMask 9 9
      (by norm_num) (by norm_num) diskMask_binary
    refine ⟨f, hf, ?_⟩
    intro i hi hdisk
    have hi' : i < 9 * 9 := by
      norm_num
      exact hi
    by_cases hhole : inHole i = true
    · exact (hchar i hi').1.mpr (Or.inr (diskMask_hole_not_reachable i hhole))
    · refine (hchar i hi').1.mpr (Or.inl ?_)
      unfold diskMask
      rw [if_pos ⟨hdisk, hhole⟩]

theorem fillMaskHoles_spec_witness :
    ∃ f, fillMaskHoles (fun _ => 1) 1 1 = some f ∧ f 0 = 1 := by
  obtain ⟨f, hf, hchar⟩ := fillMaskHoles_spec.1 (fun _ => 1) 1 1
    (by norm_num) (by norm_num) (fun _ => Or.inr rfl)
  exact ⟨f, hf, (hchar 0 (by norm_num)).1.mpr (Or.inl rfl)⟩

theorem coords_mod_div {width a b : ℕ} (hw : 0 < width) (ha : a < width) :
    (width * b + a) % width = a ∧ (width * b + a) / width = b := by
  constructor
  · rw [Nat.mul_add_mod, Nat.mod_eq_of_lt ha]
  · rw [Nat.mul_add_div hw, Nat.div_eq_of_lt ha, Nat.add_zero]

theorem neighborsOf_symm {width height idx : ℕ}
    (hidx : idx < width * height) :
    ∀ j ∈ neighborsOf width height idx, idx ∈ neighborsOf width height j := by
  intro j hj
  have hw : 0 < width := by
    rcases Nat.eq_zero_or_pos width with h | h
    · subst h; simp at hidx
    · exact h
  obtain ⟨x, y, hx, hxy⟩ : ∃ x y, x < width ∧ width * y + x = idx :=
    ⟨idx % width, idx / width, Nat.mod_lt _ hw, Nat.div_add_mod idx width⟩
  have hmod : idx % width = x := by
    rw [← hxy, (coords_mod_div hw hx).1]
  have hdiv : idx / width = y := by
    rw [← hxy, (coords_mod_div hw hx).2]
  have hy : y < height := by
    by_contra h'
    push_neg at h'
    have hbig : width * height ≤ width * y := Nat.mul_le_mul_left _ h'
    omega
  unfold neighborsOf at hj
  rw [hmod, hdiv] at hj
  simp only [List.mem_append] at hj
  rcases hj with ((h | h) | h) | h
  · rcases List.mem_ite_nil_right.mp h with ⟨hxpos, hm⟩
    rw [List.mem_singleton] at hm
    subst hm
    obtain ⟨a, rfl⟩ : ∃ a, x = a + 1 := ⟨x - 1, by omega⟩
    have hj1 : idx - 1 = width * y + a := by omega
    have hcd := coords_mod_div hw (show a < width by omega) (b := y)
    unfold neighborsOf
    rw [hj1, hcd.1, hcd.2]
    simp only [List.mem_append, List.mem_ite_nil_right, List.mem_singleton]
    left; left; right
    exact ⟨by omega, by omega⟩
  · rcases List.mem_ite_nil_right.mp h with ⟨hxlt, hm⟩
    rw [List.mem_singleton] at hm
    subst hm
    have hj1 : idx + 1 = width * y + (x + 1) := by omega
    have hcd := coords_mod_div hw (show x + 1 < width by omega) (b := y)
    unfold neighborsOf
    rw [hj1, hcd.1, hcd.2]
    simp only [List.mem_append, List.mem_ite_nil_right, List.mem_singleton]
    left; left; left
    exact ⟨by omega, by omega⟩
  · rcases List.mem_ite_nil_right.mp h with ⟨hypos, hm⟩
    rw [List.mem_singleton] at hm
    subst hm
    obtain ⟨b, rfl⟩ : ∃ b, y = b + 1 := ⟨y - 1, by omega⟩
    have hj1 : idx - width = width * b + x := by
      have : width * (b + 1) = width * b + width := by ring
      omega
    have hcd := coords_mod_div hw hx (b := b)
    have e1 : width * (b + 1) = width * b + width := by ring
    have e2 : (width * b + x) % width = x := hcd.1
    have e3 : (width * b + x) / width = b := hcd.2
    unfold neighborsOf
    rw [hj1, hcd.1, hcd.2]
    simp only [List.mem_append, List.mem_ite_nil_right, List.mem_singleton]
    right
    exact ⟨by omega, by omega⟩
  · rcases List.mem_ite_nil_right.mp h with ⟨hylt, hm⟩
    rw [List.mem_singleton] at hm
    subst hm
    have hj1 : idx + width = width * (y + 1) + x := by
      have : width * (y + 1) = width * y + width := by ring
      omega
    have hcd := coords_mod_div hw hx (b := y + 1)
    have e1 : width * (y + 1) = width * y + width := by ring
    have e2 : (width * (y + 1) + x) % width = x := hcd.1
    have e3 : (width * (y + 1) + x) / width = y + 1 := hcd.2
    unfold neighborsOf
    rw [hj1, hcd.1, hcd.2]
    simp only [List.mem_append, List.mem_ite_nil_right, List.mem_singleton]
    left; right
    exact ⟨by omega, by omega⟩

theorem pushAll_state_inv {σ : Type} ( adm : σ → ℕ → Bool)
    (mark : σ → ℕ → σ) (P : σ → Prop)
    (hmk : ∀ (s : σ) (j : ℕ), P s → adm s j = true → P (mark s j)) :
    ∀ (js : List ℕ) (s : σ), P s → P (pushAll adm mark s js).1 := by
  intro js
  induction js with
  | nil => intro s hs; rw [pushAll]; exact hs
  | cons k js ih =>
      intro s hs
      rw [pushAll]
      by_cases hadm : adm s k = true
      · rw [if_pos hadm]
        exact ih _ (hmk s k hs hadm)
      · rw [if_neg hadm]
        exact ih _ hs

/-- Generalization of `bfs_marks_iff_reach` to a search started while some
cells are already marked (the labels left by earlier component searches):
the final marks are the initial marks plus everything connected to the
initial queue by admissible steps through initially-unmarked cells. -/
theorem bfs_marks_iff_reach_from {σ : Type}
    (marked : σ → ℕ → Bool) (mark : σ → ℕ → σ) (bump : σ → ℕ → σ)
    ( adm : σ → ℕ → Bool) (A : ℕ → Bool) (M0 : ℕ → Bool) (width height : ℕ)
    (HM : ∀ (s : σ) (j i : ℕ),
      marked (mark s j) i = true ↔ (marked s i = true ∨ i = j))
    (HB : ∀ (s : σ) (idx i : ℕ), marked (bump s idx) i = marked s i)
    (HAdm : ∀ (s : σ) (j : ℕ),
      adm s j = true ↔ (marked s j = false ∧ A j = true))
    (HL : ∀ (s : σ) (k j : ℕ), j ≠ k → adm (mark s k) j = adm s j) :
    ∀ (fuel : ℕ) (s0 : σ) (pending0 : List ℕ) (s' : σ),
      (∀ j, marked s0 j = true ↔ (M0 j = true ∨ j ∈ pending0)) →
      bfsLoop (fun s idx =>
          pushAll adm mark (bump s idx) (neighborsOf width height idx))
        fuel s0 pending0 = some s' →
      ∀ j, marked s' j = true ↔
        (M0 j = true ∨ ∃ src ∈ pending0, Relation.ReflTransGen
          (fun a b => b ∈ neighborsOf width height a ∧ A b = true ∧
            M0 b = false) src j) := by
  intro fuel s0 pending0 s' hmarks0 hrun
  have HA : ∀ (s : σ) (j : ℕ), adm s j = true → marked s j = false :=
    fun s j h => ((HAdm s j).mp h).1
  have HQ : ∀ (s : σ) (j : ℕ), adm s j = true → A j = true :=
    fun s j h => ((HAdm s j).mp h).2
  have hfinal : ((∀ j ∈ ([] : List ℕ), marked s' j = true) ∧
      (∀ j, marked s' j = true → (M0 j = true ∨
        ∃ src ∈ pending0, Relation.ReflTransGen
          (fun a b => b ∈ neighborsOf width height a ∧ A b = true ∧
            M0 b = false) src j)) ∧
      (∀ j, marked s' j = true → j ∉ ([] : List ℕ) →
        (j ∈ pending0 ∨ M0 j = false) →
        ∀ n ∈ neighborsOf width height j, A n = true → marked s' n = true) ∧
      (∀ src ∈ pending0, marked s' src = true) ∧
      (∀ j, M0 j = true → marked s' j = true) ∧
      (∀ j ∈ ([] : List ℕ),
        ∃ src ∈ pending0, Relation.ReflTransGen
          (fun a b => b ∈ neighborsOf width height a ∧ A b = true ∧
            M0 b = false) src j)) := by
    refine bfsLoop_invariant _
      (fun s pending =>
        (∀ j ∈ pending, marked s j = true) ∧
        (∀ j, marked s j = true → (M0 j = true ∨
          ∃ src ∈ pending0, Relation.ReflTransGen
            (fun a b => b ∈ neighborsOf width height a ∧ A b = true ∧
              M0 b = false) src j)) ∧
        (∀ j, marked s j = true → j ∉ pending →
          (j ∈ pending0 ∨ M0 j = false) →
          ∀ n ∈ neighborsOf width height j, A n = true → marked s n = true) ∧
        (∀ src ∈ pending0, marked s src = true) ∧
        (∀ j, M0 j = true → marked s j = true) ∧
        (∀ j ∈ pending,
          ∃ src ∈ pending0, Relation.ReflTransGen
            (fun a b => b ∈ neighborsOf width height a ∧ A b = true ∧
              M0 b = false) src j))
      ?_ fuel s0 pending0 s' ?_ hrun
    · rintro s idx rest ⟨hp1, hp2, hp3, hp4, hp5, hp6⟩
      have hF1 : ∀ i, marked (pushAll adm mark (bump s idx)
          (neighborsOf width height idx)).1 i = true ↔
          (marked s i = true ∨ i ∈ (pushAll adm mark (bump s idx)
            (neighborsOf width height idx)).2) := by
        intro i
        rw [pushAll_marks adm mark marked HM _ _ i, HB]
      have hF2 := pushAll_snd_subset adm mark
        (neighborsOf width height idx) (bump s idx)
      have hF4 := pushAll_snd_prop adm mark (fun j => A j = true) HQ
        (neighborsOf width height idx) (bump s idx)
      have hF6 : ∀ j ∈ (pushAll adm mark (bump s idx)
          (neighborsOf width height idx)).2, M0 j = false := by
        intro j hj
        have hfresh := pushAll_snd_fresh adm mark marked HM HA
          (neighborsOf width height idx) (bump s idx) j hj
        rw [HB] at hfresh
        by_cases hM : M0 j = true
        · rw [hp5 j hM] at hfresh
          cases hfresh
        · exact Bool.eq_false_iff.mpr hM
      have hF7 : ∀ j ∈ (pushAll adm mark (bump s idx)
          (neighborsOf width height idx)).2,
          ∃ src ∈ pending0, Relation.ReflTransGen
            (fun a b => b ∈ neighborsOf width height a ∧ A b = true ∧
              M0 b = false) src j := by
        intro j hj
        rcases hp6 idx (List.mem_cons_self _ _) with ⟨src, hsrc, hpath⟩
        exact ⟨src, hsrc, hpath.tail ⟨hF2 j hj, hF4 j hj, hF6 j hj⟩⟩
      have hF5 : ∀ n ∈ neighborsOf width height idx,
          A n = true → marked (pushAll adm mark (bump s idx)
            (neighborsOf width height idx)).1 n = true := by
        intro n hn hA
        have hproc := pushAll_processed adm mark marked HM HA HL
          (neighborsOf width height idx) (bump s idx) n hn
        by_cases hm : marked (pushAll adm mark (bump s idx)
            (neighborsOf width height idx)).1 n = true
        · exact hm
        · exfalso
          have : adm (pushAll adm mark (bump s idx)
              (neighborsOf width height idx)).1 n = true :=
            (HAdm _ n).mpr ⟨Bool.eq_false_iff.mpr hm, hA⟩
          rw [hproc] at this
          cases this
      refine ⟨?_, ?_, ?_, ?_, ?_, ?_⟩
      · intro j hj
        rcases List.mem_append.mp hj with hj' | hj'
        · exact (hF1 j).mpr (Or.inl (hp1 j (List.mem_cons_of_mem _ hj')))
        · exact (hF1 j).mpr (Or.inr hj')
      · intro j hj
        rcases (hF1 j).mp hj with hm | hpush
        · exact hp2 j hm
        · exact Or.inr (hF7 j hpush)
      · intro j hj hnot hside n hn hA
        by_cases hji : j = idx
        · subst hji
          exact hF5 n hn hA
        · have hmj : marked s j = true := by
            rcases (hF1 j).mp hj with hm | hpush
            · exact hm
            · exact absurd (List.mem_append.mpr (Or.inr hpush)) hnot
          have hjnot : j ∉ idx :: rest := by
            intro hc
            rcases List.mem_cons.mp hc with h | h
            · exact hji h
            · exact hnot (List.mem_append.mpr (Or.inl h))
          exact (hF1 n).mpr (Or.inl (hp3 j hmj hjnot hside n hn hA))
      · intro src hsrc
        exact (hF1 src).mpr (Or.inl (hp4 src hsrc))
      · intro j hj
        exact (hF1 j).mpr (Or.inl (hp5 j hj))
      · intro j hj
        rcases List.mem_append.mp hj with hj' | hj'
        · exact hp6 j (List.mem_cons_of_mem _ hj')
        · exact hF7 j hj'
    · refine ⟨?_, ?_, ?_, ?_, ?_, ?_⟩
      · intro j hj
        exact (hmarks0 j).mpr (Or.inr hj)
      · intro j hj
        rcases (hmarks0 j).mp hj with hM | hp
        · exact Or.inl hM
        · exact Or.inr ⟨j, hp, Relation.ReflTransGen.refl⟩
      · intro j hj hnot hside
        rcases (hmarks0 j).mp hj with hM | hp
        · rcases hside with h | h
          · exact absurd h hnot
          · rw [hM] at h
            cases h
        · exact absurd hp hnot
      · intro src hsrc
        exact (hmarks0 src).mpr (Or.inr hsrc)
      · intro j hj
        exact (hmarks0 j).mpr (Or.inl hj)
      · intro j hj
        exact ⟨j, hj, Relation.ReflTransGen.refl⟩
  intro j
  constructor
  · exact hfinal.2.1 j
  · rintro (hM | ⟨src, hsrc, hpath⟩)
    · exact hfinal.2.2.2.2.1 j hM
    · induction hpath with
      | refl => exact hfinal.2.2.2.1 src hsrc
      | tail hab hedge ih =>
          refine hfinal.2.2.1 _ ih (by simp) ?_ _ hedge.1 hedge.2.1
          rcases Relation.ReflTransGen.cases_tail hab with h | ⟨c, _, hc⟩
          · subst h
            exact Or.inl hsrc
          · exact Or.inr hc.2.2

theorem pushAll_get_unchanged {σ α : Type} ( adm : σ → ℕ → Bool)
    (mark : σ → ℕ → σ) (g : σ → ℕ → α)
    (Hg1 : ∀ (s : σ) (k i : ℕ), i ≠ k → g (mark s k) i = g s i) :
    ∀ (js : List ℕ) (s : σ) (j : ℕ),
      j ∉ (pushAll adm mark s js).2 →
      g (pushAll adm mark s js).1 j = g s j := by
  intro js
  induction js with
  | nil => intro s j _; rw [pushAll]
  | cons k js ih =>
      intro s j hj
      rw [pushAll] at hj ⊢
      by_cases hadm : adm s k = true
      · rw [if_pos hadm] at hj ⊢
        dsimp only at hj ⊢
        have hjk : j ≠ k := by
          intro hc
          exact hj (by rw [hc]; exact List.mem_cons_self _ _)
        have hj2 : j ∉ (pushAll adm mark (mark s k) js).2 := by
          intro hc
          exact hj (List.mem_cons_of_mem _ hc)
        rw [ih (mark s k) j hj2, Hg1 s k j hjk]
      · rw [if_neg hadm] at hj ⊢
        exact ih s j hj

theorem pushAll_get_set {σ α : Type} ( adm : σ → ℕ → Bool)
    (mark : σ → ℕ → σ) (marked : σ → ℕ → Bool)
    (HM : ∀ (s : σ) (j i : ℕ),
      marked (mark s j) i = true ↔ (marked s i = true ∨ i = j))
    (HA : ∀ (s : σ) (j : ℕ), adm s j = true → marked s j = false)
    (g : σ → ℕ → α) (v : α)
    (Hg1 : ∀ (s : σ) (k i : ℕ), i ≠ k → g (mark s k) i = g s i)
    (Hg2 : ∀ (s : σ) (k : ℕ), g (mark s k) k = v) :
    ∀ (js : List ℕ) (s : σ), ∀ j ∈ (pushAll adm mark s js).2,
      g (pushAll adm mark s js).1 j = v := by
  intro js
  induction js with
  | nil => intro s j hj; cases hj
  | cons k js ih =>
      intro s j hj
      rw [pushAll] at hj ⊢
      by_cases hadm : adm s k = true
      · rw [if_pos hadm] at hj ⊢
        dsimp only at hj ⊢
        rcases List.mem_cons.mp hj with rfl | hj'
        · have hmk : marked (mark s j) j = true := (HM s j j).mpr (Or.inr rfl)
          have hnot : j ∉ (pushAll adm mark (mark s j) js).2 := by
            intro hc
            have := pushAll_snd_fresh adm mark marked HM HA js
              (mark s j) j hc
            rw [hmk] at this
            cases this
          rw [pushAll_get_unchanged adm mark g Hg1 js (mark s j) j hnot,
            Hg2]
        · exact ih (mark s k) j hj'
      · rw [if_neg hadm] at hj ⊢
        exact ih s j hj

/-- The center box of `keepMainForegroundRegions`:
`floor(width*0.25) ≤ x ≤ ceil(width*0.75)` and likewise for `y`. -/
def inCenter (width height idx : ℕ) : Bool :=
  decide (width / 4 ≤ idx % width ∧ idx % width ≤ (3 * width + 3) / 4 ∧
    height / 4 ≤ idx / width ∧ idx / width ≤ (3 * height + 3) / 4)

/-- State of one component-labelling breadth-first search of
`keepMainForegroundRegions`: the (shared) label array plus the running
`area` and `touchesCenter` accumulators of the current component. -/
structure CompState where
  labels : ℕ → ℕ
  area : ℕ
  touches : Bool

/-- The `tryLabel` test: foreground and not yet labelled. -/
def ccAdmit (mask : ℕ → ℕ) (s : CompState) (j : ℕ) : Bool :=
  decide (mask j ≠ 0) && (s.labels j == 0)

/-- `labels[nIdx] = componentId` at enqueue time. -/
def ccMark (id : ℕ) (s : CompState) (j : ℕ) : CompState :=
  { s with labels := fun i => if i = j then id else s.labels i }

/-- Bookkeeping on dequeue: `area++` and the center-box test. -/
def ccBump (width height : ℕ) (s : CompState) (idx : ℕ) : CompState :=
  { s with area := s.area + 1,
           touches := s.touches || inCenter width height idx }

/-- One component search of `keepMainForegroundRegions`, started at an
unlabelled foreground cell `start`, labelling with `id`. -/
def runComponent (mask : ℕ → ℕ) (width height id start : ℕ)
    (labels0 : ℕ → ℕ) : Option CompState :=
  bfsLoop (fun s idx =>
      pushAll (ccAdmit mask) (ccMark id) (ccBump width height s idx)
        (neighborsOf width height idx))
    (width * height)
    { labels := fun i => if i = start then id else labels0 i,
      area := 0, touches := false }
    [start]

/-- Result of the labelling pass: the label array and, per component id
(1-based, in creation order), its area and center flag. -/
structure CCOut where
  labels : ℕ → ℕ
  comps : List (ℕ × Bool)

/-- The outer scan `for (i = 0; i < total; i++)` of
`keepMainForegroundRegions`: spawn a new component search at every
foreground cell not yet labelled. -/
def labelLoop (mask : ℕ → ℕ) (width height : ℕ) :
    ℕ → ℕ → CCOut → Option CCOut
  | _, 0, acc => some acc
  | i, rem + 1, acc =>
      if mask i ≠ 0 ∧ acc.labels i = 0 then
        match runComponent mask width height (acc.comps.length + 1) i
            acc.labels with
        | none => none
        | some s =>
            labelLoop mask width height (i + 1) rem
              { labels := s.labels,
                comps := acc.comps ++ [(s.area, s.touches)] }
      else labelLoop mask width height (i + 1) rem acc

def labelComponents (mask : ℕ → ℕ) (width height : ℕ) : Option CCOut :=
  labelLoop mask width height 0 (width * height)
    { labels := fun _ => 0, comps := [] }

/-- `componentAreas[id] + (componentTouchesCenter[id] ? total * 0.2 : 0)`. -/
def compScore (total : ℕ) (c : ℕ × Bool) : ℚ :=
  (c.1 : ℚ) + (if c.2 then (total : ℚ) * (2/10) else 0)

/-- The best-component scan: strict improvement replaces the running best,
so the first component attaining the maximal score wins. -/
def bestFold (total : ℕ) : List (ℕ × Bool) → ℕ → ℕ × ℚ → ℕ × ℚ
  | [], _, best => best
  | c :: cs, id, best =>
      if best.2 < compScore total c then
        bestFold total cs (id + 1) (id, compScore total c)
      else bestFold total cs (id + 1) best

/-- Embedding of `keepMainForegroundRegions(mask, width, height)`. -/
def keepMainForegroundRegions (mask : ℕ → ℕ) (width height : ℕ) :
    Option (ℕ → ℕ) :=
  (labelComponents mask width height).map (fun cc =>
    if cc.comps.length ≤ 1 then mask
    else
      let total := width * height
      let minArea : ℤ := max 120 (jsRound ((total : ℚ) * (18/10000)))
      let bestId := (bestFold total cc.comps 1 (1, -1)).1
      let bestArea := (cc.comps.getD (bestId - 1) (0, false)).1
      let keep : ℕ → Bool := fun id =>
        id == bestId ||
          ((cc.comps.getD (id - 1) (0, false)).2 &&
            decide (max minArea (jsRound ((bestArea : ℚ) * (12/100))) ≤
              ((cc.comps.getD (id - 1) (0, false)).1 : ℤ)))
      fun i => if (decide (cc.labels i ≠ 0) && keep (cc.labels i)) = true
        then 1 else 0)

/-- "Already labelled" — the visited test of the component searches. -/
def ccMarked (s : CompState) (j : ℕ) : Bool := !(s.labels j == 0)

theorem runComponent_spec (mask labels0 : ℕ → ℕ) (width height id start : ℕ)
    (hstart : start < width * height) (hmask : mask start ≠ 0)
    (hl0 : labels0 start = 0) (hid : id ≠ 0)
    (hfresh : ∀ j, labels0 j ≠ id) :
    ∃ s, runComponent mask width height id start labels0 = some s ∧
      (∀ j, Relation.ReflTransGen (fun a b =>
          b ∈ neighborsOf width height a ∧ mask b ≠ 0 ∧ labels0 b = 0)
          start j → s.labels j = id) ∧
      (∀ j, ¬ Relation.ReflTransGen (fun a b =>
          b ∈ neighborsOf width height a ∧ mask b ≠ 0 ∧ labels0 b = 0)
          start j → s.labels j = labels0 j) ∧
      s.area = ((Finset.range (width * height)).filter
        (fun j => s.labels j = id)).card ∧
      (s.touches = true ↔ ∃ j, s.labels j = id ∧
        inCenter width height j = true) ∧
      (∀ j, s.labels j = id → j < width * height) := by
  have HM : ∀ (s : CompState) (j i : ℕ),
      ccMarked (ccMark id s j) i = true ↔ (ccMarked s i = true ∨ i = j) := by
    intro s j i
    unfold ccMarked ccMark
    dsimp only
    by_cases h : i = j
    · subst h
      rw [if_pos rfl]
      simp [hid]
    · rw [if_neg h]
      simp [h]
  have HB : ∀ (s : CompState) (idx i : ℕ),
      ccMarked (ccBump width height s idx) i = ccMarked s i :=
    fun _ _ _ => rfl
  have HAdm : ∀ (s : CompState) (j : ℕ), ccAdmit mask s j = true ↔
      (ccMarked s j = false ∧ (decide (mask j ≠ 0)) = true) := by
    intro s j
    unfold ccAdmit ccMarked
    cases hb : (s.labels j == 0) <;> cases hd : decide (mask j ≠ 0) <;> simp
  have HA : ∀ (s : CompState) (j : ℕ), ccAdmit mask s j = true →
      ccMarked s j = false := fun s j h => ((HAdm s j).mp h).1
  have HL : ∀ (s : CompState) (k j : ℕ), j ≠ k →
      ccAdmit mask (ccMark id s k) j = ccAdmit mask s j := by
    intro s k j hjk
    unfold ccAdmit ccMark
    dsimp only
    rw [if_neg hjk]
  set s0 : CompState :=
    { labels := fun i => if i = start then id else labels0 i,
      area := 0, touches := false } with hs0
  have hs0start : s0.labels start = id := if_pos rfl
  have hs0lab : ∀ j, j ≠ start → s0.labels j = labels0 j :=
    fun j h => if_neg h
  have hs0id : ∀ j, s0.labels j = id ↔ j = start := by
    intro j
    by_cases h : j = start
    · subst h
      exact ⟨fun _ => rfl, fun _ => hs0start⟩
    · rw [hs0lab j h]
      exact ⟨fun hc => absurd hc (hfresh j), fun hc => absurd hc h⟩
  have hmarks0 : ∀ j, ccMarked s0 j = true ↔
      ((!(labels0 j == 0)) = true ∨ j ∈ [start]) := by
    intro j
    by_cases h : j = start
    · subst h
      rw [show ccMarked s0 j = !(s0.labels j == 0) from rfl, hs0start]
      simp [hid]
    · rw [show ccMarked s0 j = !(s0.labels j == 0) from rfl, hs0lab j h]
      simp [h]
  have hS : (bfsLoop (fun s idx =>
      pushAll (ccAdmit mask) (ccMark id) (ccBump width height s idx)
        (neighborsOf width height idx)) (width * height) s0
      [start]).isSome := by
    refine bfsLoop_isSome _ ccMarked (width * height) ?_ (width * height)
      s0 [start] ?_ ?_
    · intro u idx hidx _
      dsimp only
      refine ⟨pushAll_snd_nodup (ccAdmit mask) (ccMark id) ccMarked HM HA
        _ _, ?_, ?_⟩
      · intro j hj
        refine ⟨neighborsOf_lt_total hidx j
          (pushAll_snd_subset _ _ _ _ j hj), ?_⟩
        have h1 := pushAll_snd_fresh (ccAdmit mask) (ccMark id) ccMarked
          HM HA (neighborsOf width height idx)
          (ccBump width height u idx) j hj
        rw [HB] at h1
        exact h1
      · intro j hj
        refine (pushAll_marks (ccAdmit mask) (ccMark id) ccMarked HM
          (neighborsOf width height idx) (ccBump width height u idx)
          j).mpr ?_
        rcases hj with h | h
        · exact Or.inl ((HB u idx j).symm ▸ h)
        · exact Or.inr h
    · intro j hj
      rw [List.mem_singleton] at hj
      subst hj
      exact ⟨hstart, (hmarks0 j).mpr (Or.inr (List.mem_singleton.mpr rfl))⟩
    · have hmem : start ∈ (Finset.range (width * height)).filter
          (fun j => ccMarked s0 j = true) :=
        Finset.mem_filter.mpr ⟨Finset.mem_range.mpr hstart,
          (hmarks0 start).mpr (Or.inr (List.mem_singleton.mpr rfl))⟩
      have hone : 0 < ((Finset.range (width * height)).filter
          (fun j => ccMarked s0 j = true)).card :=
        Finset.card_pos.mpr ⟨start, hmem⟩
      simp only [List.length_cons, List.length_nil]
      omega
  rcases Option.isSome_iff_exists.mp hS with ⟨s, hrun⟩
  have hinv : ([] : List ℕ).Nodup ∧
      (∀ j ∈ ([] : List ℕ), j < width * height ∧ s.labels j = id) ∧
      s.area + ([] : List ℕ).length = ((Finset.range (width * height)).filter
        (fun j => s.labels j = id)).card ∧
      (s.touches = true ↔ ∃ j, s.labels j = id ∧ j ∉ ([] : List ℕ) ∧
        inCenter width height j = true) ∧
      (∀ j, s.labels j = id → j < width * height) ∧
      (∀ j, s.labels j = labels0 j ∨
        (s.labels j = id ∧ labels0 j = 0)) := by
    refine bfsLoop_invariant _
      (fun t pending =>
        pending.Nodup ∧
        (∀ j ∈ pending, j < width * height ∧ t.labels j = id) ∧
        t.area + pending.length = ((Finset.range (width * height)).filter
          (fun j => t.labels j = id)).card ∧
        (t.touches = true ↔ ∃ j, t.labels j = id ∧ j ∉ pending ∧
          inCenter width height j = true) ∧
        (∀ j, t.labels j = id → j < width * height) ∧
        (∀ j, t.labels j = labels0 j ∨
          (t.labels j = id ∧ labels0 j = 0)))
      ?_ (width * height) s0 [start] s ?_ hrun
    · rintro t idx rest ⟨hnd, hpend, hcount, htouch, hlt, hval⟩
      dsimp only
      have hidxlt : idx < width * height :=
        (hpend idx (List.mem_cons_self _ _)).1
      have hidxid : t.labels idx = id :=
        (hpend idx (List.mem_cons_self _ _)).2
      set res := pushAll (ccAdmit mask) (ccMark id)
        (ccBump width height t idx) (neighborsOf width height idx)
        with hres
      have f_fresh0 : ∀ j ∈ res.2, t.labels j = 0 := by
        intro j hj
        have h1 := pushAll_snd_fresh (ccAdmit mask) (ccMark id) ccMarked
          HM HA (neighborsOf width height idx)
          (ccBump width height t idx) j hj
        rw [HB] at h1
        unfold ccMarked at h1
        simpa using h1
      have f_sub : ∀ j ∈ res.2, j ∈ neighborsOf width height idx :=
        fun j hj => pushAll_snd_subset _ _ _ _ j hj
      have f_lt : ∀ j ∈ res.2, j < width * height :=
        fun j hj => neighborsOf_lt_total hidxlt j (f_sub j hj)
      have f_nodup : res.2.Nodup :=
        pushAll_snd_nodup (ccAdmit mask) (ccMark id) ccMarked HM HA _ _
      have f_set : ∀ j ∈ res.2, res.1.labels j = id := by
        intro j hj
        exact pushAll_get_set (ccAdmit mask) (ccMark id) ccMarked HM HA
          (fun u k => u.labels k) id
          (by
            intro u k i hik
            unfold ccMark
            dsimp only
            rw [if_neg hik])
          (by
            intro u k
            unfold ccMark
            dsimp only
            rw [if_pos rfl])
          (neighborsOf width height idx) (ccBump width height t idx) j hj
      have f_unch : ∀ j, j ∉ res.2 → res.1.labels j = t.labels j := by
        intro j hj
        exact pushAll_get_unchanged (ccAdmit mask) (ccMark id)
          (fun u k => u.labels k)
          (by
            intro u k i hik
            unfold ccMark
            dsimp only
            rw [if_neg hik])
          (neighborsOf width height idx) (ccBump width height t idx) j hj
      have f_area : res.1.area = t.area + 1 := by
        exact pushAll_state_inv (ccAdmit mask) (ccMark id)
          (fun u => u.area = t.area + 1)
          (by
            intro u k hu _
            exact hu)
          (neighborsOf width height idx) (ccBump width height t idx) rfl
      have f_touch : res.1.touches =
          (t.touches || inCenter width height idx) := by
        exact pushAll_state_inv (ccAdmit mask) (ccMark id)
          (fun u => u.touches = (t.touches || inCenter width height idx))
          (by
            intro u k hu _
            exact hu)
          (neighborsOf width height idx) (ccBump width height t idx) rfl
      have f_notpush : ∀ j, t.labels j = id → j ∉ res.2 := by
        intro j hjid hj
        rw [f_fresh0 j hj] at hjid
        exact hid hjid.symm
      have f_newlab : ∀ j, res.1.labels j = id ↔
          (t.labels j = id ∨ j ∈ res.2) := by
        intro j
        constructor
        · intro h
          by_cases hj : j ∈ res.2
          · exact Or.inr hj
          · rw [f_unch j hj] at h
            exact Or.inl h
        · rintro (h | h)
          · rw [f_unch j (f_notpush j h)]
            exact h
          · exact f_set j h
      refine ⟨?_, ?_, ?_, ?_, ?_, ?_⟩
      · refine List.Nodup.append ((List.nodup_cons.mp hnd).2) f_nodup ?_
        intro a ha hb
        exact f_notpush a (hpend a (List.mem_cons_of_mem _ ha)).2 hb
      · intro j hj
        rcases List.mem_append.mp hj with hj' | hj'
        · have h1 := hpend j (List.mem_cons_of_mem _ hj')
          exact ⟨h1.1, (f_newlab j).mpr (Or.inl h1.2)⟩
        · exact ⟨f_lt j hj', f_set j hj'⟩
      · have hset : (Finset.range (width * height)).filter
            (fun j => res.1.labels j = id) =
            ((Finset.range (width * height)).filter
              (fun j => t.labels j = id)) ∪ res.2.toFinset := by
          ext j
          simp only [Finset.mem_filter, Finset.mem_union, Finset.mem_range,
            List.mem_toFinset]
          constructor
          · rintro ⟨hjr, hjid⟩
            rcases (f_newlab j).mp hjid with h | h
            · exact Or.inl ⟨hjr, h⟩
            · exact Or.inr h
          · rintro (⟨hjr, hjid⟩ | h)
            · exact ⟨hjr, (f_newlab j).mpr (Or.inl hjid)⟩
            · exact ⟨f_lt j h, (f_newlab j).mpr (Or.inr h)⟩
        have hdisj : Disjoint
            ((Finset.range (width * height)).filter
              (fun j => t.labels j = id))
            res.2.toFinset := by
          rw [Finset.disjoint_left]
          intro j hj hj'
          exact f_notpush j (Finset.mem_filter.mp hj).2
            (List.mem_toFinset.mp hj')
        rw [hset, Finset.card_union_of_disjoint hdisj,
          List.toFinset_card_of_nodup f_nodup, f_area]
        simp only [List.length_append, List.length_cons] at hcount ⊢
        omega
      · rw [f_touch]
        simp only [Bool.or_eq_true]
        constructor
        · rintro (ht | hc)
          · rcases htouch.mp ht with ⟨j, hjid, hjnot, hjcen⟩
            refine ⟨j, (f_newlab j).mpr (Or.inl hjid), ?_, hjcen⟩
            intro hc2
            rcases List.mem_append.mp hc2 with h | h
            · exact hjnot (List.mem_cons_of_mem _ h)
            · exact f_notpush j hjid h
          · refine ⟨idx, (f_newlab idx).mpr (Or.inl hidxid), ?_, hc⟩
            intro hc2
            rcases List.mem_append.mp hc2 with h | h
            · exact (List.nodup_cons.mp hnd).1 h
            · exact f_notpush idx hidxid h
        · rintro ⟨j, hjid, hjnot, hjcen⟩
          have hjp : j ∉ res.2 := by
            intro hc
            exact hjnot (List.mem_append.mpr (Or.inr hc))
          rw [f_unch j hjp] at hjid
          by_cases hji : j = idx
          · subst hji
            exact Or.inr hjcen
          · refine Or.inl (htouch.mpr ⟨j, hjid, ?_, hjcen⟩)
            intro hc
            rcases List.mem_cons.mp hc with h | h
            · exact hji h
            · exact hjnot (List.mem_append.mpr (Or.inl h))
      · intro j hjid
        rcases (f_newlab j).mp hjid with h | h
        · exact hlt j h
        · exact f_lt j h
      · intro j
        by_cases hj : j ∈ res.2
        · refine Or.inr ⟨f_set j hj, ?_⟩
          have h0 := f_fresh0 j hj
          rcases hval j with h | h
          · rw [h0] at h
            exact h.symm
          · rw [h0] at h
            exact absurd h.1.symm hid
        · rw [f_unch j hj]
          exact hval j
    · refine ⟨List.nodup_singleton _, ?_, ?_, ?_, ?_, ?_⟩
      · intro j hj
        rw [List.mem_singleton] at hj
        subst hj
        exact ⟨hstart, hs0start⟩
      · have hset : (Finset.range (width * height)).filter
            (fun j => s0.labels j = id) = {start} := by
          ext j
          rw [Finset.mem_filter, Finset.mem_range, Finset.mem_singleton]
          constructor
          · rintro ⟨_, hjid⟩
            exact (hs0id j).mp hjid
          · intro h
            subst h
            exact ⟨hstart, hs0start⟩
        rw [hset]
        rw [show s0.area = 0 from rfl]
        rw [Finset.card_singleton]
        rfl
      · constructor
        · intro h
          have h2 : (false : Bool) = true := h
          cases h2
        · rintro ⟨j, hjid, hjnot, _⟩
          exact absurd (List.mem_singleton.mpr ((hs0id j).mp hjid)) hjnot
      · intro j hjid
        rw [(hs0id j).mp hjid]
        exact hstart
      · intro j
        by_cases h : j = start
        · subst h
          exact Or.inr ⟨hs0start, hl0⟩
        · exact Or.inl (hs0lab j h)
  have hmarksF := bfs_marks_iff_reach_from ccMarked (ccMark id)
    (ccBump width height) (ccAdmit mask) (fun b => decide (mask b ≠ 0))
    (fun j => !(labels0 j == 0)) width height HM HB HAdm HL
    (width * height) s0 [start] s hmarks0 hrun
  have hreach_iff : ∀ j,
      (∃ src ∈ [start], Relation.ReflTransGen
        (fun a b => b ∈ neighborsOf width height a ∧
          ((fun b => decide (mask b ≠ 0)) b) = true ∧
          ((fun j => !(labels0 j == 0)) b) = false) src j) ↔
      Relation.ReflTransGen (fun a b =>
        b ∈ neighborsOf width height a ∧ mask b ≠ 0 ∧ labels0 b = 0)
        start j := by
    intro j
    constructor
    · rintro ⟨src, hsrc, hpath⟩
      rw [List.mem_singleton] at hsrc
      subst hsrc
      refine Relation.ReflTransGen.mono ?_ hpath
      rintro a b ⟨h1, h2, h3⟩
      refine ⟨h1, by simpa using h2, by simpa using h3⟩
    · intro hpath
      refine ⟨start, List.mem_singleton.mpr rfl, ?_⟩
      refine Relation.ReflTransGen.mono ?_ hpath
      rintro a b ⟨h1, h2, h3⟩
      refine ⟨h1, by simpa using h2, by simpa using h3⟩
  have hreach_l0 : ∀ j, Relation.ReflTransGen (fun a b =>
      b ∈ neighborsOf width height a ∧ mask b ≠ 0 ∧ labels0 b = 0)
      start j → labels0 j = 0 := by
    intro j hpath
    rcases Relation.ReflTransGen.cases_tail hpath with h | ⟨c, _, hc⟩
    · subst h
      exact hl0
    · exact hc.2.2
  refine ⟨s, hrun, ?_, ?_, ?_, ?_, hinv.2.2.2.2.1⟩
  · intro j hpath
    have hm : ccMarked s j = true :=
      (hmarksF j).mpr (Or.inr ((hreach_iff j).mpr hpath))
    unfold ccMarked at hm
    rcases hinv.2.2.2.2.2 j with h | h
    · exfalso
      rw [h, hreach_l0 j hpath] at hm
      simp at hm
    · exact h.1
  · intro j hpath
    rcases hinv.2.2.2.2.2 j with h | h
    · exact h
    · exfalso
      have hm : ccMarked s j = true := by
        unfold ccMarked
        rw [h.1]
        simp [hid]
      rcases (hmarksF j).mp hm with hM | hR
      · have hM2 : (!(labels0 j == 0)) = true := hM
        rw [h.2] at hM2
        simp at hM2
      · exact hpath ((hreach_iff j).mp hR)
  · have := hinv.2.2.1
    simpa using this
  · rw [hinv.2.2.2.1]
    constructor
    · rintro ⟨j, h1, _, h3⟩
      exact ⟨j, h1, h3⟩
    · rintro ⟨j, h1, h3⟩
      exact ⟨j, h1, by simp, h3⟩

/-- One 4-connected step into a foreground cell. -/
def maskStep (mask : ℕ → ℕ) (width height : ℕ) (a b : ℕ) : Prop :=
  b ∈ neighborsOf width height a ∧ mask b ≠ 0

/-- 4-connectivity through foreground cells. -/
def maskConn (mask : ℕ → ℕ) (width height a b : ℕ) : Prop :=
  Relation.ReflTransGen (maskStep mask width height) a b

/-- Invariant of the outer scan of `keepMainForegroundRegions` after the
cells `0 .. k-1` have been processed.  `spn` maps each component id to its
spawn cell, which is also the least cell of the component. -/
structure CCInv (mask : ℕ → ℕ) (width height : ℕ) (acc : CCOut)
    (spn : ℕ → ℕ) (k : ℕ) : Prop where
  i1 : ∀ j, acc.labels j ≠ 0 → j < width * height ∧ mask j ≠ 0
  i2 : ∀ j, j < k → mask j ≠ 0 → acc.labels j ≠ 0
  i3 : ∀ j, acc.labels j ≤ acc.comps.length
  i4 : ∀ a b, acc.labels a ≠ 0 → b ∈ neighborsOf width height a →
        mask b ≠ 0 → acc.labels b = acc.labels a
  i5 : ∀ a b, acc.labels a ≠ 0 → acc.labels b = acc.labels a →
        maskConn mask width height a b
  i6 : ∀ id, 1 ≤ id → id ≤ acc.comps.length →
        (acc.comps.getD (id - 1) (0, false)).1 =
          ((Finset.range (width * height)).filter
            (fun j => acc.labels j = id)).card ∧
        ((acc.comps.getD (id - 1) (0, false)).2 = true ↔
          ∃ j, acc.labels j = id ∧ inCenter width height j = true)
  i7 : ∀ id, 1 ≤ id → id ≤ acc.comps.length →
        acc.labels (spn id) = id ∧ spn id < k ∧
        ∀ j, acc.labels j = id → spn id ≤ j
  i8 : ∀ id1 id2, 1 ≤ id1 → id1 < id2 → id2 ≤ acc.comps.length →
        spn id1 < spn id2

theorem labels_const_of_conn (mask : ℕ → ℕ) (width height : ℕ) (L : ℕ → ℕ)
    (h4 : ∀ a b, L a ≠ 0 → b ∈ neighborsOf width height a → mask b ≠ 0 →
      L b = L a) :
    ∀ a b, L a ≠ 0 → maskConn mask width height a b → L b = L a := by
  intro a b ha hconn
  induction hconn with
  | refl => rfl
  | @tail c d hac hcd ih =>
      have hc : L c ≠ 0 := by
        rw [ih]
        exact ha
      rw [h4 c d hc hcd.1 hcd.2, ih]

theorem reach_node_lt (mask L : ℕ → ℕ) (width height i : ℕ)
    (hi : i < width * height) :
    ∀ a, Relation.ReflTransGen (fun a b =>
        b ∈ neighborsOf width height a ∧ mask b ≠ 0 ∧ L b = 0) i a →
      a < width * height := by
  intro a hpath
  exact rtg_closed _ (fun x => x < width * height)
    (fun x y hx hxy => neighborsOf_lt_total hx y hxy.1) hpath hi

theorem reach_node_mask (mask L : ℕ → ℕ) (width height i : ℕ)
    (hmi : mask i ≠ 0) :
    ∀ a, Relation.ReflTransGen (fun a b =>
        b ∈ neighborsOf width height a ∧ mask b ≠ 0 ∧ L b = 0) i a →
      mask a ≠ 0 := by
  intro a hpath
  rcases Relation.ReflTransGen.cases_tail hpath with h | ⟨c, _, hc⟩
  · subst h
    exact hmi
  · exact hc.2.1

theorem reach_reverse (mask L : ℕ → ℕ) (width height i : ℕ)
    (hi : i < width * height) (hmi : mask i ≠ 0) :
    ∀ a, Relation.ReflTransGen (fun a b =>
        b ∈ neighborsOf width height a ∧ mask b ≠ 0 ∧ L b = 0) i a →
      maskConn mask width height a i := by
  intro a hpath
  induction hpath with
  | refl => exact Relation.ReflTransGen.refl
  | @tail c d hac hcd ih =>
      have hclt : c < width * height :=
        reach_node_lt mask L width height i hi c hac
      have hcm : mask c ≠ 0 :=
        reach_node_mask mask L width height i hmi c hac
      have hdlt : d < width * height :=
        neighborsOf_lt_total hclt d hcd.1
      refine Relation.ReflTransGen.head ?_ ih
      exact ⟨neighborsOf_symm hclt d hcd.1, hcm⟩

theorem reach_iff_conn (mask L : ℕ → ℕ) (width height i : ℕ)
    (hmi : mask i ≠ 0) (hli : L i = 0)
    (h4 : ∀ a b, L a ≠ 0 → b ∈ neighborsOf width height a → mask b ≠ 0 →
      L b = L a) :
    ∀ j, Relation.ReflTransGen (fun a b =>
        b ∈ neighborsOf width height a ∧ mask b ≠ 0 ∧ L b = 0) i j ↔
      (maskConn mask width height i j ∧ L j = 0) := by
  have hfwd : ∀ j, maskConn mask width height i j → L j = 0 →
      Relation.ReflTransGen (fun a b =>
        b ∈ neighborsOf width height a ∧ mask b ≠ 0 ∧ L b = 0) i j := by
    intro j hconn
    induction hconn with
    | refl =>
        intro _
        exact Relation.ReflTransGen.refl
    | @tail c d hic hcd ih =>
        intro hLd
        have hLc : L c = 0 := by
          by_contra hne
          rw [h4 c d hne hcd.1 hcd.2] at hLd
          exact hne hLd
        exact (ih hLc).tail ⟨hcd.1, hcd.2, hLd⟩
  intro j
  constructor
  · intro h
    refine ⟨Relation.ReflTransGen.mono ?_ h, ?_⟩
    · rintro a b ⟨h1, h2, _⟩
      exact ⟨h1, h2⟩
    · rcases Relation.ReflTransGen.cases_tail h with h' | ⟨c, _, hc⟩
      · subst h'
        exact hli
      · exact hc.2.2
  · rintro ⟨hconn, hLj⟩
    exact hfwd j hconn hLj

theorem labelLoop_inv (mask : ℕ → ℕ) (width height : ℕ) :
    ∀ (rem i : ℕ) (acc : CCOut) (spn : ℕ → ℕ),
      i + rem = width * height →
      CCInv mask width height acc spn i →
      ∃ cc spn2, labelLoop mask width height i rem acc = some cc ∧
        CCInv mask width height cc spn2 (width * height) := by
  intro rem
  induction rem with
  | zero =>
      intro i acc spn h0 hInv
      rw [labelLoop]
      refine ⟨acc, spn, rfl, ?_⟩
      have hieq : i = width * height := by omega
      rwa [hieq] at hInv
  | succ rem ih =>
      intro i acc spn h0 hInv
      rw [labelLoop]
      by_cases hcond : mask i ≠ 0 ∧ acc.labels i = 0
      · rw [if_pos hcond]
        obtain ⟨s, hsrun, C1, C2, C3, C4, C5⟩ :=
          runComponent_spec mask acc.labels width height
            (acc.comps.length + 1) i (by omega) hcond.1 hcond.2 (by omega)
            (fun j => by have := hInv.i3 j; omega)
        rw [hsrun]
        have hReach_iff := reach_iff_conn mask acc.labels width height i
          hcond.1 hcond.2 hInv.i4
        have hN1 : ∀ j, s.labels j = acc.comps.length + 1 ↔
            Relation.ReflTransGen (fun a b =>
              b ∈ neighborsOf width height a ∧ mask b ≠ 0 ∧
              acc.labels b = 0) i j := by
          intro j
          constructor
          · intro h
            by_contra hr
            rw [C2 j hr] at h
            have := hInv.i3 j
            omega
          · exact C1 j
        have hN3 : ∀ j, acc.labels j ≠ 0 →
            s.labels j = acc.labels j := by
          intro j hj
          refine C2 j ?_
          intro hr
          exact hj ((hReach_iff j).mp hr).2
        have hN2 : ∀ j, s.labels j ≠ 0 ↔
            (acc.labels j ≠ 0 ∨ Relation.ReflTransGen (fun a b =>
              b ∈ neighborsOf width height a ∧ mask b ≠ 0 ∧
              acc.labels b = 0) i j) := by
          intro j
          by_cases hr : Relation.ReflTransGen (fun a b =>
              b ∈ neighborsOf width height a ∧ mask b ≠ 0 ∧
              acc.labels b = 0) i j
          · rw [C1 j hr]
            simp [hr]
          · rw [C2 j hr]
            simp [hr]
        have hN5 : ∀ j, s.labels j = acc.comps.length + 1 ∨
            s.labels j = acc.labels j := by
          intro j
          by_cases hr : Relation.ReflTransGen (fun a b =>
              b ∈ neighborsOf width height a ∧ mask b ≠ 0 ∧
              acc.labels b = 0) i j
          · exact Or.inl (C1 j hr)
          · exact Or.inr (C2 j hr)
        have hN4 : ∀ j, s.labels j = acc.comps.length + 1 →
            acc.labels j = 0 ∧ mask j ≠ 0 ∧
            maskConn mask width height i j := by
          intro j hj
          have hr := (hN1 j).mp hj
          have hc := (hReach_iff j).mp hr
          exact ⟨hc.2, reach_node_mask mask acc.labels width height i
            hcond.1 j hr, hc.1⟩
        have hlen' : (acc.comps ++ [(s.area, s.touches)]).length =
            acc.comps.length + 1 := by
          simp
        have hptwise : ∀ d, 1 ≤ d → d ≤ acc.comps.length →
            ∀ j, s.labels j = d ↔ acc.labels j = d := by
          intro d h1 h2 j
          constructor
          · intro h
            rcases hN5 j with h' | h'
            · rw [h] at h'
              omega
            · rw [← h', h]
          · intro h
            rw [hN3 j (by omega), h]
        refine (fun hnew => ?_) (?_ : CCInv mask width height
          { labels := s.labels,
            comps := acc.comps ++ [(s.area, s.touches)] }
          (fun d => if d = acc.comps.length + 1 then i else spn d) (i + 1))
        · obtain ⟨cc, spn2, hrun2, hInv2⟩ :=
            ih (i + 1)
              { labels := s.labels,
                comps := acc.comps ++ [(s.area, s.touches)] }
              (fun d => if d = acc.comps.length + 1 then i else spn d)
              (by omega) hnew
          exact ⟨cc, spn2, hrun2, hInv2⟩
        · refine ⟨?_, ?_, ?_, ?_, ?_, ?_, ?_, ?_⟩
          · intro j hj
            rcases (hN2 j).mp hj with h | h
            · exact hInv.i1 j h
            · exact ⟨C5 j (C1 j h), reach_node_mask mask acc.labels
                width height i hcond.1 j h⟩
          · intro j hjk hjm
            show s.labels j ≠ 0
            by_cases hji : j = i
            · subst hji
              rw [C1 j Relation.ReflTransGen.refl]
              omega
            · have hji' : j < i := by omega
              have := hInv.i2 j hji' hjm
              rw [hN3 j this]
              exact this
          · intro j
            show s.labels j ≤ (acc.comps ++ [(s.area, s.touches)]).length
            rw [hlen']
            rcases hN5 j with h | h
            · omega
            · have := hInv.i3 j
              omega
          · intro a b ha hnb hmb
            show s.labels b = s.labels a
            rcases hN5 a with hva | hva
            · have h4a := hN4 a hva
              have halt : a < width * height := C5 a hva
              by_cases hlb : acc.labels b ≠ 0
              · exfalso
                have hsym := neighborsOf_symm halt b hnb
                have := hInv.i4 b a hlb hsym h4a.2.1
                rw [h4a.1] at this
                exact hlb this.symm
              · push_neg at hlb
                have hrb : Relation.ReflTransGen (fun a b =>
                    b ∈ neighborsOf width height a ∧ mask b ≠ 0 ∧
                    acc.labels b = 0) i b :=
                  ((hN1 a).mp hva).tail ⟨hnb, hmb, hlb⟩
                rw [C1 b hrb, hva]
            · have hla : acc.labels a ≠ 0 := by
                rw [← hva]
                exact ha
              have := hInv.i4 a b hla hnb hmb
              rw [hN3 b (by rw [this]; exact hla), this, hva]
          · intro a b ha hba
            have ha2 : s.labels a ≠ 0 := ha
            have hba2 : s.labels b = s.labels a := hba
            rcases hN5 a with hva | hva
            · have hvb : s.labels b = acc.comps.length + 1 := by
                rw [hba2, hva]
              have hpa := (hN1 a).mp hva
              have hpb := (hN1 b).mp hvb
              have hrev := reach_reverse mask acc.labels width height i
                (by omega) hcond.1 a hpa
              have hfwdb : maskConn mask width height i b :=
                ((hReach_iff b).mp hpb).1
              exact Relation.ReflTransGen.trans hrev hfwdb
            · have hla : acc.labels a ≠ 0 := by
                rw [← hva]
                exact ha2
              have hvb : s.labels b = acc.labels b := by
                rcases hN5 b with h | h
                · exfalso
                  rw [hba2, hva] at h
                  have := hInv.i3 a
                  omega
                · exact h
              rw [hvb, hva] at hba2
              exact hInv.i5 a b hla hba2
          · intro d h1 hd2
            rw [hlen'] at hd2
            by_cases hdn : d = acc.comps.length + 1
            · subst hdn
              have hgd : (acc.comps ++ [(s.area, s.touches)]).getD
                  (acc.comps.length + 1 - 1) (0, false) =
                  (s.area, s.touches) := by
                have he : acc.comps.length + 1 - 1 = acc.comps.length := by
                  omega
                rw [he, List.getD_append_right _ _ _ _ (le_refl _)]
                simp
              rw [hgd]
              exact ⟨C3, C4⟩
            · have hd2' : d ≤ acc.comps.length := by omega
              have hgd : (acc.comps ++ [(s.area, s.touches)]).getD
                  (d - 1) (0, false) =
                  acc.comps.getD (d - 1) (0, false) :=
                List.getD_append _ _ _ _ (by omega)
              rw [hgd]
              have hold := hInv.i6 d h1 hd2'
              constructor
              · rw [hold.1]
                congr 1
                apply Finset.filter_congr
                intro j _
                rw [show (s.labels j = d) = (acc.labels j = d) from
                  propext (hptwise d h1 hd2' j)]
              · rw [hold.2]
                constructor
                · rintro ⟨j, hj1, hj2⟩
                  exact ⟨j, (hptwise d h1 hd2' j).mpr hj1, hj2⟩
                · rintro ⟨j, hj1, hj2⟩
                  exact ⟨j, (hptwise d h1 hd2' j).mp hj1, hj2⟩
          · intro d h1 hd2
            rw [hlen'] at hd2
            by_cases hdn : d = acc.comps.length + 1
            · subst hdn
              rw [if_pos rfl]
              refine ⟨C1 i Relation.ReflTransGen.refl, by omega, ?_⟩
              intro j hj
              have h4j := hN4 j hj
              by_contra hlt
              push_neg at hlt
              exact (hInv.i2 j (by omega) h4j.2.1) h4j.1
            · have hd2' : d ≤ acc.comps.length := by omega
              rw [if_neg hdn]
              have hold := hInv.i7 d h1 hd2'
              refine ⟨?_, by omega, ?_⟩
              · show s.labels (spn d) = d
                rw [hN3 (spn d) (by rw [hold.1]; omega), hold.1]
              · intro j hj
                exact hold.2.2 j ((hptwise d h1 hd2' j).mp hj)
          · intro d1 d2 h1 h12 hd2
            rw [hlen'] at hd2
            by_cases h2n : d2 = acc.comps.length + 1
            · subst h2n
              rw [if_pos rfl, if_neg (by omega)]
              exact (hInv.i7 d1 h1 (by omega)).2.1
            · rw [if_neg (by omega), if_neg h2n]
              exact hInv.i8 d1 d2 h1 h12 (by omega)
      · rw [if_neg hcond]
        refine ih (i + 1) acc spn (by omega) ?_
        push_neg at hcond
        refine ⟨hInv.i1, ?_, hInv.i3, hInv.i4, hInv.i5, hInv.i6, ?_,
          hInv.i8⟩
        · intro j hjk hjm
          by_cases hji : j = i
          · subst hji
            exact hcond hjm
          · exact hInv.i2 j (by omega) hjm
        · intro d h1 hd2
          have hold := hInv.i7 d h1 hd2
          exact ⟨hold.1, by omega, hold.2.2⟩

theorem labelComponents_spec (mask : ℕ → ℕ) (width height : ℕ) :
    ∃ cc spn, labelComponents mask width height = some cc ∧
      CCInv mask width height cc spn (width * height) := by
  obtain ⟨cc, spn2, hrun, hInv⟩ := labelLoop_inv mask width height
    (width * height) 0 { labels := fun _ => 0, comps := [] } (fun _ => 0)
    (by omega)
    ⟨fun j h => absurd rfl h,
     fun j h _ => absurd h (Nat.not_lt_zero j),
     fun j => Nat.le_refl 0,
     fun a b h _ _ => absurd rfl h,
     fun a b h _ => absurd rfl h,
     fun d h1 h2 => absurd (le_trans h1 h2) (by simp),
     fun d h1 h2 => absurd (le_trans h1 h2) (by simp),
     fun d1 d2 h1 h12 h2 => absurd (le_trans (by omega : 1 ≤ d2) h2) (by simp)⟩
  exact ⟨cc, spn2, hrun, hInv⟩

theorem compScore_nonneg (total : ℕ) (c : ℕ × Bool) :
    0 ≤ compScore total c := by
  unfold compScore
  have h1 : (0 : ℚ) ≤ (c.1 : ℚ) := by positivity
  have h2 : (0 : ℚ) ≤ (if c.2 then (total : ℚ) * (2/10) else 0) := by
    split
    · positivity
    · exact le_refl 0
  linarith

theorem bestFold_spec (total : ℕ) :
    ∀ (cs : List (ℕ × Bool)) (id0 b0 : ℕ) (s0 : ℚ),
      s0 ≤ (bestFold total cs id0 (b0, s0)).2 ∧
      (∀ p, (hp : p < cs.length) →
        compScore total (cs.get ⟨p, hp⟩) ≤ (bestFold total cs id0 (b0, s0)).2) ∧
      (bestFold total cs id0 (b0, s0) = (b0, s0) ∨
        ∃ p, ∃ hp : p < cs.length,
          (bestFold total cs id0 (b0, s0)).1 = id0 + p ∧
          (bestFold total cs id0 (b0, s0)).2 =
            compScore total (cs.get ⟨p, hp⟩) ∧
          s0 < (bestFold total cs id0 (b0, s0)).2 ∧
          ∀ q, (hq : q < cs.length) → q < p →
            compScore total (cs.get ⟨q, hq⟩) <
              (bestFold total cs id0 (b0, s0)).2) := by
  intro cs
  induction cs with
  | nil =>
      intro id0 b0 s0
      rw [bestFold]
      exact ⟨le_refl _, fun p hp => absurd hp (by simp), Or.inl rfl⟩
  | cons c cs ih =>
      intro id0 b0 s0
      rw [bestFold]
      by_cases hlt : s0 < compScore total c
      · rw [if_pos hlt]
        obtain ⟨ih1, ih2, ih3⟩ := ih (id0 + 1) id0 (compScore total c)
        refine ⟨le_trans (le_of_lt hlt) ih1, ?_, ?_⟩
        · intro p hp
          cases p with
          | zero => exact ih1
          | succ q => exact ih2 q (by simpa using hp)
        · right
          rcases ih3 with h | ⟨p, hp, e1, e2, e3, e4⟩
          · refine ⟨0, by simp, ?_, ?_, ?_, ?_⟩
            · rw [h]
              simp
            · rw [h]
              rfl
            · rw [h]
              exact hlt
            · intro q hq hq0
              omega
          · refine ⟨p + 1, by simpa using hp, ?_, ?_, ?_, ?_⟩
            · rw [e1]
              omega
            · rw [e2]
              rfl
            · exact lt_trans hlt e3
            · intro q hq hqp
              cases q with
              | zero => exact e3
              | succ r => exact e4 r (by simpa using hq) (by omega)
      · rw [if_neg hlt]
        push_neg at hlt
        obtain ⟨ih1, ih2, ih3⟩ := ih (id0 + 1) b0 s0
        refine ⟨ih1, ?_, ?_⟩
        · intro p hp
          cases p with
          | zero => exact le_trans hlt ih1
          | succ q => exact ih2 q (by simpa using hp)
        · rcases ih3 with h | ⟨p, hp, e1, e2, e3, e4⟩
          · exact Or.inl h
          · right
            refine ⟨p + 1, by simpa using hp, ?_, ?_, e3, ?_⟩
            · rw [e1]
              omega
            · rw [e2]
              rfl
            · intro q hq hqp
              cases q with
              | zero => exact lt_of_le_of_lt hlt e3
              | succ r => exact e4 r (by simpa using hq) (by omega)

theorem mem_neighborsOf {width height a b : ℕ} :
    b ∈ neighborsOf width height a ↔
      ((0 < a % width ∧ b = a - 1) ∨
       (a % width < width - 1 ∧ b = a + 1) ∨
       (0 < a / width ∧ b = a - width) ∨
       (a / width < height - 1 ∧ b = a + width)) := by
  unfold neighborsOf
  dsimp only
  simp only [List.mem_append, List.mem_ite_nil_right, List.mem_singleton]
  tauto

theorem maskConn_symm (mask : ℕ → ℕ) (width height : ℕ) {a b : ℕ}
    (ha : a < width * height) (hma : mask a ≠ 0) :
    maskConn mask width height a b → maskConn mask width height b a := by
  intro hconn
  induction hconn with
  | refl => exact Relation.ReflTransGen.refl
  | @tail c d hac hcd ih =>
      have hclt : c < width * height :=
        rtg_closed _ (fun x => x < width * height)
          (fun x y hx hxy => neighborsOf_lt_total hx y hxy.1) hac ha
      have hcm : mask c ≠ 0 := by
        rcases Relation.ReflTransGen.cases_tail hac with h | ⟨e, _, he⟩
        · subst h
          exact hma
        · exact he.2
      refine Relation.ReflTransGen.head ?_ ih
      exact ⟨neighborsOf_symm hclt d hcd.1, hcm⟩

theorem card_rect_filter (w h x0 x1 y0 y1 : ℕ) (hw : 0 < w)
    (hx1 : x1 < w) (hy1 : y1 < h) :
    ((Finset.range (w * h)).filter (fun j =>
      x0 ≤ j % w ∧ j % w ≤ x1 ∧ y0 ≤ j / w ∧ j / w ≤ y1)).card =
      (x1 + 1 - x0) * (y1 + 1 - y0) := by
  rw [← Nat.card_Icc x0 x1, ← Nat.card_Icc y0 y1,
    ← Finset.card_product]
  refine (Finset.card_bij (fun p _ => w * p.2 + p.1) ?_ ?_ ?_).symm
  · rintro ⟨x, y⟩ hp
    dsimp only
    rw [Finset.mem_product, Finset.mem_Icc, Finset.mem_Icc] at hp
    have hxw : x < w := by omega
    have hcd := coords_mod_div hw hxw (b := y)
    refine Finset.mem_filter.mpr ⟨Finset.mem_range.mpr ?_, ?_⟩
    · have he : w * (y + 1) = w * y + w := by ring
      have h2 : w * (y + 1) ≤ w * h := Nat.mul_le_mul_left _ (by omega)
      omega
    · rw [hcd.1, hcd.2]
      exact ⟨hp.1.1, by omega, hp.2.1, by omega⟩
  · rintro ⟨x1', y1'⟩ hp1 ⟨x2', y2'⟩ hp2 heq
    dsimp only at heq
    rw [Finset.mem_product, Finset.mem_Icc, Finset.mem_Icc] at hp1 hp2
    have hx1w : x1' < w := by omega
    have hx2w : x2' < w := by omega
    have hc1 := coords_mod_div hw hx1w (b := y1')
    have hc2 := coords_mod_div hw hx2w (b := y2')
    have hmeq : (w * y1' + x1') % w = (w * y2' + x2') % w := by rw [heq]
    have hdeq : (w * y1' + x1') / w = (w * y2' + x2') / w := by rw [heq]
    rw [hc1.1, hc2.1] at hmeq
    rw [hc1.2, hc2.2] at hdeq
    simp only [Prod.mk.injEq]
    exact ⟨hmeq, hdeq⟩
  · intro j hj
    rw [Finset.mem_filter, Finset.mem_range] at hj
    refine ⟨(j % w, j / w), ?_, ?_⟩
    · rw [Finset.mem_product, Finset.mem_Icc, Finset.mem_Icc]
      exact ⟨⟨hj.2.1, hj.2.2.1⟩, ⟨hj.2.2.2.1, hj.2.2.2.2⟩⟩
    · exact Nat.div_add_mod j w

theorem keepMainForegroundRegions_characterization (mask : ℕ → ℕ)
    (width height : ℕ) :
    ∃ cc spn out, labelComponents mask width height = some cc ∧
      keepMainForegroundRegions mask width height = some out ∧
      CCInv mask width height cc spn (width * height) ∧
      (cc.comps.length ≤ 1 → out = mask) ∧
      (2 ≤ cc.comps.length →
        ∃ bestId, 1 ≤ bestId ∧ bestId ≤ cc.comps.length ∧
          (∀ d, 1 ≤ d → d ≤ cc.comps.length →
            compScore (width * height) (cc.comps.getD (d - 1) (0, false)) ≤
              compScore (width * height)
                (cc.comps.getD (bestId - 1) (0, false))) ∧
          (∀ d, 1 ≤ d → d < bestId →
            compScore (width * height) (cc.comps.getD (d - 1) (0, false)) <
              compScore (width * height)
                (cc.comps.getD (bestId - 1) (0, false))) ∧
          (∀ i, out i = 1 ↔ (cc.labels i ≠ 0 ∧
            (cc.labels i = bestId ∨
              ((cc.comps.getD (cc.labels i - 1) (0, false)).2 = true ∧
                max (max 120 (jsRound (((width * height : ℕ) : ℚ) * (18/10000))))
                  (jsRound
                    (((cc.comps.getD (bestId - 1) (0, false)).1 : ℚ) *
                      (12/100))) ≤
                  ((cc.comps.getD (cc.labels i - 1) (0, false)).1 : ℤ))))) ∧
          (∀ i, out i = 0 ∨ out i = 1)) := by
  obtain ⟨cc, spn, hlc, hInv⟩ := labelComponents_spec mask width height
  refine ⟨cc, spn,
    (if cc.comps.length ≤ 1 then mask else
      fun i => if (decide (cc.labels i ≠ 0) &&
        ((cc.labels i == (bestFold (width * height) cc.comps 1 (1, -1)).1) ||
          ((cc.comps.getD (cc.labels i - 1) (0, false)).2 &&
            decide (max
              (max 120 (jsRound (((width * height : ℕ) : ℚ) * (18/10000))))
              (jsRound (((cc.comps.getD
                ((bestFold (width * height) cc.comps 1 (1, -1)).1 - 1)
                (0, false)).1 : ℚ) * (12/100))) ≤
              ((cc.comps.getD (cc.labels i - 1) (0, false)).1 : ℤ))))) = true
      then 1 else 0),
    hlc, ?_, hInv, ?_, ?_⟩
  · unfold keepMainForegroundRegions
    rw [hlc]
    rfl
  · intro h
    rw [if_pos h]
  · intro h2
    rw [if_neg (by omega)]
    obtain ⟨B1, B2, B3⟩ := bestFold_spec (width * height) cc.comps 1 1 (-1)
    have hlen0 : 0 < cc.comps.length := by omega
    rcases B3 with hR | ⟨p, hp, e1, e2, e3, e4⟩
    · exfalso
      have hb2 := B2 0 hlen0
      rw [hR] at hb2
      have := compScore_nonneg (width * height) (cc.comps.get ⟨0, hlen0⟩)
      have hcontra : (0 : ℚ) ≤ -1 := le_trans this hb2
      norm_num at hcontra
    · have hgetD : ∀ q, (hq : q < cc.comps.length) →
          cc.comps.getD q (0, false) = cc.comps.get ⟨q, hq⟩ := by
        intro q hq
        rw [List.getD_eq_getElem _ _ hq, List.get_eq_getElem]
      refine ⟨(bestFold (width * height) cc.comps 1 (1, -1)).1,
        by omega, by omega, ?_, ?_, ?_, ?_⟩
      · intro d h1 hd
        have hd1 : d - 1 < cc.comps.length := by omega
        have hb1 : (bestFold (width * height) cc.comps 1 (1, -1)).1 - 1 =
            p := by omega
        rw [hgetD (d - 1) hd1, hb1, hgetD p hp, ← e2]
        exact B2 (d - 1) hd1
      · intro d h1 hd
        have hd1 : d - 1 < cc.comps.length := by omega
        have hb1 : (bestFold (width * height) cc.comps 1 (1, -1)).1 - 1 =
            p := by omega
        rw [hgetD (d - 1) hd1, hb1, hgetD p hp, ← e2]
        exact e4 (d - 1) hd1 (by omega)
      · intro i
        by_cases hc : (decide (cc.labels i ≠ 0) &&
            ((cc.labels i ==
              (bestFold (width * height) cc.comps 1 (1, -1)).1) ||
              ((cc.comps.getD (cc.labels i - 1) (0, false)).2 &&
                decide (max
                  (max 120 (jsRound (((width * height : ℕ) : ℚ) * (18/10000))))
                  (jsRound (((cc.comps.getD
                    ((bestFold (width * height) cc.comps 1 (1, -1)).1 - 1)
                    (0, false)).1 : ℚ) * (12/100))) ≤
                  ((cc.comps.getD (cc.labels i - 1) (0, false)).1 :
                    ℤ))))) = true
        · rw [if_pos hc]
          simp only [Bool.and_eq_true, Bool.or_eq_true, beq_iff_eq,
            decide_eq_true_eq] at hc
          exact ⟨fun _ => hc, fun _ => rfl⟩
        · rw [if_neg hc]
          constructor
          · intro h01
            exact absurd h01 (by norm_num)
          · intro hr
            exfalso
            apply hc
            simp only [Bool.and_eq_true, Bool.or_eq_true, beq_iff_eq,
              decide_eq_true_eq]
            exact hr
      · intro i
        split
        · exact Or.inr rfl
        · exact Or.inl rfl

/-- A 120×100 binary mask with a 100×100 foreground block (x ∈ [10,109],
all rows, area 10000) touching the center, and a disconnected 5×10 block
(x ∈ [115,119], y ∈ [0,9], area 50) away from the center. -/
def bigMask (j : ℕ) : ℕ :=
  if (10 ≤ j % 120 ∧ j % 120 ≤ 109 ∧ j / 120 ≤ 99) ∨
     (115 ≤ j % 120 ∧ j / 120 ≤ 9) then 1 else 0

theorem bigMask_A (x y : ℕ) (h1 : 10 ≤ x) (h2 : x ≤ 109) (h3 : y ≤ 99) :
    bigMask (120 * y + x) = 1 := by
  unfold bigMask
  rw [if_pos]
  left
  omega

theorem bigMask_B (x y : ℕ) (h1 : 115 ≤ x) (h2 : x ≤ 119) (h3 : y ≤ 9) :
    bigMask (120 * y + x) = 1 := by
  unfold bigMask
  rw [if_pos]
  right
  omega

theorem bigMask_cases {j : ℕ} (h : bigMask j ≠ 0) :
    (10 ≤ j % 120 ∧ j % 120 ≤ 109 ∧ j / 120 ≤ 99) ∨
    (115 ≤ j % 120 ∧ j / 120 ≤ 9) := by
  by_contra hc
  rw [bigMask, if_neg hc] at h
  exact h rfl

theorem bigMask_stepA (x y : ℕ) (h1 : 10 ≤ x) (h2 : x ≤ 108) (h3 : y ≤ 99) :
    maskStep bigMask 120 100 (120 * y + (x + 1)) (120 * y + x) := by
  refine ⟨mem_neighborsOf.mpr (Or.inl ⟨?_, ?_⟩), ?_⟩
  · omega
  · omega
  · rw [bigMask_A x y h1 (by omega) h3]
    norm_num

theorem bigMask_rowA : ∀ d y, d ≤ 99 → y ≤ 99 →
    maskConn bigMask 120 100 (120 * y + (10 + d)) (120 * y + 10) := by
  intro d
  induction d with
  | zero =>
      intro y _ _
      exact Relation.ReflTransGen.refl
  | succ d ihd =>
      intro y hd hy
      refine Relation.ReflTransGen.head ?_ (ihd y (by omega) hy)
      exact bigMask_stepA (10 + d) y (by omega) (by omega) hy

theorem bigMask_colA : ∀ y, y ≤ 99 →
    maskConn bigMask 120 100 (120 * y + 10) 10 := by
  intro y
  induction y with
  | zero =>
      intro _
      exact Relation.ReflTransGen.refl
  | succ y ihy =>
      intro hy
      refine Relation.ReflTransGen.head ?_ (ihy (by omega))
      refine ⟨mem_neighborsOf.mpr (Or.inr (Or.inr (Or.inl ⟨?_, ?_⟩))), ?_⟩
      · omega
      · omega
      · rw [bigMask_A 10 y (by omega) (by omega) (by omega)]
        norm_num

theorem bigMask_connA {j : ℕ} (h1 : 10 ≤ j % 120) (h2 : j % 120 ≤ 109)
    (h3 : j / 120 ≤ 99) : maskConn bigMask 120 100 j 10 := by
  have hj : j = 120 * (j / 120) + (10 + (j % 120 - 10)) := by omega
  rw [hj]
  exact Relation.ReflTransGen.trans
    (bigMask_rowA (j % 120 - 10) (j / 120) (by omega) h3)
    (bigMask_colA (j / 120) h3)

theorem bigMask_stepB (x y : ℕ) (h1 : 115 ≤ x) (h2 : x ≤ 118) (h3 : y ≤ 9) :
    maskStep bigMask 120 100 (120 * y + (x + 1)) (120 * y + x) := by
  refine ⟨mem_neighborsOf.mpr (Or.inl ⟨?_, ?_⟩), ?_⟩
  · omega
  · omega
  · rw [bigMask_B x y h1 (by omega) h3]
    norm_num

theorem bigMask_rowB : ∀ d y, d ≤ 4 → y ≤ 9 →
    maskConn bigMask 120 100 (120 * y + (115 + d)) (120 * y + 115) := by
  intro d
  induction d with
  | zero =>
      intro y _ _
      exact Relation.ReflTransGen.refl
  | succ d ihd =>
      intro y hd hy
      refine Relation.ReflTransGen.head ?_ (ihd y (by omega) hy)
      exact bigMask_stepB (115 + d) y (by omega) (by omega) hy

theorem bigMask_colB : ∀ y, y ≤ 9 →
    maskConn bigMask 120 100 (120 * y + 115) 115 := by
  intro y
  induction y with
  | zero =>
      intro _
      exact Relation.ReflTransGen.refl
  | succ y ihy =>
      intro hy
      refine Relation.ReflTransGen.head ?_ (ihy (by omega))
      refine ⟨mem_neighborsOf.mpr (Or.inr (Or.inr (Or.inl ⟨?_, ?_⟩))), ?_⟩
      · omega
      · omega
      · rw [bigMask_B 115 y (by omega) (by omega) (by omega)]
        norm_num

theorem bigMask_connB {j : ℕ} (h1 : 115 ≤ j % 120) (h3 : j / 120 ≤ 9) :
    maskConn bigMask 120 100 j 115 := by
  have hj : j = 120 * (j / 120) + (115 + (j % 120 - 115)) := by omega
  rw [hj]
  exact Relation.ReflTransGen.trans
    (bigMask_rowB (j % 120 - 115) (j / 120) (by omega) h3)
    (bigMask_colB (j / 120) h3)

theorem bigMask_closedA : ∀ a b,
    (10 ≤ a % 120 ∧ a % 120 ≤ 109 ∧ a / 120 ≤ 99) →
    maskStep bigMask 120 100 a b →
    (10 ≤ b % 120 ∧ b % 120 ≤ 109 ∧ b / 120 ≤ 99) := by
  rintro a b ha ⟨hnb, hmb⟩
  have hb := bigMask_cases hmb
  rcases mem_neighborsOf.mp hnb with ⟨hc, rfl⟩ | ⟨hc, rfl⟩ | ⟨hc, rfl⟩ |
    ⟨hc, rfl⟩ <;> omega

theorem bigMask_disconn : ¬ maskConn bigMask 120 100 10 115 := by
  intro hconn
  have hS := rtg_closed (maskStep bigMask 120 100)
    (fun j => 10 ≤ j % 120 ∧ j % 120 ≤ 109 ∧ j / 120 ≤ 99)
    bigMask_closedA hconn (by omega)
  omega

theorem keep_bigMask_spec :
    ∃ out, keepMainForegroundRegions bigMask 120 100 = some out ∧
      ∀ j, (out j = 1 ↔
          (10 ≤ j % 120 ∧ j % 120 ≤ 109 ∧ j / 120 ≤ 99)) ∧
        (out j = 0 ∨ out j = 1) := by
  obtain ⟨cc, spn, out, hlc, hout, hInv, hle1, hge2⟩ :=
    keepMainForegroundRegions_characterization bigMask 120 100
  have h10m : bigMask 10 ≠ 0 := by decide
  have h115m : bigMask 115 ≠ 0 := by decide
  have h10 : cc.labels 10 ≠ 0 := hInv.i2 10 (by norm_num) h10m
  have h115 : cc.labels 115 ≠ 0 := hInv.i2 115 (by norm_num) h115m
  have hndist : cc.labels 10 ≠ cc.labels 115 := by
    intro heq
    exact bigMask_disconn (hInv.i5 10 115 h10 heq.symm)
  have hclassA : ∀ j, 10 ≤ j % 120 → j % 120 ≤ 109 → j / 120 ≤ 99 →
      cc.labels j = cc.labels 10 := by
    intro j h1 h2 h3
    have hjm : bigMask j ≠ 0 := by
      unfold bigMask
      rw [if_pos (Or.inl ⟨h1, h2, h3⟩)]
      norm_num
    have hjlt : j < 120 * 100 := by omega
    have hj0 : cc.labels j ≠ 0 := hInv.i2 j hjlt hjm
    exact (labels_const_of_conn bigMask 120 100 cc.labels hInv.i4
      j 10 hj0 (bigMask_connA h1 h2 h3)).symm
  have hclassB : ∀ j, 115 ≤ j % 120 → j / 120 ≤ 9 →
      cc.labels j = cc.labels 115 := by
    intro j h1 h3
    have hjm : bigMask j ≠ 0 := by
      unfold bigMask
      rw [if_pos (Or.inr ⟨h1, h3⟩)]
      norm_num
    have hjlt : j < 120 * 100 := by omega
    have hj0 : cc.labels j ≠ 0 := hInv.i2 j hjlt hjm
    exact (labels_const_of_conn bigMask 120 100 cc.labels hInv.i4
      j 115 hj0 (bigMask_connB h1 h3)).symm
  have hvals : ∀ j, cc.labels j ≠ 0 →
      cc.labels j = cc.labels 10 ∨ cc.labels j = cc.labels 115 := by
    intro j hj
    have hsupp := hInv.i1 j hj
    rcases bigMask_cases hsupp.2 with h | h
    · exact Or.inl (hclassA j h.1 h.2.1 h.2.2)
    · exact Or.inr (hclassB j h.1 h.2)
  have hidval : ∀ d, 1 ≤ d → d ≤ cc.comps.length →
      d = cc.labels 10 ∨ d = cc.labels 115 := by
    intro d h1 h2
    have h7 := hInv.i7 d h1 h2
    have : cc.labels (spn d) ≠ 0 := by
      rw [h7.1]
      omega
    rcases hvals (spn d) this with h | h
    · left
      rw [← h7.1, h]
    · right
      rw [← h7.1, h]
  have hlen : cc.comps.length = 2 := by
    have hA1 : 1 ≤ cc.labels 10 := by omega
    have hB1 : 1 ≤ cc.labels 115 := by omega
    have hAle := hInv.i3 10
    have hBle := hInv.i3 115
    by_contra hne
    rcases Nat.lt_or_ge cc.comps.length 2 with hlt | hge
    · omega
    · have h3 : 3 ≤ cc.comps.length := by omega
      have e1 := hidval 1 (by omega) (by omega)
      have e2 := hidval 2 (by omega) (by omega)
      have e3 := hidval 3 (by omega) (by omega)
      omega
  have hdA : cc.labels 10 = 1 := by
    by_contra hne
    have hA2 : cc.labels 10 = 2 := by
      have := hInv.i3 10
      omega
    have hB1 : cc.labels 115 = 1 := by
      have := hInv.i3 115
      omega
    have h8 := hInv.i8 1 2 (by omega) (by omega) (by omega)
    have h7A := hInv.i7 2 (by omega) (by omega)
    have h7B := hInv.i7 1 (by omega) (by omega)
    have hspnA : spn 2 ≤ 10 := h7A.2.2 10 hA2
    have hspnB : 115 ≤ spn 1 := by
      have hB0 : cc.labels (spn 1) ≠ 0 := by
        rw [h7B.1]
        omega
      have hsupp := hInv.i1 (spn 1) hB0
      rcases bigMask_cases hsupp.2 with h | h
      · exfalso
        have := hclassA (spn 1) h.1 h.2.1 h.2.2
        rw [h7B.1, hA2] at this
        omega
      · omega
    omega
  have hdB : cc.labels 115 = 2 := by
    have := hInv.i3 115
    omega
  have hiffA : ∀ j, cc.labels j = 1 ↔
      (10 ≤ j % 120 ∧ j % 120 ≤ 109 ∧ j / 120 ≤ 99) := by
    intro j
    constructor
    · intro hj
      have hj0 : cc.labels j ≠ 0 := by omega
      have hsupp := hInv.i1 j hj0
      rcases bigMask_cases hsupp.2 with h | h
      · exact h
      · exfalso
        have := hclassB j h.1 h.2
        rw [hj, hdB] at this
        omega
    · rintro ⟨h1, h2, h3⟩
      rw [hclassA j h1 h2 h3, hdA]
  have hiffB : ∀ j, cc.labels j = 2 ↔
      (115 ≤ j % 120 ∧ j / 120 ≤ 9) := by
    intro j
    constructor
    · intro hj
      have hj0 : cc.labels j ≠ 0 := by omega
      have hsupp := hInv.i1 j hj0
      rcases bigMask_cases hsupp.2 with h | h
      · exfalso
        have := hclassA j h.1 h.2.1 h.2.2
        rw [hj, hdA] at this
        omega
      · exact h
    · rintro ⟨h1, h3⟩
      rw [hclassB j h1 h3, hdB]
  have harea1 : (cc.comps.getD 0 (0, false)).1 = 10000 := by
    have h6 := (hInv.i6 1 (by omega) (by omega)).1
    have hcg : (Finset.range (120 * 100)).filter
        (fun j => cc.labels j = 1) =
        (Finset.range (120 * 100)).filter (fun j =>
          10 ≤ j % 120 ∧ j % 120 ≤ 109 ∧ 0 ≤ j / 120 ∧ j / 120 ≤ 99) := by
      apply Finset.filter_congr
      intro j _
      rw [hiffA j]
      constructor
      · rintro ⟨a1, a2, a3⟩
        exact ⟨a1, a2, Nat.zero_le _, a3⟩
      · rintro ⟨a1, a2, _, a3⟩
        exact ⟨a1, a2, a3⟩
    rw [show (1 : ℕ) - 1 = 0 from rfl] at h6
    rw [h6, hcg, card_rect_filter 120 100 10 109 0 99 (by norm_num)
      (by norm_num) (by norm_num)]
  have harea2 : (cc.comps.getD 1 (0, false)).1 = 50 := by
    have h6 := (hInv.i6 2 (by omega) (by omega)).1
    have hcg : (Finset.range (120 * 100)).filter
        (fun j => cc.labels j = 2) =
        (Finset.range (120 * 100)).filter (fun j =>
          115 ≤ j % 120 ∧ j % 120 ≤ 119 ∧ 0 ≤ j / 120 ∧ j / 120 ≤ 9) := by
      apply Finset.filter_congr
      intro j _
      rw [hiffB j]
      constructor
      · rintro ⟨a1, a3⟩
        exact ⟨a1, by omega, Nat.zero_le _, a3⟩
      · rintro ⟨a1, _, _, a3⟩
        exact ⟨a1, a3⟩
    rw [show (2 : ℕ) - 1 = 1 from rfl] at h6
    rw [h6, hcg, card_rect_filter 120 100 115 119 0 9 (by norm_num)
      (by norm_num) (by norm_num)]
  have htouch1 : (cc.comps.getD 0 (0, false)).2 = true := by
    have h6 := (hInv.i6 1 (by omega) (by omega)).2
    rw [show (1 : ℕ) - 1 = 0 from rfl] at h6
    refine h6.mpr ⟨6060, ?_, ?_⟩
    · rw [hiffA 6060]
      norm_num
    · decide
  have htouch2 : (cc.comps.getD 1 (0, false)).2 = false := by
    have h6 := (hInv.i6 2 (by omega) (by omega)).2
    rw [show (2 : ℕ) - 1 = 1 from rfl] at h6
    by_contra hne
    have htr : (cc.comps.getD 1 (0, false)).2 = true :=
      eq_true_of_ne_false hne
    obtain ⟨j, hj2, hcen⟩ := h6.mp htr
    have hb := (hiffB j).mp hj2
    unfold inCenter at hcen
    rw [decide_eq_true_eq] at hcen
    omega
  obtain ⟨bestId, hb1, hb2, hmax, hstrict, houtiff, hbin⟩ :=
    hge2 (by omega)
  have hpair1 : cc.comps.getD 0 (0, false) = (10000, true) := by
    have := harea1
    have := htouch1
    cases hp : cc.comps.getD 0 (0, false) with
    | mk a b =>
        rw [hp] at harea1 htouch1
        simp at harea1 htouch1
        rw [harea1, htouch1]
  have hpair2 : cc.comps.getD 1 (0, false) = (50, false) := by
    cases hp : cc.comps.getD 1 (0, false) with
    | mk a b =>
        rw [hp] at harea2 htouch2
        simp at harea2 htouch2
        rw [harea2, htouch2]
  have hbest : bestId = 1 := by
    rcases Nat.lt_or_ge bestId 2 with h | h
    · omega
    · exfalso
      have hb2' : bestId = 2 := by omega
      have hm := hmax 1 (by omega) (by omega)
      rw [hb2'] at hm
      rw [show (1 : ℕ) - 1 = 0 from rfl, show (2 : ℕ) - 1 = 1 from rfl,
        hpair1, hpair2] at hm
      unfold compScore at hm
      norm_num at hm
  refine ⟨out, hout, ?_⟩
  intro j
  refine ⟨?_, (hbin j)⟩
  rw [houtiff j, hbest]
  constructor
  · rintro ⟨hj0, hj⟩
    rcases hvals j hj0 with h | h
    · rw [hdA] at h
      exact (hiffA j).mp h
    · rw [hdB] at h
      exfalso
      rcases hj with hj | hj
      · omega
      · rw [h] at hj
        rw [show (2 : ℕ) - 1 = 1 from rfl, hpair2] at hj
        simp at hj
  · intro hA
    have hj1 : cc.labels j = 1 := (hiffA j).mpr hA
    exact ⟨by omega, Or.inl hj1⟩

/-- C4: `keepMainForegroundRegions` always succeeds.  When all foreground
cells of the mask are pairwise 4-connected (at most one component) it
returns the mask unchanged.  Otherwise there is an enumeration `L` of the
components in scan order (ids ordered by least cell index), with exact
per-component areas and center flags, such that the output keeps exactly
the pixels of the component of maximal score
`area + (touchesCenter ? 0.2*total : 0)` — first in scan order among
equal scores — plus every other component that touches the central box and
has area at least `max(max(120, round(0.0018*total)), round(0.12*bestArea))`,
zeroing every other pixel.  In particular, on a 120×100 mask with a
10000-pixel central block and a disconnected 50-pixel block away from the
center, exactly the large block survives. -/
theorem keepMainForegroundRegions_spec :
    (∀ (mask : ℕ → ℕ) (width height : ℕ),
      (∀ a b, a < width * height → b < width * height → mask a ≠ 0 →
        mask b ≠ 0 → maskConn mask width height a b) →
      ∃ out, keepMainForegroundRegions mask width height = some out ∧
        out = mask) ∧
    (∀ (mask : ℕ → ℕ) (width height : ℕ),
      (∃ a b, a < width * height ∧ b < width * height ∧ mask a ≠ 0 ∧
        mask b ≠ 0 ∧ ¬ maskConn mask width height a b) →
      ∃ (out L : ℕ → ℕ) (n : ℕ) (area : ℕ → ℕ) (touch : ℕ → Bool)
        (spn : ℕ → ℕ) (bestId : ℕ),
        keepMainForegroundRegions mask width height = some out ∧
        2 ≤ n ∧
        (∀ j, L j ≠ 0 ↔ (j < width * height ∧ mask j ≠ 0)) ∧
        (∀ a b, L a ≠ 0 → L b ≠ 0 →
          (L a = L b ↔ maskConn mask width height a b)) ∧
        (∀ j, L j ≤ n) ∧
        (∀ d, 1 ≤ d → d ≤ n →
          area d = ((Finset.range (width * height)).filter
            (fun j => L j = d)).card ∧
          (touch d = true ↔ ∃ j, L j = d ∧
            inCenter width height j = true) ∧
          L (spn d) = d ∧ (∀ j, L j = d → spn d ≤ j)) ∧
        (∀ d1 d2, 1 ≤ d1 → d1 < d2 → d2 ≤ n → spn d1 < spn d2) ∧
        1 ≤ bestId ∧ bestId ≤ n ∧
        (∀ d, 1 ≤ d → d ≤ n →
          (area d : ℚ) + (if touch d = true
            then ((width * height : ℕ) : ℚ) * (2/10) else 0) ≤
          (area bestId : ℚ) + (if touch bestId = true
            then ((width * height : ℕ) : ℚ) * (2/10) else 0)) ∧
        (∀ d, 1 ≤ d → d < bestId →
          (area d : ℚ) + (if touch d = true
            then ((width * height : ℕ) : ℚ) * (2/10) else 0) <
          (area bestId : ℚ) + (if touch bestId = true
            then ((width * height : ℕ) : ℚ) * (2/10) else 0)) ∧
        (∀ i, out i = 1 ↔ (L i ≠ 0 ∧ (L i = bestId ∨
          (touch (L i) = true ∧
            max (max 120 (jsRound (((width * height : ℕ) : ℚ) *
              (18/10000))))
              (jsRound ((area bestId : ℚ) * (12/100))) ≤
            (area (L i) : ℤ))))) ∧
        (∀ i, out i = 0 ∨ out i = 1)) ∧
    (∃ out, keepMainForegroundRegions bigMask 120 100 = some out ∧
      ∀ j, (out j = 1 ↔
          (10 ≤ j % 120 ∧ j % 120 ≤ 109 ∧ j / 120 ≤ 99)) ∧
        (out j = 0 ∨ out j = 1)) := by
  refine ⟨?_, ?_, keep_bigMask_spec⟩
  · intro mask width height hconn
    obtain ⟨cc, spn, out, hlc, hout, hInv, hle1, _⟩ :=
      keepMainForegroundRegions_characterization mask width height
    refine ⟨out, hout, hle1 ?_⟩
    by_contra h2
    push_neg at h2
    have h71 := hInv.i7 1 (by omega) (by omega)
    have h72 := hInv.i7 2 (by omega) (by omega)
    have hs1 := hInv.i1 (spn 1) (by rw [h71.1]; omega)
    have hs2 := hInv.i1 (spn 2) (by rw [h72.1]; omega)
    have hcc := hconn (spn 1) (spn 2) hs1.1 hs2.1 hs1.2 hs2.2
    have hcst := labels_const_of_conn mask width height cc.labels hInv.i4
      (spn 1) (spn 2) (by rw [h71.1]; omega) hcc
    rw [h71.1, h72.1] at hcst
    omega
  · rintro mask width height ⟨a, b, hal, hbl, ham, hbm, hnc⟩
    obtain ⟨cc, spn, out, hlc, hout, hInv, _, hge2⟩ :=
      keepMainForegroundRegions_characterization mask width height
    have hla : cc.labels a ≠ 0 := hInv.i2 a hal ham
    have hlb : cc.labels b ≠ 0 := hInv.i2 b hbl hbm
    have hne : cc.labels a ≠ cc.labels b := by
      intro heq
      exact hnc (hInv.i5 a b hla heq.symm)
    have h2 : 2 ≤ cc.comps.length := by
      have h3 := hInv.i3 a
      have h4 := hInv.i3 b
      omega
    obtain ⟨bestId, hb1, hb2, hmax, hstrict, houtiff, hbin⟩ := hge2 h2
    refine ⟨out, cc.labels, cc.comps.length,
      fun d => (cc.comps.getD (d - 1) (0, false)).1,
      fun d => (cc.comps.getD (d - 1) (0, false)).2,
      spn, bestId, hout, h2, ?_, ?_, hInv.i3, ?_, hInv.i8, hb1, hb2,
      ?_, ?_, ?_, hbin⟩
    · intro j
      constructor
      · exact hInv.i1 j
      · rintro ⟨h1, h2'⟩
        exact hInv.i2 j h1 h2'
    · intro x y hx hy
      constructor
      · intro heq
        exact hInv.i5 x y hx heq.symm
      · intro hc
        exact (labels_const_of_conn mask width height cc.labels hInv.i4
          x y hx hc).symm
    · intro d h1 hd
      exact ⟨(hInv.i6 d h1 hd).1, (hInv.i6 d h1 hd).2,
        (hInv.i7 d h1 hd).1, (hInv.i7 d h1 hd).2.2⟩
    · intro d h1 hd
      exact hmax d h1 hd
    · intro d h1 hd
      exact hstrict d h1 hd
    · intro i
      exact houtiff i

theorem keepMainForegroundRegions_spec_witness :
    ∃ out, keepMainForegroundRegions (fun _ => 1) 1 1 = some out ∧
      out = (fun _ => 1) := by
  refine keepMainForegroundRegions_spec.1 (fun _ => 1) 1 1 ?_
  intro a b ha hb _ _
  have ha0 : a = 0 := by omega
  have hb0 : b = 0 := by omega
  subst ha0
  subst hb0
  exact Relation.ReflTransGen.refl

theorem rgbDistanceSqAt_nonneg (data : ℕ → ℕ) (idx : ℕ) (r g b : ℚ) :
    0 ≤ rgbDistanceSqAt data idx r g b :=
  rgbDistanceSq_nonneg _ _ _ _ _ _

theorem sqrt_le_sqrt_iff_rat {a b : ℚ} (ha : 0 ≤ a) (hb : 0 ≤ b) :
    Real.sqrt (a : ℝ) ≤ Real.sqrt (b : ℝ) ↔ a ≤ b := by
  have ha' : (0 : ℝ) ≤ (a : ℝ) := by exact_mod_cast ha
  have hb' : (0 : ℝ) ≤ (b : ℝ) := by exact_mod_cast hb
  constructor
  · intro h
    have h2 : ((a : ℝ)) ≤ ((b : ℝ)) := by
      have hsa := Real.sq_sqrt ha'
      have hsb := Real.sq_sqrt hb'
      nlinarith [Real.sqrt_nonneg (a : ℝ), Real.sqrt_nonneg (b : ℝ)]
    exact_mod_cast h2
  · intro h
    exact Real.sqrt_le_sqrt (by exact_mod_cast h)

/-- `Math.max(1, Math.round(Math.min(width, height) * 0.01))`. -/
def borderThicknessOf (width height : ℕ) : ℕ :=
  max 1 (jsRound (((min width height : ℕ) : ℚ) * (1/100))).toNat

/-- `Math.max(40, Math.round(Math.min(width, height) * 0.3))`. -/
def fallbackCountOf (width height : ℕ) : ℕ :=
  max 40 (jsRound (((min width height : ℕ) : ℚ) * (3/10))).toNat

/-- The indices visited by the two `consider` loops of
`collectBorderSeeds`, in source order: the top/bottom bands, then the
left/right bands of the remaining rows. -/
def borderSeedScan (width height bt : ℕ) : List ℕ :=
  (List.range bt).flatMap (fun y =>
    (List.range width).flatMap (fun x =>
      [y * width + x, (height - 1 - y) * width + x])) ++
  (List.range bt).flatMap (fun x =>
    (List.range' bt (height - bt - bt)).flatMap (fun y =>
      [y * width + x, y * width + (width - 1 - x)]))

/-- A border candidate `{idx, dist, grad}`, with the distance represented
by its square (which is nonnegative by construction). -/
def SeedCand : Type := {c : ℕ × ℚ × ℚ // 0 ≤ c.2.1}

/-- The fallback comparator `(a.dist + 0.2*a.grad) - (b.dist + 0.2*b.grad)`
as the exact decision of `√distSqA + gradA/5 ≤ √distSqB + gradB/5`. -/
def seedKeyLe (a b : SeedCand) : Bool :=
  leSqrtAdd a.1.2.1 b.1.2.1 ((b.1.2.2 - a.1.2.2) / 5)

theorem seedKeyLe_iff (a b : SeedCand) :
    seedKeyLe a b = true ↔
      Real.sqrt ((a.1.2.1 : ℚ) : ℝ) + ((a.1.2.2 : ℚ) : ℝ) / 5 ≤
      Real.sqrt ((b.1.2.1 : ℚ) : ℝ) + ((b.1.2.2 : ℚ) : ℝ) / 5 := by
  unfold seedKeyLe
  rw [leSqrtAdd_iff a.2 b.2]
  have hc : (((b.1.2.2 - a.1.2.2) / 5 : ℚ) : ℝ) =
      ((b.1.2.2 : ℚ) : ℝ) / 5 - ((a.1.2.2 : ℚ) : ℝ) / 5 := by
    push_cast
    ring
  rw [hc]
  constructor
  · intro h
    linarith
  · intro h
    linarith

theorem seedKeyLe_trans : ∀ (a b c : SeedCand),
    seedKeyLe a b = true → seedKeyLe b c = true → seedKeyLe a c = true := by
  intro a b c h1 h2
  rw [seedKeyLe_iff] at h1 h2 ⊢
  linarith

theorem seedKeyLe_total : ∀ (a b : SeedCand),
    (seedKeyLe a b || seedKeyLe b a) = true := by
  intro a b
  rw [Bool.or_eq_true, seedKeyLe_iff, seedKeyLe_iff]
  exact le_total _ _

/-- Embedding of `collectBorderSeeds(data, width, height, model, gradient)`:
seed test `dist ≤ model.tolerance && grad ≤ 85` over squared distances, and
the sorted fallback when no pixel qualifies. -/
def collectBorderSeeds (data : ℕ → ℕ) (width height : ℕ)
    (model : BackgroundModel) (gradient : ℕ → ℚ) : List ℕ :=
  let bt := borderThicknessOf width height
  let scan := borderSeedScan width height bt
  let seeds := scan.filter (fun idx =>
    decide (rgbDistanceSqAt data idx model.r model.g model.b ≤
      model.toleranceSq) && decide (gradient idx ≤ 85))
  if 0 < seeds.length then seeds
  else
    let candidates : List SeedCand := scan.map (fun idx =>
      ⟨(idx, rgbDistanceSqAt data idx model.r model.g model.b,
        gradient idx), rgbDistanceSqAt_nonneg data idx model.r model.g
          model.b⟩)
    ((candidates.mergeSort seedKeyLe).take
      (fallbackCountOf width height)).map (fun c => c.1.1)

/-- C8: over the border band scanned by the source loops, a pixel is a seed
iff `√distSq ≤ √toleranceSq` and `gradient ≤ 85`; when no band pixel
qualifies, the result is the `max(40, round(min(w,h)*0.3))` candidates of
smallest `dist + 0.2·grad` (all of them if fewer); and the seed list is
never empty. -/
theorem collectBorderSeeds_spec (data : ℕ → ℕ) (width height : ℕ)
    (model : BackgroundModel) (gradient : ℕ → ℚ)
    (hw : 1 ≤ width) (hh : 1 ≤ height) (htol : 0 ≤ model.toleranceSq) :
    ((∃ j ∈ borderSeedScan width height (borderThicknessOf width height),
        rgbDistanceSqAt data j model.r model.g model.b ≤
          model.toleranceSq ∧ gradient j ≤ 85) →
      ∀ idx, idx ∈ collectBorderSeeds data width height model gradient ↔
        (idx ∈ borderSeedScan width height (borderThicknessOf width height) ∧
          Real.sqrt ((rgbDistanceSqAt data idx model.r model.g model.b :
            ℚ) : ℝ) ≤ Real.sqrt ((model.toleranceSq : ℚ) : ℝ) ∧
          gradient idx ≤ 85)) ∧
    ((∀ j ∈ borderSeedScan width height (borderThicknessOf width height),
        ¬ (rgbDistanceSqAt data j model.r model.g model.b ≤
            model.toleranceSq ∧ gradient j ≤ 85)) →
      ∃ taken rest,
        collectBorderSeeds data width height model gradient =
          taken.map (fun c => c.1.1) ∧
        taken.length = min (fallbackCountOf width height)
          (borderSeedScan width height
            (borderThicknessOf width height)).length ∧
        ((borderSeedScan width height
            (borderThicknessOf width height)).map
          (fun idx => (⟨(idx, rgbDistanceSqAt data idx model.r model.g
            model.b, gradient idx), rgbDistanceSqAt_nonneg data idx model.r
            model.g model.b⟩ : SeedCand))).Perm (taken ++ rest) ∧
        (∀ c ∈ taken, ∀ c2 ∈ rest,
          Real.sqrt ((c.1.2.1 : ℚ) : ℝ) + ((c.1.2.2 : ℚ) : ℝ) / 5 ≤
          Real.sqrt ((c2.1.2.1 : ℚ) : ℝ) + ((c2.1.2.2 : ℚ) : ℝ) / 5)) ∧
    collectBorderSeeds data width height model gradient ≠ [] := by
  have hbt1 : 1 ≤ borderThicknessOf width height :=
    le_max_left 1 _
  have hscan0 : (0 : ℕ) ∈ borderSeedScan width height
      (borderThicknessOf width height) := by
    unfold borderSeedScan
    refine List.mem_append.mpr (Or.inl ?_)
    refine List.mem_flatMap.mpr ⟨0, List.mem_range.mpr (by omega), ?_⟩
    refine List.mem_flatMap.mpr ⟨0, List.mem_range.mpr (by omega), ?_⟩
    simp
  have hunfold : collectBorderSeeds data width height model gradient =
      if 0 < ((borderSeedScan width height
          (borderThicknessOf width height)).filter (fun idx =>
        decide (rgbDistanceSqAt data idx model.r model.g model.b ≤
          model.toleranceSq) && decide (gradient idx ≤ 85))).length
      then (borderSeedScan width height
          (borderThicknessOf width height)).filter (fun idx =>
        decide (rgbDistanceSqAt data idx model.r model.g model.b ≤
          model.toleranceSq) && decide (gradient idx ≤ 85))
      else ((((borderSeedScan width height
          (borderThicknessOf width height)).map
        (fun idx => (⟨(idx, rgbDistanceSqAt data idx model.r model.g
          model.b, gradient idx), rgbDistanceSqAt_nonneg data idx model.r
          model.g model.b⟩ : SeedCand))).mergeSort seedKeyLe).take
        (fallbackCountOf width height)).map (fun c => c.1.1) := rfl
  have hqiff : ∀ idx,
      ((fun idx => decide (rgbDistanceSqAt data idx model.r model.g
        model.b ≤ model.toleranceSq) && decide (gradient idx ≤ 85)) idx)
        = true ↔
      (rgbDistanceSqAt data idx model.r model.g model.b ≤
        model.toleranceSq ∧ gradient idx ≤ 85) := by
    intro idx
    simp only [Bool.and_eq_true, decide_eq_true_eq]
  refine ⟨?_, ?_, ?_⟩
  · rintro ⟨j, hj, hjq⟩
    have hmem : j ∈ (borderSeedScan width height
        (borderThicknessOf width height)).filter (fun idx =>
      decide (rgbDistanceSqAt data idx model.r model.g model.b ≤
        model.toleranceSq) && decide (gradient idx ≤ 85)) :=
      List.mem_filter.mpr ⟨hj, (hqiff j).mpr hjq⟩
    have hpos : 0 < ((borderSeedScan width height
        (borderThicknessOf width height)).filter (fun idx =>
      decide (rgbDistanceSqAt data idx model.r model.g model.b ≤
        model.toleranceSq) && decide (gradient idx ≤ 85))).length :=
      List.length_pos.mpr (List.ne_nil_of_mem hmem)
    intro idx
    rw [hunfold, if_pos hpos, List.mem_filter, hqiff idx,
      sqrt_le_sqrt_iff_rat (rgbDistanceSqAt_nonneg data idx model.r
        model.g model.b) htol]
  · intro hall
    have hnil : ¬ (0 < ((borderSeedScan width height
        (borderThicknessOf width height)).filter (fun idx =>
      decide (rgbDistanceSqAt data idx model.r model.g model.b ≤
        model.toleranceSq) && decide (gradient idx ≤ 85))).length) := by
      intro hpos
      obtain ⟨a, ha⟩ := List.exists_mem_of_ne_nil _
        (List.length_pos.mp hpos)
      rw [List.mem_filter] at ha
      exact hall a ha.1 ((hqiff a).mp ha.2)
    refine ⟨(((borderSeedScan width height
        (borderThicknessOf width height)).map
      (fun idx => (⟨(idx, rgbDistanceSqAt data idx model.r model.g
        model.b, gradient idx), rgbDistanceSqAt_nonneg data idx model.r
        model.g model.b⟩ : SeedCand))).mergeSort seedKeyLe).take
      (fallbackCountOf width height),
      (((borderSeedScan width height
        (borderThicknessOf width height)).map
      (fun idx => (⟨(idx, rgbDistanceSqAt data idx model.r model.g
        model.b, gradient idx), rgbDistanceSqAt_nonneg data idx model.r
        model.g model.b⟩ : SeedCand))).mergeSort seedKeyLe).drop
      (fallbackCountOf width height), ?_, ?_, ?_, ?_⟩
    · rw [hunfold, if_neg hnil]
    · rw [List.length_take, (List.mergeSort_perm _ _).length_eq,
        List.length_map]
    · rw [List.take_append_drop]
      exact (List.mergeSort_perm _ _).symm
    · have hpw := List.sorted_mergeSort seedKeyLe_trans seedKeyLe_total
        ((borderSeedScan width height
          (borderThicknessOf width height)).map
        (fun idx => (⟨(idx, rgbDistanceSqAt data idx model.r model.g
          model.b, gradient idx), rgbDistanceSqAt_nonneg data idx model.r
          model.g model.b⟩ : SeedCand)))
      rw [← List.take_append_drop (fallbackCountOf width height)
        (((borderSeedScan width height
          (borderThicknessOf width height)).map
        (fun idx => (⟨(idx, rgbDistanceSqAt data idx model.r model.g
          model.b, gradient idx), rgbDistanceSqAt_nonneg data idx model.r
          model.g model.b⟩ : SeedCand))).mergeSort seedKeyLe)] at hpw
      have hcross := (List.pairwise_append.mp hpw).2.2
      intro c hc c2 hc2
      have := hcross c hc c2 hc2
      rw [seedKeyLe_iff] at this
      exact this
  · rw [hunfold]
    by_cases hpos : 0 < ((borderSeedScan width height
        (borderThicknessOf width height)).filter (fun idx =>
      decide (rgbDistanceSqAt data idx model.r model.g model.b ≤
        model.toleranceSq) && decide (gradient idx ≤ 85))).length
    · rw [if_pos hpos]
      exact List.length_pos.mp hpos
    · rw [if_neg hpos]
      have hlenpos : 0 < ((((borderSeedScan width height
          (borderThicknessOf width height)).map
        (fun idx => (⟨(idx, rgbDistanceSqAt data idx model.r model.g
          model.b, gradient idx), rgbDistanceSqAt_nonneg data idx model.r
          model.g model.b⟩ : SeedCand))).mergeSort seedKeyLe).take
        (fallbackCountOf width height)).length := by
        rw [List.length_take, (List.mergeSort_perm _ _).length_eq,
          List.length_map]
        have h1 : 40 ≤ fallbackCountOf width height := le_max_left 40 _
        have h2 : 0 < (borderSeedScan width height
            (borderThicknessOf width height)).length :=
          List.length_pos.mpr (List.ne_nil_of_mem hscan0)
        omega
      intro hc
      have hlen : ((((borderSeedScan width height
          (borderThicknessOf width height)).map
        (fun idx => (⟨(idx, rgbDistanceSqAt data idx model.r model.g
          model.b, gradient idx), rgbDistanceSqAt_nonneg data idx model.r
          model.g model.b⟩ : SeedCand))).mergeSort seedKeyLe).take
        (fallbackCountOf width height)).map (fun c => c.1.1) = [] := hc
      rw [List.map_eq_nil_iff] at hlen
      rw [hlen] at hlenpos
      simp at hlenpos

theorem collectBorderSeeds_spec_witness :
    (0 : ℕ) ∈ collectBorderSeeds (fun _ => 0) 1 1 ⟨0, 0, 0, 0, 0⟩
      (fun _ => 0) ∧
    collectBorderSeeds (fun _ => 0) 1 1 ⟨0, 0, 0, 0, 0⟩ (fun _ => 0) ≠
      [] := by
  have hspec := collectBorderSeeds_spec (fun _ => 0) 1 1 ⟨0, 0, 0, 0, 0⟩
    (fun _ => 0) (by norm_num) (by norm_num) (by norm_num)
  have hbt : borderThicknessOf 1 1 = 1 := by
    unfold borderThicknessOf jsRound
    norm_num
  have hscan : borderSeedScan 1 1 1 = [0, 0] := by
    unfold borderSeedScan
    rfl
  have hd : rgbDistanceSqAt (fun _ => 0) 0 (0 : ℚ) 0 0 = 0 := by
    unfold rgbDistanceSqAt rgbDistanceSq
    norm_num
  have hmem0 : (0 : ℕ) ∈ borderSeedScan 1 1 (borderThicknessOf 1 1) := by
    rw [hbt, hscan]
    simp
  have hex : ∃ j ∈ borderSeedScan 1 1 (borderThicknessOf 1 1),
      rgbDistanceSqAt (fun _ => 0) j (0 : ℚ) 0 0 ≤ (0 : ℚ) ∧
      ((fun _ => (0 : ℚ)) j) ≤ 85 := by
    refine ⟨0, hmem0, ?_, by norm_num⟩
    rw [hd]
  refine ⟨?_, hspec.2.2⟩
  refine (hspec.1 hex 0).mpr ⟨hmem0, ?_, by norm_num⟩
  rw [hd]

/-- `invertBinaryMask(mask)`: `out[i] = mask[i] ? 0 : 1`. -/
def invertBinaryMask (mask : ℕ → ℕ) : ℕ → ℕ :=
  fun i => if mask i ≠ 0 then 0 else 1

/-- `dilateBinary(mask, width, height, radius)`: 1 where the clamped
`(2r+1)×(2r+1)` window contains a foreground pixel. -/
def dilateBinary (mask : ℕ → ℕ) (width height radius : ℕ) : ℕ → ℕ :=
  fun i =>
    let x := i % width
    let y := i / width
    if ((List.range' (y - radius)
        (min (height - 1) (y + radius) + 1 - (y - radius))).flatMap
        (fun ny => (List.range' (x - radius)
          (min (width - 1) (x + radius) + 1 - (x - radius))).map
          (fun nx => ny * width + nx))).any
        (fun j => decide (mask j ≠ 0)) = true
    then 1 else 0

/-- `erodeBinary(mask, width, height, radius)`: 1 where the clamped window
is entirely foreground. -/
def erodeBinary (mask : ℕ → ℕ) (width height radius : ℕ) : ℕ → ℕ :=
  fun i =>
    let x := i % width
    let y := i / width
    if ((List.range' (y - radius)
        (min (height - 1) (y + radius) + 1 - (y - radius))).flatMap
        (fun ny => (List.range' (x - radius)
          (min (width - 1) (x + radius) + 1 - (x - radius))).map
          (fun nx => ny * width + nx))).all
        (fun j => decide (mask j ≠ 0)) = true
    then 1 else 0

/-- Embedding of `buildLocalForegroundMask(data, width, height)`: model
estimation, gradient map, border seeds, background growth, inversion,
component filtering, hole filling, closing then opening, and final
softening with `blurRadius = max(1, featherAmount + 1)`. -/
def buildLocalForegroundMask (data : ℕ → ℕ)
    (width height featherAmount : ℕ) : Option (ℕ → ℚ) :=
  let model := estimateBackgroundModel data width height
  let gradient := fun idx => gradientAt data width height idx
  let seeds := collectBorderSeeds data width height model gradient
  (growBackgroundRegion data width height model gradient seeds).bind
    (fun bg =>
      (keepMainForegroundRegions (invertBinaryMask bg) width height).bind
        (fun fg1 =>
          (fillMaskHoles fg1 width height).map
            (fun fg2 =>
              softenBinaryMask
                (erodeBinary (dilateBinary
                  (dilateBinary (erodeBinary fg2 width height 1)
                    width height 1) width height 1) width height 1)
                width height (blurRadiusOf featherAmount))))

/-- C9: the local segmentation pipeline is deterministic — two runs of
`buildLocalForegroundMask` on pointwise-identical pixel buffers with the
same dimensions and feather amount return the same result, and when both
succeed the matte buffers agree pixel for pixel.  Every stage of the
embedding is a pure function: colour bins are kept in insertion order, and
both the percentile sort and the seed-ranking sort are stable merge sorts,
so no step depends on hash-map iteration order or unstable tie-breaking. -/
theorem buildLocalForegroundMask_deterministic :
    ∀ (data1 data2 : ℕ → ℕ) (width height feather1 feather2 : ℕ),
      (∀ j, data1 j = data2 j) → feather1 = feather2 →
      buildLocalForegroundMask data1 width height feather1 =
        buildLocalForegroundMask data2 width height feather2 ∧
      (∀ m1 m2,
        buildLocalForegroundMask data1 width height feather1 = some m1 →
        buildLocalForegroundMask data2 width height feather2 = some m2 →
        ∀ i, m1 i = m2 i) := by
  intro data1 data2 width height feather1 feather2 hdata hfeather
  have hd : data1 = data2 := funext hdata
  subst hd
  subst hfeather
  refine ⟨rfl, ?_⟩
  intro m1 m2 h1 h2 i
  rw [h1] at h2
  injection h2 with h2
  rw [h2]

theorem buildLocalForegroundMask_deterministic_witness :
    buildLocalForegroundMask (fun _ => 0) 1 1 2 =
      buildLocalForegroundMask (fun _ => 0) 1 1 2 ∧
    (∀ m1 m2,
      buildLocalForegroundMask (fun _ => 0) 1 1 2 = some m1 →
      buildLocalForegroundMask (fun _ => 0) 1 1 2 = some m2 →
      ∀ i, m1 i = m2 i) :=
  buildLocalForegroundMask_deterministic (fun _ => 0) (fun _ => 0) 1 1 2 2
    (fun _ => rfl) rfl
